import Mathlib

/-!
Verification of the jsbsim-wasm bindings generator against its specification.

The definitions below are shallow embeddings of the JavaScript sources in
`scripts/bindings-generator/` (`type-utils.mjs`, `signature.mjs`,
`type-metadata.mjs`, `methods-from-ast.mjs`, `clang-ast.mjs`,
`render-jsbsim-api.mjs`) and the generator half of `src/index.ts`.
Strings are modelled as `List Char` wrapped into `String`; the JavaScript
regular-expression replacements used by the sources are embedded as explicit
left-to-right scanners with the exact matching semantics of the regexes
involved (documented at each definition).
-/

namespace JsbsimWasm

set_option maxRecDepth 8000

/-- The JavaScript `\s` character class (also the set trimmed by
`String.prototype.trim`): ASCII whitespace, NBSP, and the Unicode space
separators. -/
def jsWs (c : Char) : Bool :=
  c.toNat == 32 || c.toNat == 9 || c.toNat == 10 || c.toNat == 11 || c.toNat == 12 ||
  c.toNat == 13 || c.toNat == 0xa0 || c.toNat == 0x1680 ||
  (decide (0x2000 ≤ c.toNat) && decide (c.toNat ≤ 0x200a)) ||
  c.toNat == 0x2028 || c.toNat == 0x2029 || c.toNat == 0x202f ||
  c.toNat == 0x205f || c.toNat == 0x3000 || c.toNat == 0xfeff

/-- The character class `[*&<>,]` of `normalizeType`'s second replacement. -/
def isSpecialB (c : Char) : Bool :=
  c == '*' || c == '&' || c == '<' || c == '>' || c == ','

/-- JavaScript regex word characters `[A-Za-z0-9_]` (the `\b` assertion
holds between a word and a non-word character). -/
def isWordChar (c : Char) : Bool :=
  (decide (65 ≤ c.toNat) && decide (c.toNat ≤ 90)) ||
  (decide (97 ≤ c.toNat) && decide (c.toNat ≤ 122)) ||
  (decide (48 ≤ c.toNat) && decide (c.toNat ≤ 57)) ||
  c.toNat == 95

theorem length_dropWhile_le (p : Char → Bool) (l : List Char) :
    (l.dropWhile p).length ≤ l.length :=
  (List.dropWhile_sublist p).length_le


theorem length_dropWhile_lt {p : Char → Bool} {rest : List Char} {d : Char}
    {tail : List Char} (h : rest.dropWhile p = d :: tail) : tail.length < rest.length := by
  have := length_dropWhile_le p rest
  rw [h] at this
  simp only [List.length_cons] at this
  omega

/-!
The three regular-expression replacements inside `normalizeType` and the
scanners below are embedded as recursive functions over `List Char`.  Each
is structurally recursive on an explicit fuel argument (one unit per
consumed character, so `u.length` units always suffice; the fuel-exhausted
branches are unreachable and return the rest of the input unchanged).  A
fuel-irrelevance lemma per function recovers fuel-free step equations.
-/

/-- Fueled embedding of `.replace(/\s+/g, " ")`: every maximal run of
whitespace becomes a single space. -/
def collapseWsF : Nat → List Char → List Char
  | _, [] => []
  | 0, u => u
  | fuel + 1, c :: rest =>
    if jsWs c then ' ' :: collapseWsF fuel (rest.dropWhile jsWs)
    else c :: collapseWsF fuel rest

/-- `.replace(/\s+/g, " ")`. -/
def collapseWs (u : List Char) : List Char := collapseWsF u.length u

theorem collapseWsF_congr :
    ∀ (f₁ f₂ : Nat) (u : List Char), u.length ≤ f₁ → u.length ≤ f₂ →
      collapseWsF f₁ u = collapseWsF f₂ u := by
  intro f₁
  induction f₁ with
  | zero =>
    intro f₂ u h1 _
    have : u = [] := List.length_eq_zero.mp (Nat.le_zero.mp h1)
    subst this
    cases f₂ <;> rfl
  | succ f ih =>
    intro f₂ u h1 h2
    match u with
    | [] => cases f₂ <;> rfl
    | c :: rest =>
      match f₂ with
      | 0 => exact absurd h2 (by simp)
      | g + 1 =>
        simp only [List.length_cons] at h1 h2
        simp only [collapseWsF]
        by_cases hc : jsWs c
        · simp only [hc, if_true]
          have hd := length_dropWhile_le jsWs rest
          exact congrArg _ (ih g _ (by omega) (by omega))
        · simp only [hc, Bool.false_eq_true, if_false]
          rw [ih g rest (by omega) (by omega)]

theorem collapseWsF_eq {fuel : Nat} {u : List Char} (h : u.length ≤ fuel) :
    collapseWsF fuel u = collapseWs u :=
  collapseWsF_congr fuel u.length u h (Nat.le_refl _)

theorem collapseWs_nil : collapseWs [] = [] := rfl

theorem collapseWs_ws {c : Char} (hc : jsWs c = true) (rest : List Char) :
    collapseWs (c :: rest) = ' ' :: collapseWs (rest.dropWhile jsWs) := by
  show collapseWsF (rest.length + 1) (c :: rest) = _
  simp only [collapseWsF, hc, if_true]
  exact congrArg _ (collapseWsF_eq (length_dropWhile_le jsWs rest))

theorem collapseWs_plain {c : Char} (hc : jsWs c = false) (rest : List Char) :
    collapseWs (c :: rest) = c :: collapseWs rest := by
  show collapseWsF (rest.length + 1) (c :: rest) = _
  simp only [collapseWsF, hc, Bool.false_eq_true, if_false]
  exact congrArg _ (collapseWsF_eq (Nat.le_refl _))

/-- Fueled embedding of `.replace(/\s*([*&<>,])\s*/g, "$1")`: scanning left
to right, a whitespace run that leads into one of `* & < > ,` is deleted
together with that character's trailing whitespace run; whitespace not
adjacent to such a character is kept. -/
def squeezeSpecialsF : Nat → List Char → List Char
  | _, [] => []
  | 0, u => u
  | fuel + 1, c :: rest =>
    if isSpecialB c then c :: squeezeSpecialsF fuel (rest.dropWhile jsWs)
    else if jsWs c then
      match rest.dropWhile jsWs with
      | [] => c :: rest.takeWhile jsWs
      | d :: tail =>
        if isSpecialB d then d :: squeezeSpecialsF fuel (tail.dropWhile jsWs)
        else (c :: rest.takeWhile jsWs) ++ d :: squeezeSpecialsF fuel tail
    else c :: squeezeSpecialsF fuel rest

/-- `.replace(/\s*([*&<>,])\s*/g, "$1")`. -/
def squeezeSpecials (u : List Char) : List Char := squeezeSpecialsF u.length u

theorem squeezeSpecialsF_congr :
    ∀ (f₁ f₂ : Nat) (u : List Char), u.length ≤ f₁ → u.length ≤ f₂ →
      squeezeSpecialsF f₁ u = squeezeSpecialsF f₂ u := by
  intro f₁
  induction f₁ with
  | zero =>
    intro f₂ u h1 _
    have : u = [] := List.length_eq_zero.mp (Nat.le_zero.mp h1)
    subst this
    cases f₂ <;> rfl
  | succ f ih =>
    intro f₂ u h1 h2
    match u with
    | [] => cases f₂ <;> rfl
    | c :: rest =>
      match f₂ with
      | 0 => exact absurd h2 (by simp)
      | g + 1 =>
        simp only [List.length_cons] at h1 h2
        simp only [squeezeSpecialsF]
        by_cases hs : isSpecialB c
        · simp only [hs, if_true]
          have hd := length_dropWhile_le jsWs rest
          exact congrArg _ (ih g _ (by omega) (by omega))
        · simp only [hs, Bool.false_eq_true, if_false]
          by_cases hw : jsWs c
          · simp only [hw, if_true]
            match hdr : rest.dropWhile jsWs with
            | [] => rfl
            | d :: tail =>
              have htl : tail.length < rest.length := length_dropWhile_lt hdr
              by_cases hds : isSpecialB d
              · simp only [hds, if_true]
                have := length_dropWhile_le jsWs tail
                exact congrArg _ (ih g _ (by omega) (by omega))
              · simp only [hds, Bool.false_eq_true, if_false]
                have := ih g tail (by omega) (by omega)
                rw [this]
          · simp only [hw, Bool.false_eq_true, if_false]
            rw [ih g rest (by omega) (by omega)]

theorem squeezeSpecialsF_eq {fuel : Nat} {u : List Char} (h : u.length ≤ fuel) :
    squeezeSpecialsF fuel u = squeezeSpecials u :=
  squeezeSpecialsF_congr fuel u.length u h (Nat.le_refl _)

theorem squeezeSpecials_nil : squeezeSpecials [] = [] := rfl

theorem squeezeSpecials_special {c : Char} (hc : isSpecialB c = true) (rest : List Char) :
    squeezeSpecials (c :: rest) = c :: squeezeSpecials (rest.dropWhile jsWs) := by
  show squeezeSpecialsF (rest.length + 1) (c :: rest) = _
  simp only [squeezeSpecialsF, hc, if_true]
  exact congrArg _ (squeezeSpecialsF_eq (length_dropWhile_le jsWs rest))

theorem squeezeSpecials_plain {c : Char} (h1 : jsWs c = false) (h2 : isSpecialB c = false)
    (rest : List Char) : squeezeSpecials (c :: rest) = c :: squeezeSpecials rest := by
  show squeezeSpecialsF (rest.length + 1) (c :: rest) = _
  simp only [squeezeSpecialsF, h1, h2, Bool.false_eq_true, if_false]
  exact congrArg _ (squeezeSpecialsF_eq (Nat.le_refl _))

theorem squeezeSpecials_ws_nil {c : Char} (h1 : jsWs c = true) (h2 : isSpecialB c = false)
    {rest : List Char} (hr : rest.dropWhile jsWs = []) :
    squeezeSpecials (c :: rest) = c :: rest.takeWhile jsWs := by
  show squeezeSpecialsF (rest.length + 1) (c :: rest) = _
  simp only [squeezeSpecialsF, h1, h2, Bool.false_eq_true, if_false, if_true, hr]

theorem squeezeSpecials_ws_special {c d : Char} (h1 : jsWs c = true) (h2 : isSpecialB c = false)
    {rest tail : List Char} (hr : rest.dropWhile jsWs = d :: tail) (hd : isSpecialB d = true) :
    squeezeSpecials (c :: rest) = d :: squeezeSpecials (tail.dropWhile jsWs) := by
  show squeezeSpecialsF (rest.length + 1) (c :: rest) = _
  simp only [squeezeSpecialsF, h1, h2, Bool.false_eq_true, if_false, if_true, hr, hd]
  have htl : tail.length < rest.length := length_dropWhile_lt hr
  have := length_dropWhile_le jsWs tail
  exact congrArg _ (squeezeSpecialsF_eq (by omega))

theorem squeezeSpecials_ws_plain {c d : Char} (h1 : jsWs c = true) (h2 : isSpecialB c = false)
    {rest tail : List Char} (hr : rest.dropWhile jsWs = d :: tail) (hd : isSpecialB d = false) :
    squeezeSpecials (c :: rest) = (c :: rest.takeWhile jsWs) ++ d :: squeezeSpecials tail := by
  show squeezeSpecialsF (rest.length + 1) (c :: rest) = _
  simp only [squeezeSpecialsF, h1, h2, Bool.false_eq_true, if_false, if_true, hr, hd]
  have htl : tail.length < rest.length := length_dropWhile_lt hr
  rw [squeezeSpecialsF_eq (by omega)]

/-- `true` when the list starts with the five characters of `const`. -/
def startsWithConst (u : List Char) : Bool :=
  u.take 5 == ['c', 'o', 'n', 's', 't']

/-- `true` when the list is empty or starts with a non-word character
(the closing `\b` of `\bconst\b`). -/
def headIsNonWordOrNil : List Char → Bool
  | [] => true
  | c :: _ => !isWordChar c

/-- `true` when the list is empty or starts with a non-whitespace character. -/
def headNotWs : List Char → Bool
  | [] => true
  | c :: _ => !jsWs c

/-- The match condition of `/\bconst\b/` at the current scan position: the
previous character (tracked by `pw`) is not a word character, the input
starts with `const`, and the following character (if any) is not a word
character. -/
def constBoundary (pw : Bool) (u : List Char) : Bool :=
  !pw && startsWithConst u && headIsNonWordOrNil (u.drop 5)

theorem startsWithConst_length {u : List Char} (h : startsWithConst u = true) :
    5 ≤ u.length := by
  simp only [startsWithConst, beq_iff_eq] at h
  have := congrArg List.length h
  simp only [List.length_take, List.length_cons, List.length_nil] at this
  omega

theorem constBoundary_length {pw : Bool} {u : List Char} (h : constBoundary pw u = true) :
    5 ≤ u.length := by
  simp only [constBoundary, Bool.and_eq_true] at h
  exact startsWithConst_length h.1.2

/-- Fueled embedding of `.replace(/\bconst\b\s*/g, "const ")`: each
word-boundary occurrence of `const`, together with the whitespace run
following it, is replaced by `const` plus a single space.  `pw` records
whether the character before the scan position is a word character
(initially `false`: start of input). -/
def padConstF : Nat → Bool → List Char → List Char
  | _, _, [] => []
  | 0, _, u => u
  | fuel + 1, pw, u@(c :: rest) =>
    if constBoundary pw u then
      'c' :: 'o' :: 'n' :: 's' :: 't' :: ' ' ::
        padConstF fuel (((u.drop 5).takeWhile jsWs).isEmpty) ((u.drop 5).dropWhile jsWs)
    else c :: padConstF fuel (isWordChar c) rest

/-- `.replace(/\bconst\b\s*/g, "const ")`. -/
def padConst (pw : Bool) (u : List Char) : List Char := padConstF u.length pw u

theorem padConstF_congr :
    ∀ (f₁ f₂ : Nat) (pw : Bool) (u : List Char), u.length ≤ f₁ → u.length ≤ f₂ →
      padConstF f₁ pw u = padConstF f₂ pw u := by
  intro f₁
  induction f₁ with
  | zero =>
    intro f₂ pw u h1 _
    have : u = [] := List.length_eq_zero.mp (Nat.le_zero.mp h1)
    subst this
    cases f₂ <;> rfl
  | succ f ih =>
    intro f₂ pw u h1 h2
    match u with
    | [] => cases f₂ <;> rfl
    | c :: rest =>
      match f₂ with
      | 0 => exact absurd h2 (by simp)
      | g + 1 =>
        simp only [List.length_cons] at h1 h2
        simp only [padConstF]
        by_cases hb : constBoundary pw (c :: rest)
        · simp only [hb, if_true]
          have h5 : 5 ≤ (c :: rest).length := constBoundary_length hb
          simp only [List.length_cons] at h5
          have hd : ((c :: rest).drop 5).length = rest.length - 4 := by
            simp only [List.length_drop, List.length_cons]
            omega
          have := length_dropWhile_le jsWs ((c :: rest).drop 5)
          rw [ih g _ _ (by omega) (by omega)]
        · simp only [hb, Bool.false_eq_true, if_false]
          rw [ih g _ rest (by omega) (by omega)]

theorem padConstF_eq {fuel : Nat} {pw : Bool} {u : List Char} (h : u.length ≤ fuel) :
    padConstF fuel pw u = padConst pw u :=
  padConstF_congr fuel u.length pw u h (Nat.le_refl _)

theorem padConst_nil (pw : Bool) : padConst pw [] = [] := rfl

theorem padConst_boundary {pw : Bool} {u : List Char} (h : constBoundary pw u = true) :
    padConst pw u = 'c' :: 'o' :: 'n' :: 's' :: 't' :: ' ' ::
      padConst (((u.drop 5).takeWhile jsWs).isEmpty) ((u.drop 5).dropWhile jsWs) := by
  match u with
  | [] => exact absurd (constBoundary_length h) (by simp)
  | c :: rest =>
    show padConstF (rest.length + 1) pw (c :: rest) = _
    simp only [padConstF, h, if_true]
    have h5 : 5 ≤ (c :: rest).length := constBoundary_length h
    simp only [List.length_cons] at h5
    have := length_dropWhile_le jsWs ((c :: rest).drop 5)
    have hd : ((c :: rest).drop 5).length = rest.length - 4 := by
      simp only [List.length_drop, List.length_cons]; omega
    rw [padConstF_eq (by omega)]

theorem padConst_cons {pw : Bool} {c : Char} {rest : List Char}
    (h : constBoundary pw (c :: rest) = false) :
    padConst pw (c :: rest) = c :: padConst (isWordChar c) rest := by
  show padConstF (rest.length + 1) pw (c :: rest) = _
  simp only [padConstF, h, Bool.false_eq_true, if_false]
  rw [padConstF_eq (Nat.le_refl _)]

/-- Removal of a trailing whitespace run (the right half of
`String.prototype.trim`). -/
def trimTrail : List Char → List Char
  | [] => []
  | c :: rest =>
    match trimTrail rest with
    | [] => if jsWs c then [] else [c]
    | r => c :: r

/-- Embedding of `String.prototype.trim` (which removes exactly the `\s`
characters): drop leading and trailing whitespace. -/
def jsTrimList (u : List Char) : List Char :=
  trimTrail (u.dropWhile jsWs)

theorem trimTrail_nil : trimTrail [] = [] := rfl

theorem trimTrail_cons (c : Char) (rest : List Char) :
    trimTrail (c :: rest) =
      match trimTrail rest with
      | [] => if jsWs c then [] else [c]
      | r => c :: r := rfl

/-- `type-utils.mjs` `normalizeType`, on character lists: collapse
whitespace runs, delete whitespace around `* & < > ,`, force exactly one
space after each standalone `const`, and trim. -/
def normalizeTypeL (u : List Char) : List Char :=
  jsTrimList (padConst false (squeezeSpecials (collapseWs u)))

/-- `type-utils.mjs` `normalizeType` (also duplicated verbatim in the
generator half of `src/index.ts`). -/
def normalizeType (s : String) : String :=
  String.mk (normalizeTypeL s.data)

/-! ### Character-class facts -/

theorem isSpecialB_iff {c : Char} :
    isSpecialB c = true ↔ c = '*' ∨ c = '&' ∨ c = '<' ∨ c = '>' ∨ c = ',' := by
  simp [isSpecialB, beq_iff_eq, or_assoc]

theorem jsWs_of_special {c : Char} (h : isSpecialB c = true) : jsWs c = false := by
  rcases isSpecialB_iff.mp h with rfl | rfl | rfl | rfl | rfl <;> decide

theorem isWordChar_of_special {c : Char} (h : isSpecialB c = true) : isWordChar c = false := by
  rcases isSpecialB_iff.mp h with rfl | rfl | rfl | rfl | rfl <;> decide

theorem special_of_jsWs {c : Char} (h : jsWs c = true) : isSpecialB c = false := by
  cases hs : isSpecialB c with
  | true => rw [jsWs_of_special hs] at h; cases h
  | false => rfl

theorem isWordChar_of_jsWs {c : Char} (h : jsWs c = true) : isWordChar c = false := by
  simp only [jsWs, Bool.or_eq_true, beq_iff_eq, Bool.and_eq_true, decide_eq_true_eq,
    or_assoc] at h
  simp only [isWordChar, Bool.or_eq_false_iff, Bool.and_eq_false_iff, beq_eq_false_iff_ne,
    decide_eq_false_iff_not, ne_eq]
  rcases h with h | h | h | h | h | h | h | h | h | h | h | h | h | h | h <;> omega

/-! ### Normal form of `normalizeType` outputs -/

/-- `true` when the list is empty or starts with a character that is neither
whitespace nor one of `* & < > ,`. -/
def headNotWsNotSpecial : List Char → Bool
  | [] => true
  | c :: _ => !jsWs c && !isSpecialB c

/-- Scan invariant of `collapseWs` outputs: every whitespace character is a
plain space followed by a non-whitespace character or the end. -/
def wsSingles : List Char → Bool
  | [] => true
  | c :: rest => (if jsWs c then c == ' ' && headNotWs rest else true) && wsSingles rest

/-- Scan invariant of `squeezeSpecials ∘ collapseWs` outputs: `wsSingles`
and additionally no whitespace directly before or after a special
character. -/
def bOut : List Char → Bool
  | [] => true
  | c :: rest =>
    (if jsWs c then c == ' ' && headNotWsNotSpecial rest
     else if isSpecialB c then headNotWs rest
     else true) && bOut rest

/-- Fueled normal-form predicate for `normalizeType` outputs (up to
boundary trimming): whitespace is a single space followed by a non-special
non-whitespace character, no whitespace follows a special character, and
every word-boundary `const` is followed by exactly one space (which may
precede a special character) or ends the list.  `pw` tracks word-character
context exactly as in `padConst`. -/
def nfAuxF : Nat → Bool → List Char → Bool
  | _, _, [] => true
  | 0, _, _ => true
  | fuel + 1, pw, u@(c :: rest) =>
    if constBoundary pw u then
      match u.drop 5 with
      | [] => true
      | w :: v => w == ' ' && headNotWs v && nfAuxF fuel false v
    else
      if isSpecialB c then headNotWs rest && nfAuxF fuel false rest
      else if jsWs c then c == ' ' && headNotWsNotSpecial rest && nfAuxF fuel false rest
      else nfAuxF fuel (isWordChar c) rest

/-- Normal-form predicate (fuel instantiated). -/
def nfAux (pw : Bool) (u : List Char) : Bool := nfAuxF u.length pw u

theorem drop5_length {c : Char} {rest : List Char} {w : Char} {v : List Char}
    (h : (c :: rest).drop 5 = w :: v) : v.length + 5 = rest.length := by
  have := congrArg List.length h
  simp only [List.length_drop, List.length_cons] at this
  omega

theorem nfAuxF_congr :
    ∀ (f₁ f₂ : Nat) (pw : Bool) (u : List Char), u.length ≤ f₁ → u.length ≤ f₂ →
      nfAuxF f₁ pw u = nfAuxF f₂ pw u := by
  intro f₁
  induction f₁ with
  | zero =>
    intro f₂ pw u h1 _
    have : u = [] := List.length_eq_zero.mp (Nat.le_zero.mp h1)
    subst this
    cases f₂ <;> rfl
  | succ f ih =>
    intro f₂ pw u h1 h2
    match u with
    | [] => cases f₂ <;> rfl
    | c :: rest =>
      match f₂ with
      | 0 => exact absurd h2 (by simp)
      | g + 1 =>
        simp only [List.length_cons] at h1 h2
        simp only [nfAuxF]
        by_cases hb : constBoundary pw (c :: rest)
        · simp only [hb, if_true]
          match hdrop : (c :: rest).drop 5 with
          | [] => rfl
          | w :: v =>
            have hv := drop5_length hdrop
            dsimp only
            rw [ih g false v (by omega) (by omega)]
        · simp only [hb, Bool.false_eq_true, if_false]
          by_cases hs : isSpecialB c
          · simp only [hs, if_true]
            rw [ih g false rest (by omega) (by omega)]
          · simp only [hs, Bool.false_eq_true, if_false]
            by_cases hw : jsWs c
            · simp only [hw, if_true]
              rw [ih g false rest (by omega) (by omega)]
            · simp only [hw, Bool.false_eq_true, if_false]
              rw [ih g (isWordChar c) rest (by omega) (by omega)]

theorem nfAuxF_eq {fuel : Nat} {pw : Bool} {u : List Char} (h : u.length ≤ fuel) :
    nfAuxF fuel pw u = nfAux pw u :=
  nfAuxF_congr fuel u.length pw u h (Nat.le_refl _)

theorem nfAux_nil (pw : Bool) : nfAux pw [] = true := rfl

theorem nfAux_boundary_nil {pw : Bool} {u : List Char} (h : constBoundary pw u = true)
    (h5 : u.drop 5 = []) : nfAux pw u = true := by
  match u with
  | [] => rfl
  | c :: rest =>
    show nfAuxF (rest.length + 1) pw (c :: rest) = true
    simp only [nfAuxF, h, if_true, h5]

theorem nfAux_boundary_cons {pw : Bool} {u : List Char} {w : Char} {v : List Char}
    (h : constBoundary pw u = true) (h5 : u.drop 5 = w :: v) :
    nfAux pw u = ((w == ' ') && headNotWs v && nfAux false v) := by
  match u with
  | [] => cases h5
  | c :: rest =>
    show nfAuxF (rest.length + 1) pw (c :: rest) = _
    simp only [nfAuxF, h, if_true, h5]
    have hv := drop5_length h5
    rw [nfAuxF_eq (by omega)]

theorem nfAux_special {pw : Bool} {c : Char} {rest : List Char}
    (h : constBoundary pw (c :: rest) = false) (hc : isSpecialB c = true) :
    nfAux pw (c :: rest) = (headNotWs rest && nfAux false rest) := by
  show nfAuxF (rest.length + 1) pw (c :: rest) = _
  simp only [nfAuxF, h, Bool.false_eq_true, if_false, hc, if_true]
  rw [nfAuxF_eq (Nat.le_refl _)]

theorem nfAux_ws {pw : Bool} {c : Char} {rest : List Char}
    (h : constBoundary pw (c :: rest) = false) (hc : isSpecialB c = false)
    (hw : jsWs c = true) :
    nfAux pw (c :: rest) = ((c == ' ') && headNotWsNotSpecial rest && nfAux false rest) := by
  show nfAuxF (rest.length + 1) pw (c :: rest) = _
  simp only [nfAuxF, h, hc, Bool.false_eq_true, if_false, hw, if_true]
  rw [nfAuxF_eq (Nat.le_refl _)]

theorem nfAux_plain {pw : Bool} {c : Char} {rest : List Char}
    (h : constBoundary pw (c :: rest) = false) (hc : isSpecialB c = false)
    (hw : jsWs c = false) :
    nfAux pw (c :: rest) = nfAux (isWordChar c) rest := by
  show nfAuxF (rest.length + 1) pw (c :: rest) = _
  simp only [nfAuxF, h, hc, hw, Bool.false_eq_true, if_false]
  rw [nfAuxF_eq (Nat.le_refl _)]

/-! ### Head-preservation and `const`-prefix lemmas -/

theorem headNotWs_dropWhile (l : List Char) : headNotWs (l.dropWhile jsWs) = true := by
  induction l with
  | nil => rfl
  | cons c rest ih =>
    rw [List.dropWhile_cons]
    by_cases hc : jsWs c
    · simp [hc, ih]
    · simp only [hc, Bool.false_eq_true, if_false, headNotWs]
      simp [Bool.not_eq_true', hc]

theorem takeWhile_eq_nil_of_headNotWs {l : List Char} (h : headNotWs l = true) :
    l.takeWhile jsWs = [] := by
  match l with
  | [] => rfl
  | c :: rest =>
    simp only [headNotWs, Bool.not_eq_true'] at h
    simp [List.takeWhile_cons, h]

theorem dropWhile_eq_self_of_headNotWs {l : List Char} (h : headNotWs l = true) :
    l.dropWhile jsWs = l := by
  match l with
  | [] => rfl
  | c :: rest =>
    simp only [headNotWs, Bool.not_eq_true'] at h
    simp [List.dropWhile_cons, h]

theorem headNotWs_collapseWs {u : List Char} (h : headNotWs u = true) :
    headNotWs (collapseWs u) = true := by
  match u with
  | [] => rfl
  | c :: rest =>
    simp only [headNotWs, Bool.not_eq_true'] at h
    rw [collapseWs_plain h]
    simp [headNotWs, h]

theorem headNotWs_squeeze {u : List Char} (h : headNotWs u = true) :
    headNotWs (squeezeSpecials u) = true := by
  match u with
  | [] => rfl
  | c :: rest =>
    simp only [headNotWs, Bool.not_eq_true'] at h
    by_cases hs : isSpecialB c
    · rw [squeezeSpecials_special hs]
      simp [headNotWs, h]
    · rw [squeezeSpecials_plain h (Bool.not_eq_true _ ▸ hs)]
      simp [headNotWs, h]

theorem exists_cons_squeeze_of_headNotWs {c : Char} (hc : jsWs c = false) (rest : List Char) :
    ∃ t, squeezeSpecials (c :: rest) = c :: t := by
  by_cases hs : isSpecialB c
  · exact ⟨_, squeezeSpecials_special hs rest⟩
  · exact ⟨_, squeezeSpecials_plain hc (Bool.not_eq_true _ ▸ hs) rest⟩

theorem headIsNonWordOrNil_squeeze (v : List Char) :
    headIsNonWordOrNil (squeezeSpecials v) = headIsNonWordOrNil v := by
  match v with
  | [] => rfl
  | d :: r =>
    by_cases hw : jsWs d
    · by_cases hs : isSpecialB d
      · rw [jsWs_of_special hs] at hw; cases hw
      · have hs' : isSpecialB d = false := Bool.not_eq_true _ ▸ hs
        match hdr : r.dropWhile jsWs with
        | [] =>
          rw [squeezeSpecials_ws_nil hw hs' hdr]
          simp [headIsNonWordOrNil]
        | e :: tail =>
          by_cases he : isSpecialB e
          · rw [squeezeSpecials_ws_special hw hs' hdr he]
            simp [headIsNonWordOrNil, isWordChar_of_special he, isWordChar_of_jsWs hw]
          · rw [squeezeSpecials_ws_plain hw hs' hdr (Bool.not_eq_true _ ▸ he)]
            simp [headIsNonWordOrNil]
    · have hw' : jsWs d = false := Bool.not_eq_true _ ▸ hw
      rcases exists_cons_squeeze_of_headNotWs hw' r with ⟨t, ht⟩
      rw [ht]
      simp [headIsNonWordOrNil]

theorem startsWithConst_cons_of_ne {c : Char} (h : c ≠ 'c') (r : List Char) :
    startsWithConst (c :: r) = false := by
  simp [startsWithConst, List.take_succ_cons, h]

theorem startsWithConst_iff {u : List Char} :
    startsWithConst u = true ↔ ∃ v, u = 'c' :: 'o' :: 'n' :: 's' :: 't' :: v := by
  constructor
  · intro h
    simp only [startsWithConst, beq_iff_eq] at h
    refine ⟨u.drop 5, ?_⟩
    conv_lhs => rw [← List.take_append_drop 5 u]
    rw [h]
    rfl
  · rintro ⟨v, rfl⟩
    simp [startsWithConst, List.take_succ_cons]

theorem squeeze_const_lead (v : List Char) :
    squeezeSpecials ('c' :: 'o' :: 'n' :: 's' :: 't' :: v) =
      'c' :: 'o' :: 'n' :: 's' :: 't' :: squeezeSpecials v := by
  rw [squeezeSpecials_plain (by decide) (by decide),
    squeezeSpecials_plain (by decide) (by decide),
    squeezeSpecials_plain (by decide) (by decide),
    squeezeSpecials_plain (by decide) (by decide),
    squeezeSpecials_plain (by decide) (by decide)]

theorem squeeze_cons_eq_cons {u : List Char} {a : Char} {x : List Char}
    (ha1 : jsWs a = false) (ha2 : isSpecialB a = false)
    (h : squeezeSpecials u = a :: x) :
    ∃ rest, u = a :: rest ∧ squeezeSpecials rest = x := by
  match u with
  | [] => rw [squeezeSpecials_nil] at h; cases h
  | c :: rest =>
    by_cases hwsc : jsWs c
    · by_cases hs : isSpecialB c
      · rw [jsWs_of_special hs] at hwsc; cases hwsc
      · have hs' : isSpecialB c = false := Bool.not_eq_true _ ▸ hs
        match hdr : rest.dropWhile jsWs with
        | [] =>
          rw [squeezeSpecials_ws_nil hwsc hs' hdr] at h
          have hc : c = a := by injection h
          rw [hc] at hwsc
          rw [hwsc] at ha1
          cases ha1
        | e :: tail =>
          by_cases he : isSpecialB e
          · rw [squeezeSpecials_ws_special hwsc hs' hdr he] at h
            have hc : e = a := by injection h
            rw [hc] at he
            rw [he] at ha2
            cases ha2
          · rw [squeezeSpecials_ws_plain hwsc hs' hdr (Bool.not_eq_true _ ▸ he)] at h
            have hc : c = a := by injection h
            rw [hc] at hwsc
            rw [hwsc] at ha1
            cases ha1
    · have hw' : jsWs c = false := Bool.not_eq_true _ ▸ hwsc
      by_cases hs : isSpecialB c
      · rw [squeezeSpecials_special hs] at h
        have hc : c = a := by injection h
        rw [hc] at hs
        rw [hs] at ha2
        cases ha2
      · rw [squeezeSpecials_plain hw' (Bool.not_eq_true _ ▸ hs)] at h
        have hc : c = a := by injection h
        have hx : squeezeSpecials rest = x := by injection h
        exact ⟨rest, by rw [hc], hx⟩

theorem startsWithConst_squeeze (u : List Char) :
    startsWithConst (squeezeSpecials u) = startsWithConst u := by
  by_cases h : startsWithConst u
  · rcases startsWithConst_iff.mp h with ⟨v, rfl⟩
    rw [squeeze_const_lead]
    rw [h]
    exact startsWithConst_iff.mpr ⟨_, rfl⟩
  · have h' : startsWithConst u = false := Bool.not_eq_true _ ▸ h
    rw [h']
    cases hx : startsWithConst (squeezeSpecials u) with
    | false => rfl
    | true =>
      exfalso
      rcases startsWithConst_iff.mp hx with ⟨w, hw⟩
      rcases squeeze_cons_eq_cons (by decide) (by decide) hw with ⟨r1, rfl, h1⟩
      rcases squeeze_cons_eq_cons (by decide) (by decide) h1 with ⟨r2, rfl, h2⟩
      rcases squeeze_cons_eq_cons (by decide) (by decide) h2 with ⟨r3, rfl, h3⟩
      rcases squeeze_cons_eq_cons (by decide) (by decide) h3 with ⟨r4, rfl, h4⟩
      rcases squeeze_cons_eq_cons (by decide) (by decide) h4 with ⟨r5, rfl, h5⟩
      exact h (startsWithConst_iff.mpr ⟨r5, rfl⟩)

/-! ### Soundness: the scan pipeline establishes the normal form -/

theorem wsSingles_cons_proj {c : Char} {r : List Char} (h : wsSingles (c :: r) = true) :
    wsSingles r = true := by
  simp only [wsSingles, Bool.and_eq_true] at h
  exact h.2

theorem wsSingles_dropWhile {l : List Char} (h : wsSingles l = true) :
    wsSingles (l.dropWhile jsWs) = true := by
  induction l with
  | nil => exact h
  | cons c r ih =>
    rw [List.dropWhile_cons]
    by_cases hc : jsWs c
    · simp only [hc, if_true]
      exact ih (wsSingles_cons_proj h)
    · simp only [hc, Bool.false_eq_true, if_false]
      exact h

theorem wsSingles_collapseWsN :
    ∀ (n : Nat) (u : List Char), u.length ≤ n → wsSingles (collapseWs u) = true := by
  intro n
  induction n with
  | zero =>
    intro u h
    have : u = [] := List.length_eq_zero.mp (Nat.le_zero.mp h)
    subst this
    rfl
  | succ m ih =>
    intro u h
    match u with
    | [] => rfl
    | c :: rest =>
      simp only [List.length_cons] at h
      by_cases hc : jsWs c
      · rw [collapseWs_ws hc]
        have hlen := length_dropWhile_le jsWs rest
        simp only [wsSingles, Bool.and_eq_true]
        refine ⟨?_, ih _ (by omega)⟩
        simp only [show jsWs ' ' = true from by decide, if_true, Bool.and_eq_true]
        exact ⟨by decide, headNotWs_collapseWs (headNotWs_dropWhile rest)⟩
      · rw [collapseWs_plain (Bool.not_eq_true _ ▸ hc)]
        simp only [wsSingles, hc, Bool.false_eq_true, if_false, Bool.true_and]
        exact ih rest (by omega)

theorem wsSingles_collapseWs (u : List Char) : wsSingles (collapseWs u) = true :=
  wsSingles_collapseWsN u.length u (Nat.le_refl _)

theorem bOut_squeezeN :
    ∀ (n : Nat) (u : List Char), u.length ≤ n → wsSingles u = true →
      bOut (squeezeSpecials u) = true := by
  intro n
  induction n with
  | zero =>
    intro u h _
    have : u = [] := List.length_eq_zero.mp (Nat.le_zero.mp h)
    subst this
    rfl
  | succ m ih =>
    intro u h hws
    match u with
    | [] => rfl
    | c :: rest =>
      simp only [List.length_cons] at h
      by_cases hs : isSpecialB c
      · rw [squeezeSpecials_special hs]
        have hlen := length_dropWhile_le jsWs rest
        simp only [bOut, jsWs_of_special hs, Bool.false_eq_true, if_false, hs, if_true,
          Bool.and_eq_true]
        refine ⟨headNotWs_squeeze (headNotWs_dropWhile rest), ?_⟩
        exact ih _ (by omega) (wsSingles_dropWhile (wsSingles_cons_proj hws))
      · have hs' : isSpecialB c = false := Bool.not_eq_true _ ▸ hs
        by_cases hw : jsWs c
        · have hcond : (c == ' ') = true ∧ headNotWs rest = true := by
            simp only [wsSingles, hw, if_true, Bool.and_eq_true] at hws
            exact hws.1
          have hdw : rest.dropWhile jsWs = rest := dropWhile_eq_self_of_headNotWs hcond.2
          have htw : rest.takeWhile jsWs = [] := takeWhile_eq_nil_of_headNotWs hcond.2
          have hceq : c = ' ' := by
            have := hcond.1
            simp only [beq_iff_eq] at this
            exact this
          subst hceq
          match rest, h, hws, hcond, hdw, htw with
          | [], _, _, _, _, _ => decide
          | d :: t, h, hws, hcond, hdw, htw =>
            simp only [List.length_cons] at h
            have hdnw : jsWs d = false := by
              have := hcond.2
              simp only [headNotWs, Bool.not_eq_true'] at this
              exact this
            by_cases hd : isSpecialB d
            · rw [squeezeSpecials_ws_special hw hs' (by rw [hdw]) hd]
              have hlen := length_dropWhile_le jsWs t
              simp only [bOut, hdnw, Bool.false_eq_true, if_false, hd, if_true,
                Bool.and_eq_true]
              refine ⟨headNotWs_squeeze (headNotWs_dropWhile t), ?_⟩
              exact ih _ (by omega)
                (wsSingles_dropWhile (wsSingles_cons_proj (wsSingles_cons_proj hws)))
            · have hd' : isSpecialB d = false := Bool.not_eq_true _ ▸ hd
              rw [squeezeSpecials_ws_plain hw hs' (by rw [hdw]) hd']
              rw [htw]
              simp only [List.cons_append, List.nil_append, bOut, hw, if_true, hdnw,
                Bool.false_eq_true, if_false, hd', Bool.and_eq_true, headNotWsNotSpecial]
              refine ⟨⟨hcond.1, by simp [hdnw, hd']⟩, ?_, ?_⟩
              · simp
              · exact ih t (by omega) (wsSingles_cons_proj (wsSingles_cons_proj hws))
        · have hw' : jsWs c = false := Bool.not_eq_true _ ▸ hw
          rw [squeezeSpecials_plain hw' hs']
          simp only [bOut, hw', Bool.false_eq_true, if_false, hs', Bool.true_and]
          exact ih rest (by omega) (wsSingles_cons_proj hws)

theorem bOut_squeeze {u : List Char} (h : wsSingles u = true) :
    bOut (squeezeSpecials u) = true :=
  bOut_squeezeN u.length u (Nat.le_refl _) h

theorem bOut_cons_proj {c : Char} {r : List Char} (h : bOut (c :: r) = true) :
    bOut r = true := by
  simp only [bOut, Bool.and_eq_true] at h
  exact h.2

theorem bOut_dropWhile {l : List Char} (h : bOut l = true) :
    bOut (l.dropWhile jsWs) = true := by
  induction l with
  | nil => exact h
  | cons c r ih =>
    rw [List.dropWhile_cons]
    by_cases hc : jsWs c
    · simp only [hc, if_true]
      exact ih (bOut_cons_proj h)
    · simp only [hc, Bool.false_eq_true, if_false]
      exact h

theorem exists_cons_padConst (pw : Bool) (c : Char) (r : List Char) :
    ∃ t, padConst pw (c :: r) = c :: t := by
  by_cases hb : constBoundary pw (c :: r)
  · have hsw : startsWithConst (c :: r) = true := by
      simp only [constBoundary, Bool.and_eq_true] at hb
      exact hb.1.2
    rcases startsWithConst_iff.mp hsw with ⟨v, hv⟩
    have hc : c = 'c' := by injection hv
    subst hc
    exact ⟨_, padConst_boundary hb⟩
  · exact ⟨_, padConst_cons (Bool.not_eq_true _ ▸ hb)⟩

theorem headNotWs_padConst (pw : Bool) (v : List Char) :
    headNotWs (padConst pw v) = headNotWs v := by
  match v with
  | [] => rfl
  | c :: r =>
    rcases exists_cons_padConst pw c r with ⟨t, ht⟩
    rw [ht]
    simp [headNotWs]

theorem headNotWsNotSpecial_padConst (pw : Bool) (v : List Char) :
    headNotWsNotSpecial (padConst pw v) = headNotWsNotSpecial v := by
  match v with
  | [] => rfl
  | c :: r =>
    rcases exists_cons_padConst pw c r with ⟨t, ht⟩
    rw [ht]
    simp [headNotWsNotSpecial]

theorem headIsNonWordOrNil_padConst (pw : Bool) (v : List Char) :
    headIsNonWordOrNil (padConst pw v) = headIsNonWordOrNil v := by
  match v with
  | [] => rfl
  | c :: r =>
    rcases exists_cons_padConst pw c r with ⟨t, ht⟩
    rw [ht]
    simp [headIsNonWordOrNil]

theorem padConst_takeN :
    ∀ (n : Nat) (u : List Char) (pw : Bool) (k : Nat), u.length ≤ n → k ≤ 5 →
      (padConst pw u).take k = u.take k := by
  intro n
  induction n with
  | zero =>
    intro u pw k h _
    have : u = [] := List.length_eq_zero.mp (Nat.le_zero.mp h)
    subst this
    rfl
  | succ m ih =>
    intro u pw k h hk
    match u with
    | [] => rfl
    | c :: rest =>
      simp only [List.length_cons] at h
      by_cases hb : constBoundary pw (c :: rest)
      · have hsw : startsWithConst (c :: rest) = true := by
          simp only [constBoundary, Bool.and_eq_true] at hb
          exact hb.1.2
        rcases startsWithConst_iff.mp hsw with ⟨v, hv⟩
        rw [padConst_boundary hb, hv]
        interval_cases k <;> simp [List.take_succ_cons]
      · rw [padConst_cons (Bool.not_eq_true _ ▸ hb)]
        match k with
        | 0 => rfl
        | j + 1 =>
          simp only [List.take_succ_cons, List.cons.injEq, true_and]
          exact ih rest (isWordChar c) j (by omega) (by omega)

theorem padConst_startsWithConst (pw : Bool) (u : List Char) :
    startsWithConst (padConst pw u) = startsWithConst u := by
  simp only [startsWithConst]
  rw [padConst_takeN u.length u pw 5 (Nat.le_refl _) (Nat.le_refl _)]

theorem padConst_const_steps {pw : Bool} {v : List Char}
    (h : constBoundary pw ('c' :: 'o' :: 'n' :: 's' :: 't' :: v) = false) :
    padConst pw ('c' :: 'o' :: 'n' :: 's' :: 't' :: v) =
      'c' :: 'o' :: 'n' :: 's' :: 't' :: padConst true v := by
  have h2 : constBoundary true ('o' :: 'n' :: 's' :: 't' :: v) = false := by
    simp [constBoundary]
  have h3 : constBoundary true ('n' :: 's' :: 't' :: v) = false := by
    simp [constBoundary]
  have h4 : constBoundary true ('s' :: 't' :: v) = false := by
    simp [constBoundary]
  have h5 : constBoundary true ('t' :: v) = false := by
    simp [constBoundary]
  rw [padConst_cons h, show isWordChar 'c' = true from by decide,
    padConst_cons h2, show isWordChar 'o' = true from by decide,
    padConst_cons h3, show isWordChar 'n' = true from by decide,
    padConst_cons h4, show isWordChar 's' = true from by decide,
    padConst_cons h5, show isWordChar 't' = true from by decide]

theorem nfAux_const_steps {pw : Bool} {v : List Char}
    (h : constBoundary pw ('c' :: 'o' :: 'n' :: 's' :: 't' :: v) = false) :
    nfAux pw ('c' :: 'o' :: 'n' :: 's' :: 't' :: v) = nfAux true v := by
  have h2 : constBoundary true ('o' :: 'n' :: 's' :: 't' :: v) = false := by
    simp [constBoundary]
  have h3 : constBoundary true ('n' :: 's' :: 't' :: v) = false := by
    simp [constBoundary]
  have h4 : constBoundary true ('s' :: 't' :: v) = false := by
    simp [constBoundary]
  have h5 : constBoundary true ('t' :: v) = false := by
    simp [constBoundary]
  rw [nfAux_plain h (by decide) (by decide), show isWordChar 'c' = true from by decide,
    nfAux_plain h2 (by decide) (by decide), show isWordChar 'o' = true from by decide,
    nfAux_plain h3 (by decide) (by decide), show isWordChar 'n' = true from by decide,
    nfAux_plain h4 (by decide) (by decide), show isWordChar 's' = true from by decide,
    nfAux_plain h5 (by decide) (by decide), show isWordChar 't' = true from by decide]

theorem takeWhile_isEmpty_headNotWs {v : List Char}
    (h : (v.takeWhile jsWs).isEmpty = true) : headNotWs v = true := by
  match v with
  | [] => rfl
  | d :: t =>
    rw [List.takeWhile_cons] at h
    by_cases hd : jsWs d
    · simp [hd] at h
    · simp [headNotWs, Bool.not_eq_true _ ▸ hd]

/-- Soundness core: `padConst` output over a `squeezeSpecials ∘ collapseWs`
normal input satisfies the normal-form predicate.  The generalized context
hypothesis covers the recursive call after a padded `const` with no
following whitespace (where the scan context is a word character but the
remaining input cannot start another `const`). -/
theorem nfAux_padConstN :
    ∀ (n : Nat) (x : List Char) (pw pw₂ : Bool), x.length ≤ n → bOut x = true →
      (pw₂ = pw ∨ (pw₂ = false ∧ startsWithConst x = false)) →
      nfAux pw₂ (padConst pw x) = true := by
  intro n
  induction n with
  | zero =>
    intro x pw pw₂ h _ _
    have : x = [] := List.length_eq_zero.mp (Nat.le_zero.mp h)
    subst this
    rfl
  | succ m ih =>
    intro x pw pw₂ h hbo hctx
    match x with
    | [] => rfl
    | c :: rest =>
      by_cases hb : constBoundary pw (c :: rest)
      · -- the scanner pads this `const`
        have hcomp : (!pw) = true ∧ startsWithConst (c :: rest) = true ∧
            headIsNonWordOrNil ((c :: rest).drop 5) = true := by
          simp only [constBoundary, Bool.and_eq_true] at hb
          exact ⟨hb.1.1, hb.1.2, hb.2⟩
        rcases startsWithConst_iff.mp hcomp.2.1 with ⟨v, hv⟩
        rw [hv] at hb hbo h hcomp ⊢
        have hdrop : ('c' :: 'o' :: 'n' :: 's' :: 't' :: v).drop 5 = v := rfl
        rw [hdrop] at hcomp
        rw [padConst_boundary hb, hdrop]
        set y := padConst ((v.takeWhile jsWs).isEmpty) (v.dropWhile jsWs) with hy
        have hb₂ : constBoundary pw₂ ('c' :: 'o' :: 'n' :: 's' :: 't' :: ' ' :: y) = true := by
          have hnp : (!pw₂) = true := by
            rcases hctx with rfl | ⟨rfl, _⟩
            · exact hcomp.1
            · rfl
          simp only [constBoundary, hnp, Bool.true_and, Bool.and_eq_true]
          constructor
          · simp [startsWithConst, List.take_succ_cons]
          · show headIsNonWordOrNil (' ' :: y) = true
            rfl
        rw [nfAux_boundary_cons hb₂ rfl]
        simp only [Bool.and_eq_true]
        refine ⟨⟨by decide, ?_⟩, ?_⟩
        · rw [hy, headNotWs_padConst]
          exact headNotWs_dropWhile v
        · rw [hy]
          have hlen : v.length + 5 ≤ m + 1 := by
            simpa using h
          have hdlen := length_dropWhile_le jsWs v
          have hbv : bOut v = true := by
            exact bOut_cons_proj (bOut_cons_proj (bOut_cons_proj (bOut_cons_proj
              (bOut_cons_proj hbo))))
          refine ih _ _ _ (by omega) (bOut_dropWhile hbv) ?_
          cases hpw' : (v.takeWhile jsWs).isEmpty with
          | false => exact Or.inl rfl
          | true =>
            refine Or.inr ⟨rfl, ?_⟩
            have hnw : headNotWs v = true := takeWhile_isEmpty_headNotWs hpw'
            rw [dropWhile_eq_self_of_headNotWs hnw]
            match v, hcomp, hnw with
            | [], _, _ => rfl
            | d :: t, hcomp, hnw =>
              have hdw : isWordChar d = false := by
                have := hcomp.2.2
                simp only [headIsNonWordOrNil, Bool.not_eq_true'] at this
                exact this
              have : d ≠ 'c' := by
                intro hdc
                rw [hdc] at hdw
                exact absurd hdw (by decide)
              exact startsWithConst_cons_of_ne this t
      · -- no padding at this position
        have hb' : constBoundary pw (c :: rest) = false := Bool.not_eq_true _ ▸ hb
        by_cases hsw : startsWithConst (c :: rest)
        · -- the input starts with `const` but the boundary test fails
          rcases startsWithConst_iff.mp hsw with ⟨v, hv⟩
          have hpw₂ : pw₂ = pw := by
            rcases hctx with rfl | ⟨_, hfalse⟩
            · rfl
            · rw [hsw] at hfalse; cases hfalse
          subst hpw₂
          rw [hv] at hb' hbo h ⊢
          rw [padConst_const_steps hb']
          have hnw : headIsNonWordOrNil (padConst true v) = headIsNonWordOrNil v :=
            headIsNonWordOrNil_padConst true v
          have hbout : constBoundary pw₂
              ('c' :: 'o' :: 'n' :: 's' :: 't' :: padConst true v) = false := by
            have hin := hb'
            simp only [constBoundary, Bool.and_eq_true, Bool.and_eq_false_iff] at hin ⊢
            have hdropin : ('c' :: 'o' :: 'n' :: 's' :: 't' :: v).drop 5 = v := rfl
            have hdropout :
                ('c' :: 'o' :: 'n' :: 's' :: 't' :: padConst true v).drop 5 =
                  padConst true v := rfl
            rw [hdropin] at hin
            rw [hdropout, hnw]
            rcases hin with h1 | h2
            · rcases h1 with h1 | h1
              · exact Or.inl (Or.inl h1)
              · rw [hv] at hsw
                rw [hsw] at h1
                cases h1
            · exact Or.inr h2
          rw [nfAux_const_steps hbout]
          have hlen : v.length + 5 ≤ m + 1 := by simpa using h
          have hbv : bOut v = true :=
            bOut_cons_proj (bOut_cons_proj (bOut_cons_proj (bOut_cons_proj
              (bOut_cons_proj hbo))))
          exact ih v true true (by omega) hbv (Or.inl rfl)
        · -- generic single-character step
          have hsw' : startsWithConst (c :: rest) = false := Bool.not_eq_true _ ▸ hsw
          rw [padConst_cons hb']
          have houtsw : startsWithConst (c :: padConst (isWordChar c) rest) = false := by
            have := padConst_startsWithConst pw (c :: rest)
            rw [padConst_cons hb', hsw'] at this
            exact this
          have hb₂ : constBoundary pw₂ (c :: padConst (isWordChar c) rest) = false := by
            simp [constBoundary, houtsw]
          have hbr : bOut rest = true := bOut_cons_proj hbo
          by_cases hsC : isSpecialB c
          · rw [nfAux_special hb₂ hsC]
            simp only [Bool.and_eq_true]
            have hhead : headNotWs rest = true := by
              simp only [bOut, jsWs_of_special hsC, Bool.false_eq_true, if_false, hsC,
                if_true, Bool.and_eq_true] at hbo
              exact hbo.1
            refine ⟨by rw [headNotWs_padConst]; exact hhead, ?_⟩
            exact ih rest (isWordChar c) false (by simpa using h)
              hbr (Or.inl (isWordChar_of_special hsC).symm)
          · have hsC' : isSpecialB c = false := Bool.not_eq_true _ ▸ hsC
            by_cases hwsc : jsWs c
            · rw [nfAux_ws hb₂ hsC' hwsc]
              simp only [Bool.and_eq_true]
              have hcond : (c == ' ') = true ∧ headNotWsNotSpecial rest = true := by
                simp only [bOut, hwsc, if_true, Bool.and_eq_true] at hbo
                exact hbo.1
              refine ⟨⟨hcond.1, ?_⟩, ?_⟩
              · rw [headNotWsNotSpecial_padConst]
                exact hcond.2
              · exact ih rest (isWordChar c) false (by simpa using h)
                  hbr (Or.inl (isWordChar_of_jsWs hwsc).symm)
            · have hwsc' : jsWs c = false := Bool.not_eq_true _ ▸ hwsc
              rw [nfAux_plain hb₂ hsC' hwsc']
              exact ih rest (isWordChar c) (isWordChar c) (by simpa using h)
                hbr (Or.inl rfl)

/-- The output of the three replacements satisfies the normal form. -/
theorem nfAux_pipeline (u : List Char) :
    nfAux false (padConst false (squeezeSpecials (collapseWs u))) = true :=
  nfAux_padConstN _ _ false false (Nat.le_refl _)
    (bOut_squeeze (wsSingles_collapseWs u)) (Or.inl rfl)

/-! ### Fixpoint: the replacements are the identity on normal forms -/

theorem ne_c_of_not_word {d : Char} (h : isWordChar d = false) : d ≠ 'c' := by
  intro hdc
  rw [hdc] at h
  exact absurd h (by decide)

theorem padConst_pw_any {x : List Char} (h : startsWithConst x = false) (pw pw' : Bool) :
    padConst pw x = padConst pw' x := by
  match x with
  | [] => rfl
  | c :: r =>
    have hb1 : constBoundary pw (c :: r) = false := by simp [constBoundary, h]
    have hb2 : constBoundary pw' (c :: r) = false := by simp [constBoundary, h]
    rw [padConst_cons hb1, padConst_cons hb2]

theorem padConst_squeeze_of_nfN :
    ∀ (n : Nat) (u : List Char) (pw : Bool), u.length ≤ n → nfAux pw u = true →
      padConst pw (squeezeSpecials u) = u ∨
        padConst pw (squeezeSpecials u) = u ++ [' '] := by
  intro n
  induction n with
  | zero =>
    intro u pw h _
    have : u = [] := List.length_eq_zero.mp (Nat.le_zero.mp h)
    subst this
    exact Or.inl rfl
  | succ m ih =>
    intro u pw h hnf
    by_cases hb : constBoundary pw u
    · -- a padded `const` begins here
      have hcomp : (!pw) = true ∧ startsWithConst u = true ∧
          headIsNonWordOrNil (u.drop 5) = true := by
        simp only [constBoundary, Bool.and_eq_true] at hb
        exact ⟨hb.1.1, hb.1.2, hb.2⟩
      obtain ⟨v, rfl⟩ := startsWithConst_iff.mp hcomp.2.1
      rw [squeeze_const_lead]
      match v, h, hnf, hb, hcomp with
      | [], _, _, hb, _ =>
        rw [squeezeSpecials_nil, padConst_boundary hb]
        exact Or.inr rfl
      | w :: v', h, hnf, hb, hcomp =>
        rw [nfAux_boundary_cons hb rfl] at hnf
        simp only [Bool.and_eq_true, beq_iff_eq] at hnf
        obtain ⟨⟨rfl, hv'⟩, hnfv⟩ := hnf
        simp only [List.length_cons] at h
        match v', hv', hnfv, h with
        | [], _, _, _ =>
          have hbsq : constBoundary pw
              ('c' :: 'o' :: 'n' :: 's' :: 't' :: squeezeSpecials [' ']) = true := by
            simp only [constBoundary, hcomp.1, Bool.true_and]
            decide
          rw [padConst_boundary hbsq]
          left
          show _ = 'c' :: 'o' :: 'n' :: 's' :: 't' :: [' ']
          decide
        | d :: t, hv', hnfv, h =>
          have hdnw : jsWs d = false := by
            simp only [headNotWs, Bool.not_eq_true'] at hv'
            exact hv'
          simp only [List.length_cons] at h
          by_cases hdS : isSpecialB d
          · -- `const ` directly followed by a special character
            have hdc : d ≠ 'c' := ne_c_of_not_word (isWordChar_of_special hdS)
            have hbd : constBoundary false (d :: t) = false := by
              simp [constBoundary, startsWithConst_cons_of_ne hdc]
            rw [nfAux_special hbd hdS] at hnfv
            simp only [Bool.and_eq_true] at hnfv
            have hsq1 : squeezeSpecials (' ' :: d :: t) = d :: squeezeSpecials t := by
              rw [squeezeSpecials_ws_special (by decide) (by decide)
                (dropWhile_eq_self_of_headNotWs (by simp [headNotWs, hdnw]))
                hdS, dropWhile_eq_self_of_headNotWs hnfv.1]
            rw [hsq1]
            have hbsq : constBoundary pw
                ('c' :: 'o' :: 'n' :: 's' :: 't' :: d :: squeezeSpecials t) = true := by
              simp only [constBoundary, hcomp.1, Bool.true_and, Bool.and_eq_true]
              refine ⟨by simp [startsWithConst, List.take_succ_cons], ?_⟩
              show (!isWordChar d) = true
              simp [isWordChar_of_special hdS]
            rw [padConst_boundary hbsq]
            have htk : ((('c' :: 'o' :: 'n' :: 's' :: 't' :: d ::
                squeezeSpecials t).drop 5).takeWhile jsWs).isEmpty = true := by
              show ((d :: squeezeSpecials t).takeWhile jsWs).isEmpty = true
              simp [List.takeWhile_cons, hdnw]
            have hdr : ('c' :: 'o' :: 'n' :: 's' :: 't' :: d ::
                squeezeSpecials t).drop 5 = d :: squeezeSpecials t := rfl
            rw [hdr] at htk ⊢
            rw [htk, dropWhile_eq_self_of_headNotWs (by simp [headNotWs, hdnw])]
            have hpwany : padConst true (d :: squeezeSpecials t) =
                padConst false (d :: squeezeSpecials t) :=
              padConst_pw_any (startsWithConst_cons_of_ne hdc _) true false
            rw [hpwany, show d :: squeezeSpecials t = squeezeSpecials (d :: t) from
              (by rw [squeezeSpecials_special hdS,
                dropWhile_eq_self_of_headNotWs hnfv.1])]
            rcases ih (d :: t) false (by simp only [List.length_cons]; omega)
              (by rw [nfAux_special hbd hdS]; simp [hnfv.1, hnfv.2]) with heq | heq
            · rw [heq]
              exact Or.inl rfl
            · rw [heq]
              right
              rfl
          · -- `const ` followed by an ordinary character
            have hdS' : isSpecialB d = false := Bool.not_eq_true _ ▸ hdS
            have hsq1 : squeezeSpecials (' ' :: d :: t) =
                ' ' :: d :: squeezeSpecials t := by
              rw [squeezeSpecials_ws_plain (by decide) (by decide)
                (dropWhile_eq_self_of_headNotWs (by simp [headNotWs, hdnw])) hdS']
              rw [takeWhile_eq_nil_of_headNotWs (by simp [headNotWs, hdnw])]
              rfl
            rw [hsq1]
            have hbsq : constBoundary pw
                ('c' :: 'o' :: 'n' :: 's' :: 't' :: ' ' :: d ::
                  squeezeSpecials t) = true := by
              simp only [constBoundary, hcomp.1, Bool.true_and, Bool.and_eq_true]
              refine ⟨by simp [startsWithConst, List.take_succ_cons], rfl⟩
            rw [padConst_boundary hbsq]
            have hdr : ('c' :: 'o' :: 'n' :: 's' :: 't' :: ' ' :: d ::
                squeezeSpecials t).drop 5 = ' ' :: d :: squeezeSpecials t := rfl
            rw [hdr]
            have htk : ((' ' :: d :: squeezeSpecials t).takeWhile jsWs).isEmpty
                = false := by
              simp [List.takeWhile_cons, show jsWs ' ' = true from by decide]
            rw [htk]
            have hdw : (' ' :: d :: squeezeSpecials t).dropWhile jsWs =
                d :: squeezeSpecials t := by
              rw [List.dropWhile_cons]
              simp only [show jsWs ' ' = true from by decide, if_true]
              exact dropWhile_eq_self_of_headNotWs (by simp [headNotWs, hdnw])
            rw [hdw]
            rw [show d :: squeezeSpecials t = squeezeSpecials (d :: t) from
              (squeezeSpecials_plain hdnw hdS' t).symm]
            rcases ih (d :: t) false (by simp only [List.length_cons]; omega)
              hnfv with heq | heq
            · rw [heq]
              exact Or.inl rfl
            · rw [heq]
              right
              rfl
    · -- no padding at this position on either pass
      have hb' : constBoundary pw u = false := Bool.not_eq_true _ ▸ hb
      by_cases hsw : startsWithConst u
      · -- `const` head without a word boundary around it
        obtain ⟨v, rfl⟩ := startsWithConst_iff.mp hsw
        rw [nfAux_const_steps hb'] at hnf
        rw [squeeze_const_lead]
        have hcases : (!pw) = false ∨ headIsNonWordOrNil v = false := by
          by_cases hp : (!pw) = true
          · by_cases hh : headIsNonWordOrNil v = true
            · exfalso
              have hcb : constBoundary pw ('c' :: 'o' :: 'n' :: 's' :: 't' :: v) = true := by
                simp only [constBoundary, hp, hsw, Bool.true_and, Bool.and_self]
                exact hh
              rw [hcb] at hb'
              cases hb'
            · exact Or.inr (Bool.not_eq_true _ ▸ hh)
          · exact Or.inl (Bool.not_eq_true _ ▸ hp)
        have hbsq : constBoundary pw
            ('c' :: 'o' :: 'n' :: 's' :: 't' :: squeezeSpecials v) = false := by
          simp only [constBoundary, Bool.and_eq_false_iff,
            show ('c' :: 'o' :: 'n' :: 's' :: 't' :: squeezeSpecials v).drop 5 =
              squeezeSpecials v from rfl, headIsNonWordOrNil_squeeze]
          rcases hcases with h1 | h1
          · exact Or.inl (Or.inl h1)
          · exact Or.inr h1
        rw [padConst_const_steps hbsq]
        simp only [List.length_cons] at h
        rcases ih v true (by omega) hnf with heq | heq
        · rw [heq]
          exact Or.inl rfl
        · rw [heq]
          right
          rfl
      · -- generic single-character step
        have hsw' : startsWithConst u = false := Bool.not_eq_true _ ▸ hsw
        match u, h, hnf, hb', hsw' with
        | [], _, _, _, _ => exact Or.inl rfl
        | c :: rest, h, hnf, hb', hsw' =>
          simp only [List.length_cons] at h
          by_cases hsC : isSpecialB c
          · rw [nfAux_special hb' hsC] at hnf
            simp only [Bool.and_eq_true] at hnf
            rw [squeezeSpecials_special hsC,
              dropWhile_eq_self_of_headNotWs hnf.1]
            have hcc : c ≠ 'c' := ne_c_of_not_word (isWordChar_of_special hsC)
            have hbsq : constBoundary pw (c :: squeezeSpecials rest) = false := by
              simp [constBoundary, startsWithConst_cons_of_ne hcc]
            rw [padConst_cons hbsq, isWordChar_of_special hsC]
            rcases ih rest false (by omega) hnf.2 with heq | heq
            · rw [heq]; exact Or.inl rfl
            · rw [heq]; right; rfl
          · have hsC' : isSpecialB c = false := Bool.not_eq_true _ ▸ hsC
            by_cases hwc : jsWs c
            · rw [nfAux_ws hb' hsC' hwc] at hnf
              simp only [Bool.and_eq_true, beq_iff_eq] at hnf
              obtain ⟨⟨rfl, hrest⟩, hnfr⟩ := hnf
              match rest, hrest, hnfr, h with
              | [], _, _, _ =>
                rw [squeezeSpecials_ws_nil (by decide) (by decide)
                  (show List.dropWhile jsWs [] = [] from rfl)]
                have hb0 : constBoundary pw [' '] = false := by
                  simp [constBoundary, startsWithConst]
                rw [show (' ' : Char) :: List.takeWhile jsWs [] = [' '] from rfl,
                  padConst_cons hb0]
                exact Or.inl rfl
              | d :: t, hrest, hnfr, h =>
                simp only [headNotWsNotSpecial, Bool.and_eq_true,
                  Bool.not_eq_true'] at hrest
                simp only [List.length_cons] at h
                rw [squeezeSpecials_ws_plain (by decide) (by decide)
                  (dropWhile_eq_self_of_headNotWs (by simp [headNotWs, hrest.1]))
                  hrest.2]
                rw [takeWhile_eq_nil_of_headNotWs
                  (by simp [headNotWs, hrest.1])]
                have hshape : (' ' :: List.nil) ++ d :: squeezeSpecials t =
                    ' ' :: squeezeSpecials (d :: t) := by
                  rw [squeezeSpecials_plain hrest.1 hrest.2]
                  rfl
                rw [hshape]
                have hbsq : constBoundary pw (' ' :: squeezeSpecials (d :: t))
                    = false := by
                  simp [constBoundary, startsWithConst_cons_of_ne (by decide : (' ' : Char) ≠ 'c')]
                rw [padConst_cons hbsq, show isWordChar ' ' = false from by decide]
                rcases ih (d :: t) false (by simp only [List.length_cons]; omega)
                  hnfr with heq | heq
                · rw [heq]; exact Or.inl rfl
                · rw [heq]; right; rfl
            · have hwc' : jsWs c = false := Bool.not_eq_true _ ▸ hwc
              rw [nfAux_plain hb' hsC' hwc'] at hnf
              rw [squeezeSpecials_plain hwc' hsC']
              have hbsq : constBoundary pw (c :: squeezeSpecials rest) = false := by
                have : startsWithConst (c :: squeezeSpecials rest) = false := by
                  have := startsWithConst_squeeze (c :: rest)
                  rw [squeezeSpecials_plain hwc' hsC'] at this
                  rw [this, hsw']
                simp [constBoundary, this]
              rw [padConst_cons hbsq]
              rcases ih rest (isWordChar c) (by omega) hnf with heq | heq
              · rw [heq]; exact Or.inl rfl
              · rw [heq]; right; rfl

/-! ### Trimming preserves the normal form -/

theorem nfAux_wsSinglesN :
    ∀ (n : Nat) (u : List Char) (pw : Bool), u.length ≤ n → nfAux pw u = true →
      wsSingles u = true := by
  intro n
  induction n with
  | zero =>
    intro u pw h _
    have : u = [] := List.length_eq_zero.mp (Nat.le_zero.mp h)
    subst this
    rfl
  | succ m ih =>
    intro u pw h hnf
    by_cases hb : constBoundary pw u
    · have hsw : startsWithConst u = true := by
        simp only [constBoundary, Bool.and_eq_true] at hb
        exact hb.1.2
      obtain ⟨v, rfl⟩ := startsWithConst_iff.mp hsw
      simp only [List.length_cons] at h
      match v, h, hnf with
      | [], _, _ => decide
      | w :: v', h, hnf =>
        rw [nfAux_boundary_cons hb rfl] at hnf
        simp only [Bool.and_eq_true, beq_iff_eq] at hnf
        obtain ⟨⟨rfl, hv'⟩, hnfv⟩ := hnf
        have hws' : wsSingles v' = true := by
          refine ih v' false ?_ hnfv
          simp only [List.length_cons] at h
          omega
        simp [wsSingles, hv', hws', show jsWs 'c' = false from by decide,
          show jsWs 'o' = false from by decide, show jsWs 'n' = false from by decide,
          show jsWs 's' = false from by decide, show jsWs 't' = false from by decide,
          show jsWs ' ' = true from by decide]
    · have hb' : constBoundary pw u = false := Bool.not_eq_true _ ▸ hb
      match u, h, hb' with
      | [], _, _ => rfl
      | c :: rest, h, hb' =>
        simp only [List.length_cons] at h
        by_cases hsC : isSpecialB c
        · rw [nfAux_special hb' hsC] at hnf
          simp only [Bool.and_eq_true] at hnf
          simp only [wsSingles, jsWs_of_special hsC, Bool.false_eq_true, if_false,
            Bool.true_and]
          exact ih rest false (by omega) hnf.2
        · have hsC' : isSpecialB c = false := Bool.not_eq_true _ ▸ hsC
          by_cases hwc : jsWs c
          · rw [nfAux_ws hb' hsC' hwc] at hnf
            simp only [Bool.and_eq_true, beq_iff_eq] at hnf
            obtain ⟨⟨rfl, hrest⟩, hnfr⟩ := hnf
            simp only [wsSingles, show jsWs ' ' = true from by decide, if_true,
              Bool.and_eq_true]
            refine ⟨⟨by rfl, ?_⟩, ih rest false (by omega) hnfr⟩
            match rest, hrest with
            | [], _ => rfl
            | d :: t, hrest =>
              simp only [headNotWsNotSpecial, Bool.and_eq_true] at hrest
              simp [headNotWs, hrest.1]
          · have hwc' : jsWs c = false := Bool.not_eq_true _ ▸ hwc
            rw [nfAux_plain hb' hsC' hwc'] at hnf
            simp only [wsSingles, hwc', Bool.false_eq_true, if_false, Bool.true_and]
            exact ih rest (isWordChar c) (by omega) hnf

theorem nfAux_wsSingles {u : List Char} {pw : Bool} (h : nfAux pw u = true) :
    wsSingles u = true :=
  nfAux_wsSinglesN u.length u pw (Nat.le_refl _) h

theorem collapseWs_id_of_wsSinglesN :
    ∀ (n : Nat) (u : List Char), u.length ≤ n → wsSingles u = true →
      collapseWs u = u := by
  intro n
  induction n with
  | zero =>
    intro u h _
    have : u = [] := List.length_eq_zero.mp (Nat.le_zero.mp h)
    subst this
    rfl
  | succ m ih =>
    intro u h hws
    match u with
    | [] => rfl
    | c :: rest =>
      simp only [List.length_cons] at h
      by_cases hwc : jsWs c
      · have hcond : (c == ' ') = true ∧ headNotWs rest = true := by
          simp only [wsSingles, hwc, if_true, Bool.and_eq_true] at hws
          exact hws.1
        rw [collapseWs_ws hwc, dropWhile_eq_self_of_headNotWs hcond.2]
        have hc : c = ' ' := by
          have := hcond.1
          simp only [beq_iff_eq] at this
          exact this
        rw [← hc]
        rw [ih rest (by omega) (wsSingles_cons_proj hws)]
      · rw [collapseWs_plain (Bool.not_eq_true _ ▸ hwc)]
        rw [ih rest (by omega) (wsSingles_cons_proj hws)]

theorem collapseWs_id_of_wsSingles {u : List Char} (h : wsSingles u = true) :
    collapseWs u = u :=
  collapseWs_id_of_wsSinglesN u.length u (Nat.le_refl _) h

theorem nfAux_dropWhileWs {y : List Char} (h : nfAux false y = true) :
    nfAux false (y.dropWhile jsWs) = true := by
  match y with
  | [] => exact h
  | c :: r =>
    by_cases hwc : jsWs c
    · have hb : constBoundary false (c :: r) = false := by
        have : c ≠ 'c' := ne_c_of_not_word (isWordChar_of_jsWs hwc)
        simp [constBoundary, startsWithConst_cons_of_ne this]
      rw [nfAux_ws hb (special_of_jsWs hwc) hwc] at h
      simp only [Bool.and_eq_true] at h
      rw [List.dropWhile_cons]
      simp only [hwc, if_true]
      have hrd : r.dropWhile jsWs = r := by
        match r, h.1.2 with
        | [], _ => rfl
        | d :: t, hr =>
          simp only [headNotWsNotSpecial, Bool.and_eq_true] at hr
          exact dropWhile_eq_self_of_headNotWs (by simp [headNotWs, hr.1])
      rw [hrd]
      exact h.2
    · rw [List.dropWhile_cons]
      simp only [hwc, Bool.false_eq_true, if_false]
      exact h

theorem trimTrail_decomp :
    ∀ (v : List Char), wsSingles v = true →
      trimTrail v = v ∨ ∃ z, v = z ++ [' '] ∧ trimTrail v = z := by
  intro v
  induction v with
  | nil => intro _; exact Or.inl rfl
  | cons c rest ih =>
    intro hws
    rcases ih (wsSingles_cons_proj hws) with hcase | ⟨z, hz, htz⟩
    · match rest, hcase with
      | [], _ =>
        by_cases hwc : jsWs c
        · have hc : c = ' ' := by
            simp only [wsSingles, hwc, if_true, Bool.and_eq_true, beq_iff_eq] at hws
            exact hws.1.1
          subst hc
          exact Or.inr ⟨[], rfl, by decide⟩
        · left
          rw [trimTrail_cons, trimTrail_nil]
          simp [hwc]
      | d :: t, hcase =>
        left
        rw [trimTrail_cons, hcase]
    · subst hz
      match z, htz with
        | [], htz =>
          -- rest = [' ']; the head `c` cannot be whitespace before a space
          have hcnw : jsWs c = false := by
            by_cases hwc : jsWs c
            · exfalso
              simp only [wsSingles, hwc, if_true, Bool.and_eq_true, headNotWs,
                List.nil_append, Bool.not_eq_true'] at hws
              have := hws.1.2
              rw [show jsWs ' ' = true from by decide] at this
              cases this
            · exact Bool.not_eq_true _ ▸ hwc
          refine Or.inr ⟨[c], rfl, ?_⟩
          rw [trimTrail_cons]
          rw [show trimTrail ([] ++ [' ']) = [] from by decide]
          simp [hcnw]
        | e :: z', htz =>
          refine Or.inr ⟨c :: e :: z', rfl, ?_⟩
          rw [trimTrail_cons, htz]

theorem trimTrail_append_space (u : List Char) :
    trimTrail (u ++ [' ']) = trimTrail u := by
  induction u with
  | nil => decide
  | cons c rest ih =>
    rw [List.cons_append, trimTrail_cons, ih, trimTrail_cons]

theorem trimTrail_idem (u : List Char) : trimTrail (trimTrail u) = trimTrail u := by
  induction u with
  | nil => rfl
  | cons c rest ih =>
    rw [trimTrail_cons]
    match hr : trimTrail rest with
    | [] =>
      by_cases hwc : jsWs c
      · simp only [hwc, if_true]
        rfl
      · simp only [hwc, Bool.false_eq_true, if_false]
        rw [trimTrail_cons, trimTrail_nil]
        simp [hwc]
    | e :: r' =>
      rw [hr] at ih
      rw [trimTrail_cons, ih]

theorem headNotWs_trimTrail {v : List Char} (h : headNotWs v = true) :
    headNotWs (trimTrail v) = true := by
  match v with
  | [] => rfl
  | c :: rest =>
    rw [trimTrail_cons]
    match trimTrail rest with
    | [] =>
      simp only [headNotWs, Bool.not_eq_true'] at h
      simp [h, headNotWs]
    | e :: r' => exact h

theorem startsWithConst_append_space (z : List Char) :
    startsWithConst (z ++ [' ']) = startsWithConst z := by
  match z with
  | [] => decide
  | [a] => simp [startsWithConst, List.take_succ_cons]
  | [a, b] => simp [startsWithConst, List.take_succ_cons]
  | [a, b, c] => simp [startsWithConst, List.take_succ_cons]
  | [a, b, c, d] => simp [startsWithConst, List.take_succ_cons]
  | a :: b :: c :: d :: e :: t => simp [startsWithConst, List.take_succ_cons]

theorem nfAux_append_spaceN :
    ∀ (n : Nat) (z : List Char) (pw : Bool), z.length ≤ n →
      nfAux pw (z ++ [' ']) = true → nfAux pw z = true := by
  intro n
  induction n with
  | zero =>
    intro z pw h _
    have : z = [] := List.length_eq_zero.mp (Nat.le_zero.mp h)
    subst this
    rfl
  | succ m ih =>
    intro z pw h hnf
    match z with
    | [] => rfl
    | c :: rest =>
      simp only [List.length_cons] at h
      by_cases hsw : startsWithConst (c :: rest)
      · obtain ⟨v, hv⟩ := startsWithConst_iff.mp hsw
        injection hv with h1 h2
        subst h1
        subst h2
        by_cases hb : constBoundary pw ('c' :: 'o' :: 'n' :: 's' :: 't' :: v)
        · -- boundary holds for `z`; relate to the boundary for `z ++ [' ']`
          match v, h, hnf with
          | [], _, _ => exact nfAux_boundary_nil hb rfl
          | w :: v', h, hnf =>
            have hbapp : constBoundary pw
                ('c' :: 'o' :: 'n' :: 's' :: 't' :: w :: (v' ++ [' '])) = true := by
              simp only [constBoundary, Bool.and_eq_true] at hb ⊢
              refine ⟨⟨hb.1.1, by simp [startsWithConst, List.take_succ_cons]⟩, ?_⟩
              have := hb.2
              show headIsNonWordOrNil (w :: (v' ++ [' '])) = true
              exact this
            rw [List.cons_append, List.cons_append, List.cons_append, List.cons_append,
              List.cons_append, List.cons_append] at hnf
            rw [nfAux_boundary_cons hbapp
              (show ('c' :: 'o' :: 'n' :: 's' :: 't' :: w :: (v' ++ [' '])).drop 5 =
                w :: (v' ++ [' ']) from rfl)] at hnf
            rw [nfAux_boundary_cons hb rfl]
            simp only [Bool.and_eq_true] at hnf ⊢
            obtain ⟨⟨hw, hv'app⟩, hnfv⟩ := hnf
            refine ⟨⟨hw, ?_⟩, ?_⟩
            · match v', hv'app with
              | [], hv'app => rfl
              | x :: t, hv'app => exact hv'app
            · match v', hv'app, hnfv with
              | [], hv'app, _ =>
                simp only [List.nil_append, headNotWs,
                  show jsWs ' ' = true from by decide, Bool.not_true] at hv'app
                cases hv'app
              | x :: t, hv'app, hnfv =>
                simp only [List.length_cons] at h
                exact ih (x :: t) false (by simp only [List.length_cons]; omega) hnfv
        · -- `const` head but no boundary
          have hb' : constBoundary pw ('c' :: 'o' :: 'n' :: 's' :: 't' :: v) = false :=
            Bool.not_eq_true _ ▸ hb
          have hbapp : constBoundary pw
              ('c' :: 'o' :: 'n' :: 's' :: 't' :: (v ++ [' '])) = false := by
            simp only [constBoundary, Bool.and_eq_false_iff] at hb' ⊢
            rcases hb' with h1 | h1
            · rcases h1 with h1 | h1
              · exact Or.inl (Or.inl h1)
              · rw [hsw] at h1; cases h1
            · right
              show headIsNonWordOrNil (v ++ [' ']) = false
              match v, h1 with
              | x :: t, h1 => exact h1
          rw [List.cons_append, List.cons_append, List.cons_append, List.cons_append,
            List.cons_append] at hnf
          rw [nfAux_const_steps hbapp] at hnf
          rw [nfAux_const_steps hb']
          simp only [List.length_cons] at h
          exact ih v true (by omega) hnf
      · have hsw' : startsWithConst (c :: rest) = false := Bool.not_eq_true _ ▸ hsw
        have hswapp : startsWithConst (c :: (rest ++ [' '])) = false := by
          have := startsWithConst_append_space (c :: rest)
          rw [hsw'] at this
          exact this
        have hbapp : constBoundary pw (c :: (rest ++ [' '])) = false := by
          simp [constBoundary, hswapp]
        have hb' : constBoundary pw (c :: rest) = false := by
          simp [constBoundary, hsw']
        rw [List.cons_append] at hnf
        by_cases hsC : isSpecialB c
        · rw [nfAux_special (by simpa using hbapp) hsC] at hnf
          simp only [Bool.and_eq_true] at hnf
          rw [nfAux_special hb' hsC]
          simp only [Bool.and_eq_true]
          match rest, hnf with
          | [], hnf =>
            exfalso
            have := hnf.1
            simp [headNotWs, show jsWs ' ' = true from by decide] at this
          | d :: t, hnf =>
            simp only [List.length_cons] at h
            exact ⟨hnf.1, ih (d :: t) false (by simp only [List.length_cons]; omega) hnf.2⟩
        · have hsC' : isSpecialB c = false := Bool.not_eq_true _ ▸ hsC
          by_cases hwc : jsWs c
          · rw [nfAux_ws (by simpa using hbapp) hsC' hwc] at hnf
            simp only [Bool.and_eq_true] at hnf
            rw [nfAux_ws hb' hsC' hwc]
            simp only [Bool.and_eq_true]
            match rest, hnf with
            | [], hnf =>
              exfalso
              have := hnf.1.2
              simp [headNotWsNotSpecial, show jsWs ' ' = true from by decide] at this
            | d :: t, hnf =>
              simp only [List.length_cons] at h
              exact ⟨hnf.1, ih (d :: t) false (by simp only [List.length_cons]; omega) hnf.2⟩
          · have hwc' : jsWs c = false := Bool.not_eq_true _ ▸ hwc
            rw [nfAux_plain (by simpa using hbapp) hsC' hwc'] at hnf
            rw [nfAux_plain hb' hsC' hwc']
            exact ih rest (isWordChar c) (by omega) hnf

theorem nfAux_append_space {z : List Char} {pw : Bool}
    (h : nfAux pw (z ++ [' ']) = true) : nfAux pw z = true :=
  nfAux_append_spaceN z.length z pw (Nat.le_refl _) h

theorem normalizeTypeL_fix {w : List Char} (hnf : nfAux false w = true)
    (hhead : headNotWs w = true) (htrim : trimTrail w = w) :
    normalizeTypeL w = w := by
  show jsTrimList (padConst false (squeezeSpecials (collapseWs w))) = w
  rw [collapseWs_id_of_wsSingles (nfAux_wsSingles hnf)]
  rcases padConst_squeeze_of_nfN w.length w false (Nat.le_refl _) hnf with hf | hf
  · rw [hf]
    show trimTrail (w.dropWhile jsWs) = w
    rw [dropWhile_eq_self_of_headNotWs hhead, htrim]
  · rw [hf]
    match w, hhead, htrim with
    | [], _, _ => decide
    | c :: r, hhead, htrim =>
      show trimTrail ((c :: (r ++ [' '])).dropWhile jsWs) = c :: r
      rw [List.dropWhile_cons]
      simp only [headNotWs, Bool.not_eq_true'] at hhead
      simp only [hhead, Bool.false_eq_true, if_false]
      have : (c :: (r ++ [' '])) = (c :: r) ++ [' '] := rfl
      rw [this, trimTrail_append_space, htrim]

theorem normalizeTypeL_idem (t : List Char) :
    normalizeTypeL (normalizeTypeL t) = normalizeTypeL t := by
  have hnfy : nfAux false (padConst false (squeezeSpecials (collapseWs t))) = true :=
    nfAux_pipeline t
  have hnfv : nfAux false
      ((padConst false (squeezeSpecials (collapseWs t))).dropWhile jsWs) = true :=
    nfAux_dropWhileWs hnfy
  have hheadv : headNotWs
      ((padConst false (squeezeSpecials (collapseWs t))).dropWhile jsWs) = true :=
    headNotWs_dropWhile _
  have hv : normalizeTypeL t =
      trimTrail ((padConst false (squeezeSpecials (collapseWs t))).dropWhile jsWs) := rfl
  rcases trimTrail_decomp _ (nfAux_wsSingles hnfv) with hc | ⟨z, hz, htz⟩
  · rw [hv, hc]
    exact normalizeTypeL_fix hnfv hheadv hc
  · rw [hv, htz]
    have hnfz : nfAux false z = true := by
      rw [hz] at hnfv
      exact nfAux_append_space hnfv
    have hheadz : headNotWs z = true := by
      match z, hz with
      | [], _ => rfl
      | c :: z', hz =>
        rw [hz] at hheadv
        exact hheadv
    have htrimz : trimTrail z = z := by
      rw [hz, trimTrail_append_space] at htz
      exact htz
    exact normalizeTypeL_fix hnfz hheadz htrimz

/-- Claim C10: `normalizeType` is idempotent — applying it to an already
normalized type spelling returns that spelling unchanged, so signature keys
built from normalized spellings match keys built from raw spellings. -/
theorem normalizeType_idempotent (t : String) :
    normalizeType (normalizeType t) = normalizeType t :=
  congrArg String.mk (normalizeTypeL_idem t.data)

/-!
### ASCII helpers, decimal rendering, and small string utilities

`toLowerCase`/`toUpperCase` are modelled on the ASCII range (the generator
only case-converts C++ identifiers).  `decStr` embeds JavaScript template
interpolation of a non-negative integer (`` `${n}` ``).
-/

def isAsciiUpper (c : Char) : Bool := decide (65 ≤ c.toNat) && decide (c.toNat ≤ 90)

def isAsciiLower (c : Char) : Bool := decide (97 ≤ c.toNat) && decide (c.toNat ≤ 122)

def isAsciiDigit (c : Char) : Bool := decide (48 ≤ c.toNat) && decide (c.toNat ≤ 57)

/-- First character of a JavaScript identifier: `[A-Za-z_]`. -/
def isIdentStart (c : Char) : Bool := isAsciiUpper c || isAsciiLower c || c == '_'

/-- Continuation character of a JavaScript identifier: `[A-Za-z0-9_]`. -/
def isIdentCont (c : Char) : Bool := isIdentStart c || isAsciiDigit c

def lowerChar (c : Char) : Char := if isAsciiUpper c then Char.ofNat (c.toNat + 32) else c

def upperChar (c : Char) : Char := if isAsciiLower c then Char.ofNat (c.toNat - 32) else c

def lowerStr (s : String) : String := String.mk (s.data.map lowerChar)

def lbraceChar : Char := Char.ofNat 123

def rbraceChar : Char := Char.ofNat 125

def headIs (c : Char) : List Char → Bool
  | [] => false
  | d :: _ => d == c

/-- Decimal digits of `n`, most significant first (fueled; `n` units of fuel
always suffice since `n / 10 < n` for positive `n`). -/
def decDigitsF : Nat → Nat → List Char
  | 0, _ => []
  | fuel + 1, n => if n = 0 then [] else decDigitsF fuel (n / 10) ++ [Char.ofNat (48 + n % 10)]

/-- JavaScript `` `${n}` `` for a non-negative integer `n`. -/
def decStr (n : Nat) : String := if n = 0 then "0" else String.mk (decDigitsF n n)

/-- Value of a digit string, for proving `decStr` injective. -/
def decVal (u : List Char) : Nat := u.foldl (fun a c => a * 10 + (c.toNat - 48)) 0

/-- Substring test (JavaScript `String.prototype.includes`). -/
def hasSub : List Char → List Char → Bool
  | _, [] => true
  | [], _ :: _ => false
  | h :: t, n :: m => List.isPrefixOf (n :: m) (h :: t) || hasSub t (n :: m)

def containsStr (hay sub : String) : Bool := hasSub hay.data sub.data

/-!
### `type-utils.mjs`: the remaining type predicates

`stripConstVolatile` is `replace(/\b(const|volatile)\b/g, "")` followed by
whitespace collapapsing and `trim`; the `[&*]` and `\s+` global replacements
with an empty replacement delete every occurrence, i.e. filter the string.
-/

/-- `paths.mjs` constant. -/
def CLASS_NAME : String := "FGFDMExec"

/-- The `NUMERIC_TYPES` set of `type-utils.mjs` (insertion order kept). -/
def NUMERIC_TYPES : List String :=
  ["char", "signed char", "unsigned char", "short", "unsigned short", "int",
   "unsigned int", "long", "unsigned long", "long long", "unsigned long long",
   "float", "double", "long double", "size_t"]

/-- `\b<word>\b` matches at the head of `u` given that the previous character
was a word character iff `pw`: boundary before, the word itself, boundary
after. -/
def wordBoundaryAt (w : List Char) (pw : Bool) (u : List Char) : Bool :=
  !pw && (u.take w.length == w) && headIsNonWordOrNil (u.drop w.length)

/-- Fueled embedding of `.replace(/\b(const|volatile)\b/g, "")`.  The scanner
carries the wordness of the previously scanned character for the leading
`\b`; after a deletion the previous character is the final (word) letter of
the deleted keyword. -/
def stripCVF : Nat → Bool → List Char → List Char
  | 0, _, u => u
  | _ + 1, _, [] => []
  | fuel + 1, pw, c :: rest =>
    if wordBoundaryAt "const".data pw (c :: rest) then
      stripCVF fuel true ((c :: rest).drop 5)
    else if wordBoundaryAt "volatile".data pw (c :: rest) then
      stripCVF fuel true ((c :: rest).drop 8)
    else
      c :: stripCVF fuel (isWordChar c) rest

def stripConstVolatile (type : String) : String :=
  String.mk (jsTrimList (collapseWs (stripCVF type.data.length false type.data)))

/-- `.replace(/[&*]/g, "")`. -/
def stripAmpStar (u : List Char) : List Char := u.filter (fun c => !(c == '&' || c == '*'))

/-- `.replace(/\s+/g, "")`. -/
def stripAllWs (u : List Char) : List Char := u.filter (fun c => !jsWs c)

def isBoolType (type : String) : Bool :=
  String.mk (jsTrimList (stripAmpStar (stripConstVolatile type).data)) == "bool"

def isStringType (type : String) : Bool :=
  String.mk (jsTrimList (stripAmpStar (stripConstVolatile type).data)) == "std::string"

def isSGPathType (type : String) : Bool :=
  String.mk (jsTrimList (stripAmpStar (stripConstVolatile type).data)) == "SGPath"

def isVectorOfStringType (type : String) : Bool :=
  String.mk (jsTrimList (stripAllWs (stripAmpStar (stripConstVolatile type).data)))
    == "std::vector<std::string>"

def isNumericType (type : String) : Bool :=
  NUMERIC_TYPES.contains
    (String.mk (jsTrimList (collapseWs (stripAmpStar (stripConstVolatile type).data))))

def isPointerType (type : String) : Bool := type.data.contains '*'

def isReferenceType (type : String) : Bool := type.data.contains '&'

/-!
### `type-utils.mjs`: enum lookup resolution
-/

def headIsWs : List Char → Bool
  | [] => false
  | c :: _ => jsWs c

/-- `/\benum\s+/` matches at the head of `u` (no trailing `\b`; the `\s+`
requires at least one whitespace character right after `enum`). -/
def enumWordAt (pw : Bool) (u : List Char) : Bool :=
  !pw && (u.take 4 == "enum".data) && headIsWs (u.drop 4)

/-- Fueled embedding of `.replace(/\benum\s+/g, "")`: the keyword and the
whitespace run after it are deleted; the last consumed character is
whitespace, so scanning resumes with `pw = false`. -/
def stripEnumWordF : Nat → Bool → List Char → List Char
  | 0, _, u => u
  | _ + 1, _, [] => []
  | fuel + 1, pw, c :: rest =>
    if enumWordAt pw (c :: rest) then
      stripEnumWordF fuel false (((c :: rest).drop 4).dropWhile jsWs)
    else
      c :: stripEnumWordF fuel (isWordChar c) rest

def normalizeEnumLookupName (typeName : String) : String :=
  let s1 := (stripConstVolatile typeName).data
  String.mk (jsTrimList (stripAllWs (stripAmpStar (stripEnumWordF s1.length false s1))))

def startsWithStr (s pre : String) : Bool := List.isPrefixOf pre.data s.data

def sepColons : List Char := [':', ':']

/-- JavaScript `split("::")`: scanning separator split (fueled on the input
length; a separator hit consumes two characters on one unit of fuel). -/
def splitSepColonsF : Nat → List Char → List Char → List (List Char)
  | 0, acc, _ => [acc]
  | fuel + 1, acc, u =>
    match u with
    | [] => [acc]
    | c :: rest =>
      if List.isPrefixOf sepColons (c :: rest) then
        acc :: splitSepColonsF fuel [] ((c :: rest).drop 2)
      else
        splitSepColonsF fuel (acc ++ [c]) rest

def splitColons (u : List Char) : List (List Char) := splitSepColonsF u.length [] u

/-- Insertion into a JavaScript `Set` (kept as an insertion-ordered list). -/
def pushUniq (l : List String) (s : String) : List String :=
  if l.contains s then l else l ++ [s]

/-- The one field of a `buildTypeMetadata` enum-lookup entry that `toTsType`
reads. -/
structure EnumInfo where
  tsName : String
deriving DecidableEq

def enumLookupVariants (typeName : String) : List String :=
  let base := normalizeEnumLookupName typeName
  if base == "" then []
  else
    let v1 := [base]
    let v2 := if startsWithStr base "JSBSim::" then pushUniq v1 (String.mk (base.data.drop 8))
              else pushUniq v1 ("JSBSim::" ++ base)
    let v3 := if startsWithStr base (CLASS_NAME ++ "::") then pushUniq v2 ("JSBSim::" ++ base)
              else v2
    let v4 := if startsWithStr base ("JSBSim::" ++ CLASS_NAME ++ "::") then
                pushUniq v3 (String.mk (base.data.drop 8))
              else v3
    if hasSub base.data sepColons then
      pushUniq v4 (String.mk ((splitColons base.data).getLastD []))
    else v4

/-- The enum lookup `Map` is kept as an association list with unique keys
(`List.lookup` is then exactly `Map.get`). -/
def resolveEnumInfo (typeName : String) (enumLookup : List (String × EnumInfo)) :
    Option EnumInfo :=
  go (enumLookupVariants typeName)
where
  go : List String → Option EnumInfo
    | [] => none
    | variant :: rest =>
      match List.lookup variant enumLookup with
      | some enumInfo => some enumInfo
      | none => go rest

def toTsType (type : String) (enumLookup : List (String × EnumInfo)) (isReturn : Bool) :
    String :=
  let normalized := normalizeType type
  match resolveEnumInfo normalized enumLookup with
  | some enumInfo => enumInfo.tsName
  | none =>
    if normalized == "void" then "void"
    else if isBoolType normalized then "boolean"
    else if isNumericType normalized then "number"
    else if isStringType normalized || isSGPathType normalized then "string"
    else if isReturn && isVectorOfStringType normalized then "string[]"
    else "number"

/-!
### `signature.mjs`
-/

def createMethodKey (methodName : String) (paramTypes : List String) : String :=
  methodName ++ "(" ++ String.intercalate "," (paramTypes.map normalizeType) ++ ")"

/-!
### `render-jsbsim-api.mjs`: camel-case conversion

`splitNameIntoWords` splits on underscore runs, then tokenizes each part by
the regex `[A-Z]{2,}s(?=$|[A-Z_])|[A-Z]+(?![a-z])|[A-Z][a-z]*|[a-z]+|[0-9]+`
(alternatives tried in order at each position, greedy with backtracking,
non-matching characters skipped).  For a maximal uppercase run of length `k`
at the scan position: alternative 1 can only succeed with all `k` letters
(a shorter prefix would be followed by an uppercase letter, never `s`);
alternative 2 matches all `k` when the next character is not lowercase and
backtracks to `k - 1` letters otherwise (possible only when `k ≥ 2`); a
single uppercase letter followed by lowercase falls to alternative 3.
-/

/-- The part after the lookahead `(?=$|[A-Z_])`. -/
def headUpperUnderscoreOrNil : List Char → Bool
  | [] => true
  | d :: _ => isAsciiUpper d || d == '_'

def headIsLower : List Char → Bool
  | [] => false
  | d :: _ => isAsciiLower d

/-- Fueled tokenizer for one underscore-free part (`part.match(...)/g`,
returning the matches in scan order, `[]` when the regex matches nowhere). -/
def tokenizePartF : Nat → List Char → List (List Char)
  | 0, _ => []
  | fuel + 1, [] => []
  | fuel + 1, c :: rest =>
    let u := c :: rest
    let upRun := u.takeWhile isAsciiUpper
    if decide (2 ≤ upRun.length) && headIs 's' (u.drop upRun.length) &&
        headUpperUnderscoreOrNil (u.drop (upRun.length + 1)) then
      (upRun ++ ['s']) :: tokenizePartF fuel (u.drop (upRun.length + 1))
    else if decide (1 ≤ upRun.length) then
      if !headIsLower (u.drop upRun.length) then
        upRun :: tokenizePartF fuel (u.drop upRun.length)
      else if decide (2 ≤ upRun.length) then
        upRun.take (upRun.length - 1) :: tokenizePartF fuel (u.drop (upRun.length - 1))
      else
        let lowRun := rest.takeWhile isAsciiLower
        (c :: lowRun) :: tokenizePartF fuel (rest.drop lowRun.length)
    else if isAsciiLower c then
      let lowRun := u.takeWhile isAsciiLower
      lowRun :: tokenizePartF fuel (u.drop lowRun.length)
    else if isAsciiDigit c then
      let digRun := u.takeWhile isAsciiDigit
      digRun :: tokenizePartF fuel (u.drop digRun.length)
    else
      tokenizePartF fuel rest

/-- `part.match(regex) ?? [part]`. -/
def tokenizePart (part : List Char) : List (List Char) :=
  match tokenizePartF part.length part with
  | [] => [part]
  | toks => toks

/-- `name.split(/_+/).filter(Boolean)`: the maximal underscore-free runs. -/
def splitUnderscorePartsF : Nat → List Char → List (List Char)
  | 0, _ => []
  | fuel + 1, [] => []
  | fuel + 1, c :: rest =>
    if c == '_' then splitUnderscorePartsF fuel rest
    else
      let run := (c :: rest).takeWhile (fun x => !(x == '_'))
      run :: splitUnderscorePartsF fuel ((c :: rest).dropWhile (fun x => !(x == '_')))

def splitFirstTokenForSetGet (tokens : List (List Char)) : List (List Char) :=
  match tokens with
  | [] => []
  | first :: rest =>
    let firstLower := first.map lowerChar
    let restLower := rest.map (fun token => token.map lowerChar)
    if List.isPrefixOf "set".data firstLower && decide (3 < firstLower.length) then
      "set".data :: firstLower.drop 3 :: restLower
    else if List.isPrefixOf "get".data firstLower && decide (3 < firstLower.length) then
      "get".data :: firstLower.drop 3 :: restLower
    else
      firstLower :: restLower

def splitNameIntoWords (name : String) : List (List Char) :=
  let parts := splitUnderscorePartsF name.data.length name.data
  let tokens := parts.flatMap tokenizePart
  (splitFirstTokenForSetGet tokens).filter (fun word => !word.isEmpty)

/-- `` `${word[0]?.toUpperCase() ?? ""}${word.slice(1)}` ``. -/
def capitalizeWord : List Char → List Char
  | [] => []
  | c :: rest => upperChar c :: rest

def toCamelCaseName (name : String) : String :=
  match splitNameIntoWords name with
  | [] =>
    match name.data with
    | [] => name
    | c :: rest => String.mk (lowerChar c :: rest)
  | head :: tail => String.mk (head ++ (tail.map capitalizeWord).flatten)

/-!
### `render-jsbsim-api.mjs`: grouping methods by camel name

Extracted methods, the parameters built for the ergonomic API and the
overload groups.  `jsDoc` is total because extraction always attaches one.
The `groupedByCamelName` map and the `groupedMethods` array of shared
mutable group objects are modelled as one insertion-ordered list of groups,
updated functionally (camel names are unique across the list, so lookup by
camel name agrees with the `Map`).
-/

structure JsDocParam where
  name : String
  text : String
deriving DecidableEq

structure JsDoc where
  descriptionLines : List String
  paramDocs : List JsDocParam
  returns : String
deriving DecidableEq

structure Param where
  name : String
  type : String
  defaultValue : Option String
deriving DecidableEq

structure Method where
  name : String
  returnType : String
  params : List Param
  jsDoc : JsDoc
deriving DecidableEq

structure ApiParam where
  name : String
  typeName : String
  defaultValue : Option String
deriving DecidableEq

structure Overload where
  method : Method
  params : List ApiParam
  returnType : String
deriving DecidableEq

structure Group where
  camelName : String
  sourceMethodName : String
  overloads : List Overload
deriving DecidableEq

/-- The parts of `buildTypeMetadata`'s result that `buildApiMethods` reads
(`Map`s kept as association lists with unique keys). -/
structure TypeMetadata where
  enumLookup : List (String × EnumInfo)
  paramTypeOverrides : List (String × List (Nat × String))
  returnTypeOverrides : List (String × String)

def methodKey (method : Method) : String :=
  createMethodKey method.name (method.params.map (fun param => param.type))

/-- One overload record of `buildApiMethods`' loop body. -/
def buildOverload (typeMetadata : TypeMetadata) (method : Method) : Overload :=
  let signatureKey := methodKey method
  let methodParamOverrides := List.lookup signatureKey typeMetadata.paramTypeOverrides
  let params := method.params.mapIdx (fun index param =>
    { name := param.name
      typeName :=
        match methodParamOverrides with
        | some overrides =>
          match List.lookup index overrides with
          | some typeName => typeName
          | none => toTsType param.type typeMetadata.enumLookup false
        | none => toTsType param.type typeMetadata.enumLookup false
      defaultValue := param.defaultValue : ApiParam })
  let returnType :=
    match List.lookup signatureKey typeMetadata.returnTypeOverrides with
    | some returnType => returnType
    | none => toTsType method.returnType typeMetadata.enumLookup true
  ⟨method, params, returnType⟩

def buildApiMethodsGo (typeMetadata : TypeMetadata) (ignoreMethodsSet : List String) :
    List Group → List Method → Except String (List Group)
  | groups, [] => .ok groups
  | groups, method :: rest =>
    if ignoreMethodsSet.contains method.name then
      buildApiMethodsGo typeMetadata ignoreMethodsSet groups rest
    else
      let overload := buildOverload typeMetadata method
      let camelName := toCamelCaseName method.name
      match groups.find? (fun g => g.camelName == camelName) with
      | some existingGroup =>
        if !(existingGroup.sourceMethodName == method.name) then
          .error ("Cannot generate JSBSimApi: \"" ++ existingGroup.sourceMethodName ++
            "\" and \"" ++ method.name ++ "\" both map to \"" ++ camelName ++ "\".")
        else
          buildApiMethodsGo typeMetadata ignoreMethodsSet
            (groups.map (fun g =>
              if g.camelName == camelName then
                { g with overloads := g.overloads ++ [overload] }
              else g))
            rest
      | none =>
        buildApiMethodsGo typeMetadata ignoreMethodsSet
          (groups ++ [⟨camelName, method.name, [overload]⟩]) rest

/-- `buildApiMethods`; `throw new Error(...)` is `Except.error` with the
exact message. -/
def buildApiMethods (methods : List Method) (typeMetadata : TypeMetadata)
    (ignoreMethodsSet : List String) : Except String (List Group) :=
  buildApiMethodsGo typeMetadata ignoreMethodsSet [] methods

/-!
### `render-jsbsim-api.mjs`: default fill cases
-/

/-- `getRequiredParamCount`: total count minus the trailing run of
parameters with a (non-null) default, counted from the end up to the first
parameter without one. -/
def getRequiredParamCount (params : List ApiParam) : Nat :=
  params.length - (params.reverse.takeWhile (fun param => param.defaultValue.isSome)).length

structure FillCase where
  providedArgCount : Nat
  defaultValues : List (Option String)
deriving DecidableEq

/-- How many overload ranges accept `providedArgCount`
(`minArgs ≤ count ≤ maxArgs`). -/
def acceptorCount (overloadRanges : List (Nat × Nat)) (providedArgCount : Nat) : Nat :=
  (overloadRanges.filter (fun range =>
    decide (range.1 ≤ providedArgCount) && decide (providedArgCount ≤ range.2))).length

def overloadRangesOf (overloads : List Overload) : List (Nat × Nat) :=
  overloads.map (fun overload => (getRequiredParamCount overload.params, overload.params.length))

/-- `buildDefaultFillCasesForOverloads`: the nested loops push, per overload
and per argument count in `[minArgs, maxArgs)` accepted by exactly one
range, the remaining parameters' default values; then a stable ascending
sort by provided argument count (JavaScript `sort` is stable, so it
produces exactly the stable insertion sort). -/
def buildDefaultFillCasesForOverloads (overloads : List Overload) : List FillCase :=
  let overloadRanges := overloadRangesOf overloads
  let fillCases := overloads.flatMap (fun overload =>
    let minArgs := getRequiredParamCount overload.params
    let maxArgs := overload.params.length
    (List.range' minArgs (maxArgs - minArgs)).filterMap (fun providedArgCount =>
      if !(acceptorCount overloadRanges providedArgCount == 1) then none
      else
        let missingParams := overload.params.drop providedArgCount
        if missingParams.any (fun param => param.defaultValue == none) then none
        else some ⟨providedArgCount, missingParams.map (fun param => param.defaultValue)⟩))
  fillCases.insertionSort (fun a b => a.providedArgCount ≤ b.providedArgCount)

/-!
### `render-jsbsim-api.mjs`: rendering

Generated text is built as a line list joined by `"\n"`.  Brace characters
inside generated lines are written with `\x7b`/`\x7d` escapes.
-/

def BUILTIN_TS_TYPE_NAMES : List String :=
  ["string", "number", "boolean", "void", "unknown", "any", "never", "undefined",
   "null", "object", "bigint", "symbol", "Array", "ReadonlyArray"]

def DEFAULT_JSBSIM_API_IGNORE_METHODS : List String :=
  ["SetOutputFileName", "GetOutputFileName"]

/-- `.replace(/\*\//g, "*\\/")`. -/
def escapeJsDocF : Nat → List Char → List Char
  | 0, u => u
  | _ + 1, [] => []
  | fuel + 1, c :: rest =>
    if c == '*' && headIs '/' rest then
      '*' :: '\\' :: '/' :: escapeJsDocF fuel (rest.drop 1)
    else
      c :: escapeJsDocF fuel rest

def escapeJsDoc (value : String) : String :=
  String.mk (escapeJsDocF value.data.length value.data)

def renderJsDocLines (method : Method) : List String :=
  let descriptionLines := method.jsDoc.descriptionLines
  let paramDocs := method.jsDoc.paramDocs
  let returns := method.jsDoc.returns
  if descriptionLines.isEmpty && paramDocs.isEmpty && returns == "" then []
  else
    ["  /**"]
    ++ descriptionLines.map (fun line => "   * " ++ escapeJsDoc line)
    ++ paramDocs.map (fun paramDoc =>
        "   * @param " ++ paramDoc.name ++ " " ++ escapeJsDoc paramDoc.text)
    ++ (if returns == "" then [] else ["   * @returns " ++ escapeJsDoc returns])
    ++ ["   */"]

def renderParam (optionalForDefault includeDefaultInitializer : Bool)
    (param : ApiParam) : String :=
  match param.defaultValue with
  | some defaultValue =>
    if includeDefaultInitializer then
      param.name ++ ": " ++ param.typeName ++ " = " ++ defaultValue
    else if optionalForDefault then
      param.name ++ "?: " ++ param.typeName
    else
      param.name ++ ": " ++ param.typeName
  | none => param.name ++ ": " ++ param.typeName

def renderParams (optionalForDefault includeDefaultInitializer : Bool)
    (params : List ApiParam) : String :=
  String.intercalate ", " (params.map (renderParam optionalForDefault includeDefaultInitializer))

def renderCallArgs (params : List ApiParam) : String :=
  String.intercalate ", " (params.map (fun param => param.name))

/-- `typeName.match(/[A-Za-z_][A-Za-z0-9_]*/g) ?? []` (a token cannot start
at a digit but may continue over one). -/
def identTokensF : Nat → List Char → List String
  | 0, _ => []
  | _ + 1, [] => []
  | fuel + 1, c :: rest =>
    if isIdentStart c then
      let run := rest.takeWhile isIdentCont
      String.mk (c :: run) :: identTokensF fuel (rest.drop run.length)
    else
      identTokensF fuel rest

def collectTypeIdentifiers (typeName : String) : List String :=
  (identTokensF typeName.data.length typeName.data).filter
    (fun identifier => !BUILTIN_TS_TYPE_NAMES.contains identifier)

/-- Ascending order approximating `localeCompare`'s default collation on
ASCII identifiers: case-insensitive by character, a lowercase letter before
its uppercase form, a prefix before its extensions. -/
def charCollateKey (c : Char) : Nat :=
  (lowerChar c).toNat * 2 + (if isAsciiUpper c then 1 else 0)

def localeLeL : List Char → List Char → Bool
  | [], _ => true
  | _ :: _, [] => false
  | a :: as, b :: bs =>
    if charCollateKey a < charCollateKey b then true
    else if charCollateKey b < charCollateKey a then false
    else localeLeL as bs

def localeLe (a b : String) : Bool := localeLeL a.data b.data

def collectTypeImports (groupedMethods : List Group) : List String :=
  let imports := groupedMethods.foldl (fun acc group =>
    group.overloads.foldl (fun acc overload =>
      let acc := overload.params.foldl (fun acc param =>
        (collectTypeIdentifiers param.typeName).foldl pushUniq acc) acc
      (collectTypeIdentifiers overload.returnType).foldl pushUniq acc) acc)
    ["FGFDMExecApi"]
  imports.insertionSort (fun a b => localeLe a b = true)

/-- The lines of one group's methods in the `JSBSimApi` class body. -/
def renderGroupLines (group : Group) : List String :=
  match group.overloads with
  | [overload] =>
    let params := renderParams false true overload.params
    let callArgs := renderCallArgs overload.params
    renderJsDocLines overload.method
    ++ ["  " ++ group.camelName ++ "(" ++ params ++ "): " ++ overload.returnType ++ " \x7b"]
    ++ [if overload.returnType == "void" then
          "    this.exec." ++ group.sourceMethodName ++ "(" ++ callArgs ++ ");"
        else
          "    return this.exec." ++ group.sourceMethodName ++ "(" ++ callArgs ++ ");"]
    ++ ["  \x7d", ""]
  | overloads =>
    let returnTypes := overloads.foldl (fun acc overload => pushUniq acc overload.returnType) []
    let returnType := String.intercalate " | " returnTypes
    let defaultFillCases := buildDefaultFillCasesForOverloads overloads
    (overloads.flatMap (fun overload =>
      renderJsDocLines overload.method
      ++ ["  " ++ group.camelName ++ "(" ++ renderParams true false overload.params ++ "): "
          ++ overload.returnType ++ ";"]))
    ++ ["  " ++ group.camelName ++ "(...args: unknown[]): " ++ returnType ++ " \x7b"]
    ++ (if decide (0 < defaultFillCases.length) then
          ["    const normalizedArgs = [...args] as unknown[];",
           "    switch (normalizedArgs.length) \x7b"]
          ++ defaultFillCases.flatMap (fun fillCase =>
              ["      case " ++ decStr fillCase.providedArgCount ++ ":",
               -- every entry is `some` by the guard in `buildDefaultFillCasesForOverloads`
               "        normalizedArgs.push(" ++
                 String.intercalate ", " (fillCase.defaultValues.map (fun v => v.getD "")) ++ ");",
               "        break;"])
          ++ ["      default:", "        break;", "    \x7d"]
        else [])
    ++ [if returnType == "void" then
          if decide (0 < defaultFillCases.length) then
            "    (this.exec." ++ group.sourceMethodName ++
              " as (...innerArgs: unknown[]) => void)(...normalizedArgs);"
          else
            "    (this.exec." ++ group.sourceMethodName ++
              " as (...innerArgs: unknown[]) => void)(...args);"
        else
          if decide (0 < defaultFillCases.length) then
            "    return (this.exec." ++ group.sourceMethodName ++
              " as (...innerArgs: unknown[]) => " ++ returnType ++ ")(...normalizedArgs);"
          else
            "    return (this.exec." ++ group.sourceMethodName ++
              " as (...innerArgs: unknown[]) => " ++ returnType ++ ")(...args);"]
    ++ ["  \x7d", ""]

/-- `renderJsbsimApiClass` (the grouping error propagates). -/
def renderJsbsimApiClass (methods : List Method) (typeMetadata : TypeMetadata)
    (ignoreMethods : List String) : Except String String :=
  match buildApiMethods methods typeMetadata ignoreMethods with
  | .error e => .error e
  | .ok groupedMethods =>
    let imports := collectTypeImports groupedMethods
    let headerLines :=
      ["// Generated by scripts/generate-fgfdmexec-bindings.mjs.",
       "// Do not edit manually.",
       "",
       "import type \x7b " ++ String.intercalate ", " imports ++ " \x7d from \"./fgfdmexec-api\";",
       "",
       "export class JSBSimApi \x7b",
       "  readonly exec: FGFDMExecApi;",
       "",
       "  constructor(exec: FGFDMExecApi) \x7b",
       "    this.exec = exec;",
       "  \x7d",
       ""]
    .ok (String.intercalate "\n"
      (headerLines ++ groupedMethods.flatMap renderGroupLines ++ ["\x7d"]))

/-!
### The generator half of `src/index.ts`

The repository's only `renderTsInterface` lives in the older text-parsing
generator of `src/index.ts`; it has its own `toTsType` without enum lookup,
renders `arg<index>` parameter names, and uses the method's original (C++)
name for the interface member.
-/

namespace IndexTs

def toTsType (type : String) (isReturn : Bool) : String :=
  let normalized := normalizeType type
  if normalized == "void" then "void"
  else if isBoolType normalized then "boolean"
  else if isNumericType normalized then "number"
  else if isStringType normalized || isSGPathType normalized then "string"
  else if isReturn && isVectorOfStringType normalized then "string[]"
  else "number"

def renderTsInterface (methods : List Method) : String :=
  let headerLines :=
    ["// Generated by scripts/generate-fgfdmexec-bindings.mjs.",
     "// Do not edit manually.",
     "",
     "export type OpaqueHandle = number;",
     "",
     "export interface FGFDMExecApi \x7b"]
  let methodLines := methods.map (fun method =>
    let params := String.intercalate ", " (method.params.mapIdx (fun index param =>
      "arg" ++ decStr index ++ ": " ++ toTsType param.type false))
    "  " ++ method.name ++ "(" ++ params ++ "): " ++ toTsType method.returnType true ++ ";")
  String.intercalate "\n" (headerLines ++ methodLines ++ ["\x7d", ""])

end IndexTs

/-!
### Clang AST nodes

The JSON nodes that `methods-from-ast.mjs` and `type-metadata.mjs` read,
flattened to the fields those files access: `type.qualType` becomes
`qualType`, presence of an `init` key becomes `hasInit`, and a node's
`value` is a boolean, a string, or a JSON number carried as its source
text (clang emits literal values as strings; `` `${value}` `` for the
numeric case is modelled by that text).  A missing or non-integer
`paramIdx` is `none` (`Number.isInteger` guard).
-/

inductive AstVal where
  | vb (b : Bool)
  | vs (s : String)
  | vn (lexeme : String)
deriving DecidableEq

inductive AstNode where
  | node (kind : String) (name : Option String) (value : Option AstVal)
      (qualType : Option String) (access : Option String)
      (isImplicit : Option Bool) (text : Option String)
      (param : Option String) (paramIdx : Option Int)
      (opcode : Option String) (hasInit : Bool)
      (inner : List AstNode)

def AstNode.kind : AstNode → String
  | .node k _ _ _ _ _ _ _ _ _ _ _ => k

def AstNode.name : AstNode → Option String
  | .node _ n _ _ _ _ _ _ _ _ _ _ => n

def AstNode.value : AstNode → Option AstVal
  | .node _ _ v _ _ _ _ _ _ _ _ _ => v

def AstNode.qualType : AstNode → Option String
  | .node _ _ _ q _ _ _ _ _ _ _ _ => q

def AstNode.access : AstNode → Option String
  | .node _ _ _ _ a _ _ _ _ _ _ _ => a

def AstNode.isImplicit : AstNode → Option Bool
  | .node _ _ _ _ _ i _ _ _ _ _ _ => i

def AstNode.text : AstNode → Option String
  | .node _ _ _ _ _ _ t _ _ _ _ _ => t

def AstNode.param : AstNode → Option String
  | .node _ _ _ _ _ _ _ p _ _ _ _ => p

def AstNode.paramIdx : AstNode → Option Int
  | .node _ _ _ _ _ _ _ _ i _ _ _ => i

def AstNode.opcode : AstNode → Option String
  | .node _ _ _ _ _ _ _ _ _ o _ _ => o

def AstNode.hasInit : AstNode → Bool
  | .node _ _ _ _ _ _ _ _ _ _ h _ => h

def AstNode.inner : AstNode → List AstNode
  | .node _ _ _ _ _ _ _ _ _ _ _ i => i

/-- An insertion-ordered map with `set` replacing an existing key in place
(JavaScript `Map.set`). -/
def mapSet {α β : Type} [BEq α] : List (α × β) → α → β → List (α × β)
  | [], k, v => [(k, v)]
  | (k', v') :: rest, k, v =>
    if k' == k then (k, v) :: rest else (k', v') :: mapSet rest k v

/-!
### `type-metadata.mjs`: enum member extraction (claim C4)
-/

/-- `/^-?\d+$/.test(value)`. -/
def intLitCheck (u : List Char) : Bool :=
  match u with
  | '-' :: ds => !ds.isEmpty && ds.all isAsciiDigit
  | ds => !ds.isEmpty && ds.all isAsciiDigit

/-- `Number.parseInt(value, 10)` on a string matching `/^-?\d+$/`
(modelled exactly; the generator's enum values are small). -/
def parseIntDec (u : List Char) : Int :=
  match u with
  | '-' :: ds => -(decVal ds : Int)
  | ds => (decVal ds : Int)

/-- `extractFirstIntegerValue`: the node's own string `value` when it is an
integer literal, else the first hit in a pre-order walk of `inner`. -/
def extractFirstIntegerValue : AstNode → Option Int
  | .node _ _ value _ _ _ _ _ _ _ _ inner =>
    match value with
    | some (.vs s) =>
      if intLitCheck s.data then some (parseIntDec s.data) else goInner inner
    | _ => goInner inner
where
  goInner : List AstNode → Option Int
    | [] => none
    | child :: rest =>
      match extractFirstIntegerValue child with
      | some v => some v
      | none => goInner rest

structure EnumMember where
  name : String
  value : Int
deriving DecidableEq

/-- `!child.name`: absent or empty. -/
def nameTruthy (child : AstNode) : Bool :=
  match child.name with
  | some s => !(s == "")
  | none => false

def extractEnumMembersGo (nextValue : Int) : List AstNode → List EnumMember
  | [] => []
  | child :: rest =>
    if child.kind == "EnumConstantDecl" && nameTruthy child then
      let value :=
        match extractFirstIntegerValue child with
        | some v => v
        | none => nextValue
      ⟨child.name.getD "", value⟩ :: extractEnumMembersGo (value + 1) rest
    else
      extractEnumMembersGo nextValue rest

def extractEnumMembers (enumDeclNode : AstNode) : List EnumMember :=
  extractEnumMembersGo 0 enumDeclNode.inner

/-!
### `methods-from-ast.mjs`: comment parsing
-/

/-- `collapseWhitespace` of `methods-from-ast.mjs`. -/
def collapseWhitespace (u : List Char) : List Char := jsTrimList (collapseWs u)

/-- `.replace(/^[@{]+\s*/, "")`: a non-empty leading run of `@`/`{` and the
whitespace after it (no change when the first character is neither). -/
def stripLeadingAtBrace (u : List Char) : List Char :=
  let run := u.takeWhile (fun c => c == '@' || c == lbraceChar)
  if run.isEmpty then u else (u.drop run.length).dropWhile jsWs

/-- `.replace(/\s*[@}]+$/, "")`: a non-empty trailing run of `@`/`}` and the
whitespace before it (no change when the last character is neither). -/
def stripTrailingAtBrace (u : List Char) : List Char :=
  let r := u.reverse
  let run := r.takeWhile (fun c => c == '@' || c == rbraceChar)
  if run.isEmpty then u else ((r.drop run.length).dropWhile jsWs).reverse

def sanitizeCommentLine (value : String) : String :=
  let collapsed :=
    jsTrimList (stripTrailingAtBrace (stripLeadingAtBrace (collapseWhitespace value.data)))
  if collapsed == [] || collapsed == ['@'] || collapsed == [lbraceChar] ||
      collapsed == [rbraceChar] then ""
  else String.mk collapsed

/-- `collectTextCommentLines`: sanitized `TextComment` texts in pre-order
(`walkAst` visits the node, then each child subtree in order). -/
def collectTextCommentLines : AstNode → List String
  | .node kind _ _ _ _ _ text _ _ _ _ inner =>
    (match text with
     | some t =>
       if kind == "TextComment" then
         let line := sanitizeCommentLine t
         if line == "" then [] else [line]
       else []
     | none => []) ++ goInner inner
where
  goInner : List AstNode → List String
    | [] => []
    | child :: rest => collectTextCommentLines child ++ goInner rest

def collectCommentText (node : AstNode) : String :=
  String.mk (jsTrimList (String.intercalate " " (collectTextCommentLines node)).data)

structure ParsedComment where
  descriptionLines : List String
  paramDocsByName : List (String × String)
  paramDocsByIndex : List (Int × String)
  returns : String

def parseMethodCommentGo : ParsedComment → List AstNode → ParsedComment
  | st, [] => st
  | st, child :: rest =>
    if child.kind == "ParagraphComment" then
      let text := collectCommentText child
      parseMethodCommentGo
        { st with descriptionLines :=
            if text == "" then st.descriptionLines else st.descriptionLines ++ [text] }
        rest
    else if child.kind == "ParamCommandComment" then
      let text := collectCommentText child
      let paramName := child.param.getD ""
      let st1 :=
        if !(paramName == "") && !(text == "") then
          { st with paramDocsByName := mapSet st.paramDocsByName paramName text }
        else st
      let st2 :=
        match child.paramIdx with
        | some paramIndex =>
          if !(text == "") then
            { st1 with paramDocsByIndex := mapSet st1.paramDocsByIndex paramIndex text }
          else st1
        | none => st1
      parseMethodCommentGo st2 rest
    else if child.kind == "BlockCommandComment" then
      let command := lowerStr (child.name.getD "")
      if command == "return" || command == "returns" then
        parseMethodCommentGo { st with returns := collectCommentText child } rest
      else
        parseMethodCommentGo st rest
    else
      parseMethodCommentGo st rest

def parseMethodComment (fullCommentNode : Option AstNode) : ParsedComment :=
  match fullCommentNode with
  | none => ⟨[], [], [], ""⟩
  | some node => parseMethodCommentGo ⟨[], [], [], ""⟩ node.inner

/-!
### `methods-from-ast.mjs`: parameter names (claim C9)

The `while (usedNames.has(...))` search for the first free numeric suffix is
embedded with `usedNames.length + 1` units of fuel; by the pigeonhole
principle (the candidate names are pairwise distinct) a free suffix is
always reached before the fuel runs out, which `freeSuffixFrom_spec` below
makes precise.
-/

/-- `param.name && /^[A-Za-z_][A-Za-z0-9_]*$/.test(param.name)`. -/
def isValidParamName (s : String) : Bool :=
  match s.data with
  | [] => false
  | c :: rest => isIdentStart c && rest.all isIdentCont

def freeSuffixFrom (usedNames : List String) (base : String) : Nat → Nat → Nat
  | 0, suffix => suffix
  | fuel + 1, suffix =>
    if usedNames.contains (base ++ "_" ++ decStr suffix) then
      freeSuffixFrom usedNames base fuel (suffix + 1)
    else suffix

def normalizeParamNamesGo : List String → Nat → List Param → List Param
  | _, _, [] => []
  | usedNames, index, param :: rest =>
    let name0 := if isValidParamName param.name then param.name else "arg" ++ decStr index
    let name :=
      if usedNames.contains name0 then
        name0 ++ "_" ++ decStr (freeSuffixFrom usedNames name0 (usedNames.length + 1) 1)
      else name0
    { param with name := name } :: normalizeParamNamesGo (name :: usedNames) (index + 1) rest

def normalizeParamNames (params : List Param) : List Param :=
  normalizeParamNamesGo [] 0 params

/-!
### `methods-from-ast.mjs`: default values and method extraction (claim C5)
-/

def EXPR_WRAPPER_KINDS : List String :=
  ["ExprWithCleanups", "MaterializeTemporaryExpr", "ImplicitCastExpr",
   "CXXBindTemporaryExpr", "CXXDefaultArgExpr", "ParenExpr"]

/-- `unwrapExprNode`: follow `inner[0]` through wrapper kinds (the visited
set of the source only guards against cyclic objects, which trees cannot
be). -/
def unwrapExprNode : AstNode → AstNode
  | .node kind name value qualType access isImplicit text param paramIdx opcode hasInit inner =>
    if EXPR_WRAPPER_KINDS.contains kind then
      match inner with
      | [] => .node kind name value qualType access isImplicit text param paramIdx opcode hasInit inner
      | first :: _ => unwrapExprNode first
    else
      .node kind name value qualType access isImplicit text param paramIdx opcode hasInit inner

/-- `findDescendant`: depth-first, the node itself first. -/
def findDescendant (p : AstNode → Bool) : AstNode → Option AstNode
  | .node kind name value qualType access isImplicit text param paramIdx opcode hasInit inner =>
    if p (.node kind name value qualType access isImplicit text param paramIdx opcode hasInit inner) then
      some (.node kind name value qualType access isImplicit text param paramIdx opcode hasInit inner)
    else goInner inner
where
  goInner : List AstNode → Option AstNode
    | [] => none
    | child :: rest =>
      match findDescendant p child with
      | some found => some found
      | none => goInner rest

/-- `/^[-+]?\d+(\.\d+)?([eE][-+]?\d+)?$/` on an already trimmed string. -/
def numberLiteralCheck (u : List Char) : Bool :=
  let u1 := match u with
    | c :: r => if c == '-' || c == '+' then r else u
    | [] => u
  let intDigits := u1.takeWhile isAsciiDigit
  if intDigits.isEmpty then false
  else
    let u2 := u1.drop intDigits.length
    let afterFrac : Option (List Char) :=
      match u2 with
      | '.' :: r =>
        let fracDigits := r.takeWhile isAsciiDigit
        if fracDigits.isEmpty then none else some (r.drop fracDigits.length)
      | _ => some u2
    match afterFrac with
    | none => false
    | some u3 =>
      match u3 with
      | [] => true
      | e :: r =>
        if e == 'e' || e == 'E' then
          let r1 := match r with
            | c :: rr => if c == '-' || c == '+' then rr else r
            | [] => r
          let expDigits := r1.takeWhile isAsciiDigit
          !expDigits.isEmpty && (r1.drop expDigits.length).isEmpty
        else false

/-- `toNumberLiteral`: a finite JSON number renders as its carried source
text; a string value is trimmed and kept when it matches the number
pattern. -/
def toNumberLiteral : Option AstVal → Option String
  | some (.vn lexeme) => some lexeme
  | some (.vs s) =>
    let trimmed := jsTrimList s.data
    if numberLiteralCheck trimmed then some (String.mk trimmed) else none
  | _ => none

/-- `.replace(/^[+-]/, "")`. -/
def dropLeadingSign (u : List Char) : List Char :=
  match u with
  | c :: rest => if c == '+' || c == '-' then rest else u
  | [] => []

def extractTsDefaultValueFromExpr (exprNode : Option AstNode) (paramType : String) :
    Option String :=
  match exprNode with
  | none => none
  | some node =>
    let unwrapped := unwrapExprNode node
    if unwrapped.kind == "CXXBoolLiteralExpr" then
      match unwrapped.value with
      | some (.vb b) => some (if b then "true" else "false")
      | _ => afterBool unwrapped paramType
    else afterBool unwrapped paramType
where
  afterBool (unwrapped : AstNode) (paramType : String) : Option String :=
    if unwrapped.kind == "IntegerLiteral" || unwrapped.kind == "FloatingLiteral" then
      match toNumberLiteral unwrapped.value with
      | some numberLiteral => some numberLiteral
      | none => afterNumber unwrapped paramType
    else afterNumber unwrapped paramType
  afterNumber (unwrapped : AstNode) (paramType : String) : Option String :=
    (if unwrapped.kind == "UnaryOperator" &&
        (unwrapped.opcode == some "-" || unwrapped.opcode == some "+") then
      let operand := match unwrapped.inner with
        | first :: _ => some (unwrapExprNode first)
        | [] => none
      match operand with
      | some op =>
        if op.kind == "IntegerLiteral" || op.kind == "FloatingLiteral" then
          match toNumberLiteral op.value with
          | some numberLiteral =>
            some ((unwrapped.opcode.getD "") ++ String.mk (dropLeadingSign numberLiteral.data))
          | none => afterUnary unwrapped paramType
        else afterUnary unwrapped paramType
      | none => afterUnary unwrapped paramType
    else afterUnary unwrapped paramType)
  afterUnary (unwrapped : AstNode) (paramType : String) : Option String :=
    (if unwrapped.kind == "StringLiteral" then
      match unwrapped.value with
      | some (.vs s) => some s
      | _ => afterString unwrapped paramType
    else afterString unwrapped paramType)
  afterString (unwrapped : AstNode) (paramType : String) : Option String :=
    match findDescendant
        (fun n => n.kind == "StringLiteral" &&
          (match n.value with | some (.vs _) => true | _ => false))
        unwrapped with
    | some found =>
      match found.value with
      | some (.vs s) => if s == "" then afterDescendant unwrapped paramType else some s
      | _ => afterDescendant unwrapped paramType
    | none => afterDescendant unwrapped paramType
  afterDescendant (unwrapped : AstNode) (paramType : String) : Option String :=
    if isStringType paramType || isSGPathType paramType then
      -- Default-constructed std::string/SGPath map to an empty JS string.
      if unwrapped.kind == "CXXConstructExpr" || unwrapped.kind == "CXXTemporaryObjectExpr" then
        some "\"\""
      else none
    else none

def extractParamDefaultValue (paramNode : AstNode) (paramType : String) : Option String :=
  if !paramNode.hasInit then none
  else extractTsDefaultValueFromExpr (paramNode.inner.head?) paramType

def extractMethodParams (methodNode : AstNode) : List Param :=
  let paramNodes := methodNode.inner.filter (fun n => n.kind == "ParmVarDecl")
  let params := paramNodes.map (fun paramNode =>
    let rawName := paramNode.name.getD ""
    let paramType := normalizeType (paramNode.qualType.getD "void")
    { name := rawName
      type := paramType
      defaultValue := extractParamDefaultValue paramNode paramType : Param })
  normalizeParamNames params

def extractMethodJsDoc (parsedComment : ParsedComment) (params : List Param) : JsDoc :=
  let paramDocs := (params.mapIdx (fun index param =>
    let text :=
      (((List.lookup (Int.ofNat index) parsedComment.paramDocsByIndex).orElse
        (fun _ => List.lookup param.name parsedComment.paramDocsByName)).getD "")
    JsDocParam.mk param.name text)).filter (fun paramDoc => !(paramDoc.text == ""))
  ⟨parsedComment.descriptionLines, paramDocs, parsedComment.returns⟩

def isPublicMethodNode (node : AstNode) (currentAccess : String) : Bool :=
  currentAccess == "public" && node.kind == "CXXMethodDecl" &&
  !(node.isImplicit == some true) &&
  !(node.name == some CLASS_NAME) && !(node.name == some ("~" ++ CLASS_NAME))

/-- `inferReturnType`: everything before the first `(` of `type.qualType`
(`indexOf`/`slice`), trimmed and normalized; `""` when there is no `(`. -/
def inferReturnType (methodNode : AstNode) : String :=
  let functionType := (methodNode.qualType.getD "").data
  if functionType.contains '(' then
    normalizeType
      (String.mk (jsTrimList (functionType.take (functionType.findIdx (fun c => c == '(')))))
  else ""

def extractPublicMethodsGo : String → List AstNode → List Method
  | _, [] => []
  | currentAccess, child :: rest =>
    if child.kind == "AccessSpecDecl" then
      extractPublicMethodsGo (child.access.getD currentAccess) rest
    else if isPublicMethodNode child currentAccess then
      let returnType := inferReturnType child
      if returnType == "" then extractPublicMethodsGo currentAccess rest
      else
        let fullCommentNode := child.inner.find? (fun innerNode => innerNode.kind == "FullComment")
        let parsedComment := parseMethodComment fullCommentNode
        let params := extractMethodParams child
        { name := child.name.getD "", returnType := returnType, params := params,
          jsDoc := extractMethodJsDoc parsedComment params } :: extractPublicMethodsGo currentAccess rest
    else
      extractPublicMethodsGo currentAccess rest

/-- `extractPublicMethodsFromClass` (access starts `"private"`). -/
def extractPublicMethodsFromClass (classNode : AstNode) : List Method :=
  extractPublicMethodsGo "private" classNode.inner

/-!
### JSON values and `JSON.parse` (for `clang-ast.mjs`)

JSON numbers are carried as their source text (the claims never compare
numeric values across spellings), object literals keep JavaScript property
semantics (a duplicate key overwrites in place), and a `\u` escape decoding
to a lone UTF-16 surrogate — unrepresentable in `Char` — becomes U+FFFD.
`JSON.parse` whitespace is exactly space, tab, `\n`, `\r`; the parsers are
fueled (strictly over one unit per consumed character, so the input length
plus one always suffices).
-/

inductive Json where
  | null
  | bool (b : Bool)
  | num (lexeme : String)
  | str (s : String)
  | arr (elems : List Json)
  | obj (fields : List (String × Json))

def jsonWsChar (c : Char) : Bool := c == ' ' || c == '\t' || c == '\n' || c == '\r'

def hexVal (c : Char) : Option Nat :=
  if isAsciiDigit c then some (c.toNat - 48)
  else if decide (97 ≤ c.toNat) && decide (c.toNat ≤ 102) then some (c.toNat - 87)
  else if decide (65 ≤ c.toNat) && decide (c.toNat ≤ 70) then some (c.toNat - 55)
  else none

/-- String body after the opening quote: `(content, rest)`. -/
def parseJsonStringF : Nat → List Char → Option (List Char × List Char)
  | 0, _ => none
  | fuel + 1, u =>
    match u with
    | [] => none
    | '"' :: rest => some ([], rest)
    | '\\' :: rest =>
      match rest with
      | [] => none
      | esc :: rest2 =>
        if esc == '"' || esc == '\\' || esc == '/' then
          match parseJsonStringF fuel rest2 with
          | some (s, r) => some (esc :: s, r)
          | none => none
        else if esc == 'b' || esc == 'f' || esc == 'n' || esc == 'r' || esc == 't' then
          let decoded : Char :=
            if esc == 'b' then Char.ofNat 8
            else if esc == 'f' then Char.ofNat 12
            else if esc == 'n' then Char.ofNat 10
            else if esc == 'r' then Char.ofNat 13
            else Char.ofNat 9
          match parseJsonStringF fuel rest2 with
          | some (s, r) => some (decoded :: s, r)
          | none => none
        else if esc == 'u' then
          match rest2 with
          | h1 :: h2 :: h3 :: h4 :: rest3 =>
            match hexVal h1, hexVal h2, hexVal h3, hexVal h4 with
            | some a, some b, some c, some d =>
              let n := ((a * 16 + b) * 16 + c) * 16 + d
              if decide (0xd800 ≤ n) && decide (n < 0xdc00) then
                match rest3 with
                | '\\' :: 'u' :: g1 :: g2 :: g3 :: g4 :: rest4 =>
                  match hexVal g1, hexVal g2, hexVal g3, hexVal g4 with
                  | some a', some b', some c', some d' =>
                    let m := ((a' * 16 + b') * 16 + c') * 16 + d'
                    if decide (0xdc00 ≤ m) && decide (m < 0xe000) then
                      match parseJsonStringF fuel rest4 with
                      | some (s, r) =>
                        some (Char.ofNat (0x10000 + (n - 0xd800) * 0x400 + (m - 0xdc00)) :: s, r)
                      | none => none
                    else
                      match parseJsonStringF fuel rest3 with
                      | some (s, r) => some (Char.ofNat 0xfffd :: s, r)
                      | none => none
                  | _, _, _, _ =>
                    match parseJsonStringF fuel rest3 with
                    | some (s, r) => some (Char.ofNat 0xfffd :: s, r)
                    | none => none
                | _ =>
                  match parseJsonStringF fuel rest3 with
                  | some (s, r) => some (Char.ofNat 0xfffd :: s, r)
                  | none => none
              else if decide (0xdc00 ≤ n) && decide (n < 0xe000) then
                match parseJsonStringF fuel rest3 with
                | some (s, r) => some (Char.ofNat 0xfffd :: s, r)
                | none => none
              else
                match parseJsonStringF fuel rest3 with
                | some (s, r) => some (Char.ofNat n :: s, r)
                | none => none
            | _, _, _, _ => none
          | _ => none
        else none
    | c :: rest =>
      if decide (c.toNat < 0x20) then none
      else
        match parseJsonStringF fuel rest with
        | some (s, r) => some (c :: s, r)
        | none => none

/-- A JSON number lexeme: `-?(0|[1-9][0-9]*)(\.[0-9]+)?([eE][-+]?[0-9]+)?`. -/
def parseJsonNumber (u : List Char) : Option (List Char × List Char) :=
  let (sign, u1) : List Char × List Char :=
    match u with
    | '-' :: rest => (['-'], rest)
    | _ => ([], u)
  match u1 with
  | [] => none
  | c :: rest =>
    if !isAsciiDigit c then none
    else
      let (intPart, u2) : List Char × List Char :=
        if c == '0' then (['0'], rest)
        else
          let run := u1.takeWhile isAsciiDigit
          (run, u1.drop run.length)
      let (fracPart, u3) : List Char × List Char :=
        match u2 with
        | '.' :: r =>
          let digits := r.takeWhile isAsciiDigit
          if digits.isEmpty then ([], u2) else ('.' :: digits, r.drop digits.length)
        | _ => ([], u2)
      let fracOk : Bool := match u2 with
        | '.' :: r => !(r.takeWhile isAsciiDigit).isEmpty
        | _ => true
      if !fracOk then none
      else
        match u3 with
        | e :: r =>
          if e == 'e' || e == 'E' then
            let (expSign, r1) : List Char × List Char :=
              match r with
              | s :: rr => if s == '+' || s == '-' then ([s], rr) else ([], r)
              | [] => ([], r)
            let expDigits := r1.takeWhile isAsciiDigit
            if expDigits.isEmpty then none
            else
              some (sign ++ intPart ++ fracPart ++ e :: expSign ++ expDigits,
                r1.drop expDigits.length)
          else some (sign ++ intPart ++ fracPart, u3)
        | [] => some (sign ++ intPart ++ fracPart, u3)

mutual

/-- One JSON value at the head of the input (no leading whitespace). -/
def parseValueF : Nat → List Char → Option (Json × List Char)
  | 0, _ => none
  | fuel + 1, u =>
    match u with
    | [] => none
    | c :: rest =>
      if c == 'n' then
        if rest.take 3 == ['u', 'l', 'l'] then some (.null, rest.drop 3) else none
      else if c == 't' then
        if rest.take 3 == ['r', 'u', 'e'] then some (.bool true, rest.drop 3) else none
      else if c == 'f' then
        if rest.take 4 == ['a', 'l', 's', 'e'] then some (.bool false, rest.drop 4) else none
      else if c == '"' then
        match parseJsonStringF rest.length rest with
        | some (s, r) => some (.str (String.mk s), r)
        | none => none
      else if c == '[' then
        let r1 := rest.dropWhile jsonWsChar
        match r1 with
        | ']' :: r2 => some (.arr [], r2)
        | _ =>
          match parseElemsF fuel [] r1 with
          | some (elems, r2) => some (.arr elems, r2)
          | none => none
      else if c == lbraceChar then
        let r1 := rest.dropWhile jsonWsChar
        match r1 with
        | d :: r2 =>
          if d == rbraceChar then some (.obj [], r2)
          else
            match parseMembersF fuel [] r1 with
            | some (fields, r2') => some (.obj fields, r2')
            | none => none
        | [] => none
      else
        match parseJsonNumber u with
        | some (lexeme, r) => some (.num (String.mk lexeme), r)
        | none => none

/-- Array elements after `[` (at least one; leading whitespace consumed). -/
def parseElemsF : Nat → List Json → List Char → Option (List Json × List Char)
  | 0, _, _ => none
  | fuel + 1, acc, u =>
    match parseValueF fuel u with
    | none => none
    | some (v, r) =>
      match r.dropWhile jsonWsChar with
      | ',' :: r2 => parseElemsF fuel (acc ++ [v]) (r2.dropWhile jsonWsChar)
      | ']' :: r2 => some (acc ++ [v], r2)
      | _ => none

/-- Object members after `{` (at least one; leading whitespace consumed). -/
def parseMembersF : Nat → List (String × Json) → List Char →
    Option (List (String × Json) × List Char)
  | 0, _, _ => none
  | fuel + 1, acc, u =>
    match u with
    | '"' :: rest =>
      match parseJsonStringF rest.length rest with
      | none => none
      | some (k, r) =>
        match r.dropWhile jsonWsChar with
        | ':' :: r2 =>
          match parseValueF fuel (r2.dropWhile jsonWsChar) with
          | none => none
          | some (v, r3) =>
            let acc' := mapSet acc (String.mk k) v
            match r3.dropWhile jsonWsChar with
            | c :: r4 =>
              if c == ',' then parseMembersF fuel acc' (r4.dropWhile jsonWsChar)
              else if c == rbraceChar then some (acc', r4)
              else none
            | [] => none
        | _ => none
    | _ => none

end

/-- `JSON.parse` on a whole string: one value, whitespace allowed around
it. -/
def jsonParse (u : List Char) : Option Json :=
  match parseValueF (u.length + 1) (u.dropWhile jsonWsChar) with
  | some (v, rest) => if (rest.dropWhile jsonWsChar).isEmpty then some v else none
  | none => none

/-!
### `clang-ast.mjs`: `parseClangJsonOutput` and `runClangAstDumpFromFile`

The character loop tracking chunk start, brace depth and string/escape
state is embedded structurally over the input; the current chunk is
accumulated instead of sliced by index (the characters from the opening
brace to the current position are exactly the accumulator).
-/

/-- The splitting loop of `parseClangJsonOutput`, parsing each completed
top-level chunk as the source does; `none` is the early `return null` on a
chunk that fails to parse. -/
def scanDocs : List Char → Bool → List Char → Nat → Bool → Bool → List Json →
    Option (List Json)
  | [], _, _, _, _, _, docs => some docs
  | ch :: rest, inChunk, acc, depth, inString, escaped, docs =>
    if !inChunk then
      if ch == lbraceChar then scanDocs rest true [ch] 1 false false docs
      else scanDocs rest false acc depth inString escaped docs
    else if inString then
      if escaped then scanDocs rest true (acc ++ [ch]) depth true false docs
      else if ch == '\\' then scanDocs rest true (acc ++ [ch]) depth true true docs
      else if ch == '"' then scanDocs rest true (acc ++ [ch]) depth false escaped docs
      else scanDocs rest true (acc ++ [ch]) depth true escaped docs
    else if ch == '"' then
      scanDocs rest true (acc ++ [ch]) depth true escaped docs
    else if ch == lbraceChar then
      scanDocs rest true (acc ++ [ch]) (depth + 1) inString escaped docs
    else if ch == rbraceChar then
      if depth == 1 then
        match jsonParse (acc ++ [ch]) with
        | some doc => scanDocs rest false [] 0 inString escaped (docs ++ [doc])
        | none => none
      else
        scanDocs rest true (acc ++ [ch]) (depth - 1) inString escaped docs
    else
      scanDocs rest true (acc ++ [ch]) depth inString escaped docs

/-- The same loop without the parsing: the raw top-level chunks, in order. -/
def extractChunks : List Char → Bool → List Char → Nat → Bool → Bool → List (List Char)
  | [], _, _, _, _, _ => []
  | ch :: rest, inChunk, acc, depth, inString, escaped =>
    if !inChunk then
      if ch == lbraceChar then extractChunks rest true [ch] 1 false false
      else extractChunks rest false acc depth inString escaped
    else if inString then
      if escaped then extractChunks rest true (acc ++ [ch]) depth true false
      else if ch == '\\' then extractChunks rest true (acc ++ [ch]) depth true true
      else if ch == '"' then extractChunks rest true (acc ++ [ch]) depth false escaped
      else extractChunks rest true (acc ++ [ch]) depth true escaped
    else if ch == '"' then
      extractChunks rest true (acc ++ [ch]) depth true escaped
    else if ch == lbraceChar then
      extractChunks rest true (acc ++ [ch]) (depth + 1) inString escaped
    else if ch == rbraceChar then
      if depth == 1 then (acc ++ [ch]) :: extractChunks rest false [] 0 inString escaped
      else extractChunks rest true (acc ++ [ch]) (depth - 1) inString escaped
    else
      extractChunks rest true (acc ++ [ch]) depth inString escaped

/-- Parse every chunk, `none` as soon as one fails. -/
def parseAllChunks : List (List Char) → Option (List Json)
  | [] => some []
  | chunk :: rest =>
    match jsonParse chunk with
    | none => none
    | some doc =>
      match parseAllChunks rest with
      | some docs => some (doc :: docs)
      | none => none

/-- `parseClangJsonOutput`.  The JavaScript function returns `null` both on
failure and for a whole-input parse yielding the JSON value `null`; the two
are one and the same value there, modelled as `none`. -/
def parseClangJsonOutput (output : String) : Option Json :=
  let trimmed := jsTrimList output.data
  if trimmed.isEmpty then none
  else
    match jsonParse trimmed with
    | some doc =>
      match doc with
      | .null => none
      | d => some d
    | none =>
      match scanDocs trimmed false [] 0 false false [] with
      | none => none
      | some docs =>
        match docs with
        | [] => none
        | [doc] => some doc
        | ds => some (.obj [("kind", .str "ClangAstDocumentSet"), ("inner", .arr ds)])

/-- What `spawnSync(compiler, args, ...)` came back with: `hasError` is a
set `result.error` (spawn failure), plus exit status and standard output. -/
structure SpawnResult where
  hasError : Bool
  status : Int
  stdout : String

/-- JavaScript falsiness of a parsed JSON document (the `if (!parsed)`
check): `false`, a zero-valued number, or the empty string. -/
def zeroLexeme (s : String) : Bool :=
  ((s.data.takeWhile (fun c => !(c == 'e' || c == 'E'))).filter isAsciiDigit).all
    (fun c => c == '0')

def jsFalsyJson : Json → Bool
  | .null => true
  | .bool b => !b
  | .num lexeme => zeroLexeme lexeme
  | .str s => s == ""
  | .arr _ => false
  | .obj _ => false

/-- The loop body of `runClangAstDumpFromFile` over the candidate list
(`spawnSync` is an oracle from the compiler name to its result; the
constructed argument list does not affect control flow). -/
def tryCompilers (spawn : String → SpawnResult) : List String → Option Json
  | [] => none
  | compiler :: rest =>
    let result := spawn compiler
    if result.hasError || !(result.status == 0) then tryCompilers spawn rest
    else
      match parseClangJsonOutput result.stdout with
      | none => tryCompilers spawn rest
      | some parsed =>
        if jsFalsyJson parsed then tryCompilers spawn rest else some parsed

def runClangAstDumpFromFile (spawn : String → SpawnResult) : Option Json :=
  tryCompilers spawn ["clang++", "clang"]

/-- What one compiler candidate contributes on its own: `none` on spawn
error, non-zero exit, unparsable or falsy output. -/
def compilerYields (spawn : String → SpawnResult) (compiler : String) : Option Json :=
  let result := spawn compiler
  if result.hasError || !(result.status == 0) then none
  else
    match parseClangJsonOutput result.stdout with
    | none => none
    | some parsed => if jsFalsyJson parsed then none else some parsed

/-!
### Claim C8: Scenario A (a class with `void Run()` and `bool RunIC()`)
-/

/-- The two extracted methods of Scenario A (no parameters, no
documentation comment). -/
def scenarioAMethods : List Method :=
  [⟨"Run", "void", [], ⟨[], [], ""⟩⟩, ⟨"RunIC", "bool", [], ⟨[], [], ""⟩⟩]

def scenarioAMetadata : TypeMetadata := ⟨[], [], []⟩

def scenarioARaw : String := IndexTs.renderTsInterface scenarioAMethods

def scenarioAWrapper : String :=
  match renderJsbsimApiClass scenarioAMethods scenarioAMetadata
      DEFAULT_JSBSIM_API_IGNORE_METHODS with
  | .ok out => out
  | .error e => e

/-- Counterexample to claim C8: the generated raw interface keeps the
original C++ member names, so it contains `Run(): void;` and never the
claimed `run(): void`; and `toCamelCaseName "RunIC"` is `"runIc"` (the
tokenizer lowercases the acronym), so the ergonomic wrapper has no method
`runIC(`. -/
theorem scenarioA_counterexample :
    containsStr scenarioARaw "run(): void" = false ∧
    containsStr scenarioARaw "  Run(): void;" = true ∧
    containsStr scenarioAWrapper "runIC(" = false ∧
    toCamelCaseName "RunIC" = "runIc" :=
  ⟨rfl, rfl, rfl, rfl⟩

/-- Claim C8 (corrected): for a class declaring exactly `void Run()` and
`bool RunIC()`, the raw interface (`renderTsInterface` of `src/index.ts`,
the repository's only raw-interface renderer) lists the members under their
original names, `Run(): void;` and `RunIC(): boolean;`, and the ergonomic
wrapper class has methods `run()` and `runIc()` (not `runIC()`), each
forwarding to the raw interface member with no arguments. -/
theorem scenarioA_render_spec :
    scenarioARaw = String.intercalate "\n"
      ["// Generated by scripts/generate-fgfdmexec-bindings.mjs.",
       "// Do not edit manually.",
       "",
       "export type OpaqueHandle = number;",
       "",
       "export interface FGFDMExecApi \x7b",
       "  Run(): void;",
       "  RunIC(): boolean;",
       "\x7d",
       ""] ∧
    renderJsbsimApiClass scenarioAMethods scenarioAMetadata
        DEFAULT_JSBSIM_API_IGNORE_METHODS = .ok (String.intercalate "\n"
      ["// Generated by scripts/generate-fgfdmexec-bindings.mjs.",
       "// Do not edit manually.",
       "",
       "import type \x7b FGFDMExecApi \x7d from \"./fgfdmexec-api\";",
       "",
       "export class JSBSimApi \x7b",
       "  readonly exec: FGFDMExecApi;",
       "",
       "  constructor(exec: FGFDMExecApi) \x7b",
       "    this.exec = exec;",
       "  \x7d",
       "",
       "  run(): void \x7b",
       "    this.exec.Run();",
       "  \x7d",
       "",
       "  runIc(): boolean \x7b",
       "    return this.exec.RunIC();",
       "  \x7d",
       "",
       "\x7d"]) ∧
    toCamelCaseName "Run" = "run" ∧ toCamelCaseName "RunIC" = "runIc" :=
  ⟨rfl, rfl, rfl, rfl⟩

/-!
### Claim C7: `parseClangJsonOutput`
-/

/-- Loop fusion: the splitting loop that parses chunks as it completes them
computes exactly "extract all top-level chunks, then parse them all with an
early `none` on the first failure". -/
theorem scanDocs_eq : ∀ (input : List Char) (inChunk : Bool) (acc : List Char)
    (depth : Nat) (inString escaped : Bool) (docs : List Json),
    scanDocs input inChunk acc depth inString escaped docs =
      (match parseAllChunks (extractChunks input inChunk acc depth inString escaped) with
       | none => none
       | some ds => some (docs ++ ds))
  | [], _, _, _, _, _, docs => by
    simp [scanDocs, extractChunks, parseAllChunks]
  | ch :: rest, inChunk, acc, depth, inString, escaped, docs => by
    have ih := fun b a d s e ds => scanDocs_eq rest b a d s e ds
    simp only [scanDocs, extractChunks]
    split_ifs
    case _ => exact ih _ _ _ _ _ _
    case _ => exact ih _ _ _ _ _ _
    case _ => exact ih _ _ _ _ _ _
    case _ => exact ih _ _ _ _ _ _
    case _ => exact ih _ _ _ _ _ _
    case _ => exact ih _ _ _ _ _ _
    case _ => exact ih _ _ _ _ _ _
    case _ => exact ih _ _ _ _ _ _
    case _ =>
      cases hj : jsonParse (acc ++ [ch]) with
      | none => simp [parseAllChunks, hj]
      | some doc =>
        dsimp only
        rw [ih]
        simp only [parseAllChunks, hj]
        cases hp : parseAllChunks (extractChunks rest false [] 0 inString escaped) with
        | none => rfl
        | some ds => simp
    case _ => exact ih _ _ _ _ _ _
    case _ => exact ih _ _ _ _ _ _

/-- Claim C7 (corrected): `parseClangJsonOutput` first attempts a
whole-output parse and returns that document on success (a parsed JSON
`null` being the same value JavaScript uses for failure); otherwise it
splits the trimmed output into top-level brace-delimited chunks tracking
string/escape state, and — correcting the claim — returns `null` as soon as
*any* extracted chunk fails to parse, not only "when none parse"; when all
chunks parse it returns the single document unwrapped, a synthetic
`ClangAstDocumentSet` node around two or more, and `null` for none. -/
theorem parseClangJsonOutput_spec (output : String) :
    parseClangJsonOutput output =
      (let trimmed := jsTrimList output.data
       if trimmed.isEmpty then none
       else
         match jsonParse trimmed with
         | some doc => (match doc with | .null => none | d => some d)
         | none =>
           match parseAllChunks (extractChunks trimmed false [] 0 false false) with
           | none => none
           | some [] => none
           | some [doc] => some doc
           | some ds =>
             some (.obj [("kind", .str "ClangAstDocumentSet"), ("inner", .arr ds)])) := by
  unfold parseClangJsonOutput
  dsimp only
  by_cases h : (jsTrimList output.data).isEmpty = true
  · rw [if_pos h, if_pos h]
  · rw [if_neg h, if_neg h]
    cases hj : jsonParse (jsTrimList output.data) with
    | some doc => rfl
    | none =>
      rw [scanDocs_eq]
      cases hp : parseAllChunks (extractChunks (jsTrimList output.data) false [] 0 false false) with
      | none => rfl
      | some ds =>
        cases ds with
        | nil => rfl
        | cons d ds' => cases ds' <;> rfl

/-- The clang output of the counterexample below: a parsable first chunk
and an unparsable second one. -/
def badClangOutput : String := "\x7b\"a\":1\x7d \x7b\"b\":\x7d"

/-- Counterexample to claim C7 as stated: the output splits into two
top-level chunks of which the first parses, yet the function returns
`null` — `null` is returned as soon as any chunk fails, not only "when none
parse". -/
theorem parseClangJsonOutput_counterexample :
    parseClangJsonOutput badClangOutput = none ∧
    extractChunks (jsTrimList badClangOutput.data) false [] 0 false false =
      ["\x7b\"a\":1\x7d".data, "\x7b\"b\":\x7d".data] ∧
    jsonParse "\x7b\"a\":1\x7d".data = some (.obj [("a", .num "1")]) ∧
    jsonParse "\x7b\"b\":\x7d".data = none :=
  ⟨rfl, rfl, rfl, rfl⟩

/-!
### Claim C6: `runClangAstDumpFromFile`
-/

theorem tryCompilers_cons (spawn : String → SpawnResult) (compiler : String)
    (rest : List String) :
    tryCompilers spawn (compiler :: rest) =
      (match compilerYields spawn compiler with
       | some parsed => some parsed
       | none => tryCompilers spawn rest) := by
  conv_lhs => rw [tryCompilers]
  unfold compilerYields
  by_cases h1 : ((spawn compiler).hasError || !((spawn compiler).status == 0)) = true
  · simp [h1]
  · simp only [h1, Bool.false_eq_true, if_false]
    cases hp : parseClangJsonOutput (spawn compiler).stdout with
    | none => simp
    | some parsed => by_cases hf : jsFalsyJson parsed = true <;> simp [hf]

/-- Claim C6: AST acquisition never raises — it is a total function into
`Option` — and tries the candidate compilers in the fixed order
`["clang++", "clang"]`: the result is the first candidate's document when
that candidate spawns, exits zero and produces parsable (truthy) output,
else the second candidate's, and it is `none` exactly when both candidates
fail by spawn error, non-zero exit, or unparsable output. -/
theorem runClangAstDumpFromFile_spec (spawn : String → SpawnResult) :
    runClangAstDumpFromFile spawn =
      (match compilerYields spawn "clang++" with
       | some parsed => some parsed
       | none => compilerYields spawn "clang") ∧
    (runClangAstDumpFromFile spawn = none ↔
      compilerYields spawn "clang++" = none ∧ compilerYields spawn "clang" = none) := by
  have h1 : runClangAstDumpFromFile spawn =
      (match compilerYields spawn "clang++" with
       | some parsed => some parsed
       | none => compilerYields spawn "clang") := by
    show tryCompilers spawn ["clang++", "clang"] = _
    rw [tryCompilers_cons]
    cases compilerYields spawn "clang++" with
    | some parsed => rfl
    | none =>
      rw [tryCompilers_cons]
      cases compilerYields spawn "clang" with
      | some parsed => rfl
      | none => rfl
  refine ⟨h1, ?_⟩
  rw [h1]
  cases hA : compilerYields spawn "clang++" with
  | some parsed => simp
  | none => cases hB : compilerYields spawn "clang" <;> simp

/-!
### Claim C4: `extractEnumMembers`
-/

def astDefault : AstNode :=
  .node "" none none none none none none none none none false []

def memberDefault : EnumMember := ⟨"", 0⟩

def isEnumKid (child : AstNode) : Bool :=
  child.kind == "EnumConstantDecl" && nameTruthy child

/-- Skipped children do not affect the member accumulation. -/
theorem extractEnumMembersGo_filter (children : List AstNode) : ∀ next : Int,
    extractEnumMembersGo next children =
      extractEnumMembersGo next (children.filter isEnumKid) := by
  induction children with
  | nil => intro next; rfl
  | cons child rest ih =>
    intro next
    by_cases h : isEnumKid child = true
    · rw [List.filter_cons_of_pos h]
      have h' := h
      unfold isEnumKid at h'
      simp only [extractEnumMembersGo, h', if_true, ih]
    · rw [List.filter_cons_of_neg h]
      have h' := h
      unfold isEnumKid at h'
      simp only [extractEnumMembersGo, h', Bool.false_eq_true, if_false, ih]

/-- Indexed characterization of the accumulation over enum-constant
children: each member takes its explicit first integer value when present,
else the seed for the first member and the previous member's value plus one
after that. -/
theorem extractEnumMembersGo_spec (ks : List AstNode)
    (hk : ∀ k ∈ ks, isEnumKid k = true) : ∀ next : Int,
    (extractEnumMembersGo next ks).length = ks.length ∧
    (∀ i, i < ks.length →
      ((extractEnumMembersGo next ks).getD i memberDefault).name =
        ((ks.getD i astDefault).name.getD "") ∧
      ((extractEnumMembersGo next ks).getD i memberDefault).value =
        (match extractFirstIntegerValue (ks.getD i astDefault) with
         | some v => v
         | none =>
           if i = 0 then next
           else ((extractEnumMembersGo next ks).getD (i - 1) memberDefault).value + 1)) := by
  induction ks with
  | nil =>
    intro next
    exact ⟨rfl, fun i hi => absurd hi (by simp)⟩
  | cons k rest ih =>
    intro next
    have hkk' : (k.kind == "EnumConstantDecl" && nameTruthy k) = true := by
      have := hk k (List.mem_cons_self _ _)
      unfold isEnumKid at this
      exact this
    have hkrest : ∀ k' ∈ rest, isEnumKid k' = true :=
      fun k' h' => hk k' (List.mem_cons_of_mem _ h')
    have hstep : extractEnumMembersGo next (k :: rest) =
        ⟨k.name.getD "",
          match extractFirstIntegerValue k with
          | some v => v
          | none => next⟩ ::
        extractEnumMembersGo
          ((match extractFirstIntegerValue k with
            | some v => v
            | none => next) + 1) rest := by
      simp only [extractEnumMembersGo, hkk', if_true]
    obtain ⟨ihlen, ihval⟩ := ih hkrest
      ((match extractFirstIntegerValue k with
        | some v => v
        | none => next) + 1)
    constructor
    · rw [hstep]
      simp [ihlen]
    · intro i hi
      match i with
      | 0 =>
        rw [hstep]
        refine ⟨rfl, ?_⟩
        simp only [List.getD_cons_zero]
        cases hefi : extractFirstIntegerValue k <;> simp [hefi]
      | j + 1 =>
        rw [hstep]
        simp only [List.getD_cons_succ]
        have hj : j < rest.length := by
          simp only [List.length_cons] at hi
          omega
        obtain ⟨hn, hv⟩ := ihval j hj
        refine ⟨hn, ?_⟩
        rw [hv]
        cases hefi : extractFirstIntegerValue (rest.getD j astDefault) with
        | some v => simp
        | none =>
          simp only
          match j with
          | 0 => simp
          | j' + 1 => simp

/-- Claim C4: for every enum declaration node, each enumerator child (kind
`EnumConstantDecl` with a non-empty name) yields one member in declaration
order; a member with an explicit first integer literal keeps that value,
and one without gets the previous member's value plus 1 (and 0 for a first
member without a value) — so re-deriving unset values via "previous + 1"
over the ordered member list reproduces every member's value exactly. -/
theorem extractEnumMembers_spec (enumDeclNode : AstNode) :
    (extractEnumMembers enumDeclNode).length =
      (enumDeclNode.inner.filter isEnumKid).length ∧
    ∀ i, i < (enumDeclNode.inner.filter isEnumKid).length →
      ((extractEnumMembers enumDeclNode).getD i memberDefault).name =
        ((enumDeclNode.inner.filter isEnumKid).getD i astDefault).name.getD "" ∧
      ((extractEnumMembers enumDeclNode).getD i memberDefault).value =
        (match extractFirstIntegerValue
            ((enumDeclNode.inner.filter isEnumKid).getD i astDefault) with
         | some v => v
         | none =>
           if i = 0 then 0
           else ((extractEnumMembers enumDeclNode).getD (i - 1) memberDefault).value + 1) := by
  have hk : ∀ k ∈ enumDeclNode.inner.filter isEnumKid, isEnumKid k = true :=
    fun k hkmem => (List.mem_filter.mp hkmem).2
  have hbase : extractEnumMembers enumDeclNode =
      extractEnumMembersGo 0 (enumDeclNode.inner.filter isEnumKid) := by
    unfold extractEnumMembers
    exact extractEnumMembersGo_filter _ 0
  obtain ⟨hlen, hval⟩ := extractEnumMembersGo_spec _ hk 0
  rw [hbase]
  exact ⟨hlen, hval⟩

/-!
### Claim C5: return-type inference and silent skipping
-/

/-- `slice(0, indexOf(p))` is "take while not `p`". -/
theorem take_findIdx_eq_takeWhile (p : Char → Bool) (u : List Char) :
    u.take (u.findIdx p) = u.takeWhile (fun c => !p c) := by
  induction u with
  | nil => rfl
  | cons c rest ih =>
    by_cases h : p c = true
    · simp [List.findIdx_cons, List.takeWhile_cons, h]
    · simp [List.findIdx_cons, List.takeWhile_cons, h, ih]

/-- Removing a `CXXMethodDecl` child with an unrecoverable (empty) return
type does not change the extracted method list, whatever the current access
is: such a child never updates the access state and is skipped by the
`!returnType` guard (or by the public check). -/
theorem extractPublicMethodsGo_skip (child : AstNode)
    (hkind : child.kind = "CXXMethodDecl") (hret : inferReturnType child = "") :
    ∀ (pre : List AstNode) (access : String) (post : List AstNode),
    extractPublicMethodsGo access (pre ++ child :: post) =
      extractPublicMethodsGo access (pre ++ post) := by
  intro pre
  induction pre with
  | nil =>
    intro access post
    simp only [List.nil_append]
    have h1 : (child.kind == "AccessSpecDecl") = false := by
      rw [hkind]; rfl
    simp only [extractPublicMethodsGo, h1, Bool.false_eq_true, if_false]
    by_cases hpub : isPublicMethodNode child access = true
    · simp [hpub, hret]
    · simp [hpub]
  | cons p pre ih =>
    intro access post
    simp only [List.cons_append, extractPublicMethodsGo]
    by_cases h1 : (p.kind == "AccessSpecDecl") = true
    · simp only [h1, if_true]
      exact ih _ _
    · simp only [h1, Bool.false_eq_true, if_false]
      by_cases h2 : isPublicMethodNode p access = true
      · simp only [h2, if_true]
        by_cases h3 : (inferReturnType p == "") = true
        · simp only [h3, if_true]
          exact ih _ _
        · simp only [h3, Bool.false_eq_true, if_false]
          exact congrArg _ (ih _ _)
      · simp only [h2, Bool.false_eq_true, if_false]
        exact ih _ _

/-- Claim C5: the return type of an extracted method node is the normalized,
trimmed text before the first `(` of the node's full type signature string
(`""` when there is no parenthesis); and a `CXXMethodDecl` child whose return
type comes back empty is silently skipped — removing it from the class body
leaves the extracted method list unchanged. -/
theorem inferReturnType_skip_spec :
    (∀ methodNode : AstNode,
      inferReturnType methodNode =
        (let functionType := (methodNode.qualType.getD "").data
         if functionType.contains '(' then
           normalizeType
             (String.mk (jsTrimList (functionType.takeWhile (fun c => !(c == '(')))))
         else "")) ∧
    (∀ (classNode : AstNode) (pre post : List AstNode) (child : AstNode),
      classNode.inner = pre ++ child :: post →
      child.kind = "CXXMethodDecl" →
      inferReturnType child = "" →
      extractPublicMethodsFromClass classNode =
        extractPublicMethodsGo "private" (pre ++ post)) := by
  constructor
  · intro methodNode
    unfold inferReturnType
    simp only [take_findIdx_eq_takeWhile]
  · intro classNode pre post child hinner hkind hret
    unfold extractPublicMethodsFromClass
    rw [hinner]
    exact extractPublicMethodsGo_skip child hkind hret pre "private" post

/-!
### Claim C9: `normalizeParamNames`
-/

def paramDefault : Param := ⟨"", "", none⟩

theorem contains_iff_mem {l : List String} {s : String} : l.contains s = true ↔ s ∈ l :=
  List.elem_iff

theorem decVal_append (xs : List Char) (c : Char) :
    decVal (xs ++ [c]) = decVal xs * 10 + (c.toNat - 48) := by
  unfold decVal
  rw [List.foldl_append]
  rfl

theorem toNat_ofNat_digit (d : Nat) (hd : d < 10) : (Char.ofNat (48 + d)).toNat = 48 + d := by
  interval_cases d <;> decide

theorem decVal_decDigitsF : ∀ (fuel n : Nat), n ≤ fuel → decVal (decDigitsF fuel n) = n
  | 0, n, h => by
    have hn : n = 0 := by omega
    subst hn
    rfl
  | fuel + 1, n, h => by
    by_cases hn : n = 0
    · subst hn
      rfl
    · have hlt : n / 10 < n := Nat.div_lt_self (Nat.pos_of_ne_zero hn) (by omega)
      have hrec : n / 10 ≤ fuel := by omega
      rw [decDigitsF, if_neg hn, decVal_append, decVal_decDigitsF fuel (n / 10) hrec,
        toNat_ofNat_digit _ (Nat.mod_lt _ (by omega))]
      omega

theorem decStr_inj {m n : Nat} (h : decStr m = decStr n) : m = n := by
  unfold decStr at h
  by_cases hm : m = 0 <;> by_cases hn : n = 0
  · omega
  · rw [if_pos hm, if_neg hn] at h
    have hd := congrArg String.data h
    have hv := congrArg decVal hd
    rw [decVal_decDigitsF n n le_rfl] at hv
    have : decVal "0".data = 0 := rfl
    omega
  · rw [if_neg hm, if_pos hn] at h
    have hd := congrArg String.data h
    have hv := congrArg decVal hd
    rw [decVal_decDigitsF m m le_rfl] at hv
    have : decVal "0".data = 0 := rfl
    omega
  · rw [if_neg hm, if_neg hn] at h
    have hd := congrArg String.data h
    have hv := congrArg decVal hd
    rw [decVal_decDigitsF m m le_rfl, decVal_decDigitsF n n le_rfl] at hv
    exact hv

theorem string_data_inj {a b : String} (h : a.data = b.data) : a = b := by
  cases a
  cases b
  exact congrArg String.mk h

/-- The candidate names `base ++ "_" ++ decStr k` are pairwise distinct. -/
theorem candidate_inj (base : String) {i j : Nat}
    (h : base ++ "_" ++ decStr i = base ++ "_" ++ decStr j) : i = j := by
  have hd := congrArg String.data h
  simp only [String.data_append] at hd
  have h1 := List.append_cancel_left hd
  exact decStr_inj (string_data_inj h1)

/-- Pigeonhole: among `usedNames.length + 1` candidate suffixes starting
at 1, at least one candidate name is not used. -/
theorem exists_free_suffix (usedNames : List String) (base : String) :
    ∃ i, i < usedNames.length + 1 ∧
      usedNames.contains (base ++ "_" ++ decStr (1 + i)) = false := by
  by_contra hall
  push_neg at hall
  have hall' : ∀ i, i < usedNames.length + 1 →
      (base ++ "_" ++ decStr (1 + i)) ∈ usedNames := by
    intro i hi
    have h := hall i hi
    cases hb : usedNames.contains (base ++ "_" ++ decStr (1 + i)) with
    | false => exact absurd hb h
    | true => exact contains_iff_mem.mp hb
  have hsub : ((List.range (usedNames.length + 1)).map
      (fun i => base ++ "_" ++ decStr (1 + i))) ⊆ usedNames := by
    intro s hs
    rw [List.mem_map] at hs
    obtain ⟨i, hi, rfl⟩ := hs
    exact hall' i (List.mem_range.mp hi)
  have hnodup : ((List.range (usedNames.length + 1)).map
      (fun i => base ++ "_" ++ decStr (1 + i))).Nodup := by
    refine List.Nodup.map ?_ (List.nodup_range _)
    intro i j hij
    have := candidate_inj base hij
    omega
  have hlen := (List.subperm_of_subset hnodup hsub).length_le
  simp only [List.length_map, List.length_range] at hlen
  omega

/-- What the bounded first-free-suffix search returns, given that a free
candidate exists within the fuel: the result is free and every smaller
candidate from the start is used. -/
theorem freeSuffixFrom_spec (usedNames : List String) (base : String) :
    ∀ (fuel k : Nat),
    (∃ i, i < fuel ∧ usedNames.contains (base ++ "_" ++ decStr (k + i)) = false) →
    k ≤ freeSuffixFrom usedNames base fuel k ∧
    usedNames.contains (base ++ "_" ++ decStr (freeSuffixFrom usedNames base fuel k)) = false ∧
    (∀ j, k ≤ j → j < freeSuffixFrom usedNames base fuel k →
      usedNames.contains (base ++ "_" ++ decStr j) = true) := by
  intro fuel
  induction fuel with
  | zero =>
    intro k ⟨i, hi, _⟩
    omega
  | succ fuel ih =>
    intro k ⟨i, hi, hfree⟩
    by_cases hc : usedNames.contains (base ++ "_" ++ decStr k) = true
    · have hfree' : ∃ i', i' < fuel ∧
          usedNames.contains (base ++ "_" ++ decStr (k + 1 + i')) = false := by
        match i, hi, hfree with
        | 0, _, hfree =>
          rw [Nat.add_zero] at hfree
          rw [hc] at hfree
          exact absurd hfree (by simp)
        | i' + 1, hi, hfree =>
          exact ⟨i', by omega, by rw [show k + 1 + i' = k + (i' + 1) by omega]; exact hfree⟩
      obtain ⟨h1, h2, h3⟩ := ih (k + 1) hfree'
      rw [freeSuffixFrom, if_pos hc]
      refine ⟨by omega, h2, ?_⟩
      intro j hj1 hj2
      rcases Nat.eq_or_lt_of_le hj1 with hj | hj
      · rw [← hj]
        exact hc
      · exact h3 j hj hj2
    · rw [freeSuffixFrom, if_neg hc]
      refine ⟨le_rfl, by simpa using hc, ?_⟩
      intro j hj1 hj2
      omega

/-- The per-entry naming rule of claim C9, phrased against the set of names
taken so far: the entry's name is its base when the base is still free, and
otherwise the base with the first numeric suffix whose candidate is free. -/
def nameSpecP (nm base : String) (prior : List String) : Prop :=
  if base ∈ prior then
    ∃ k, 1 ≤ k ∧ nm = base ++ "_" ++ decStr k ∧
      ¬ (base ++ "_" ++ decStr k) ∈ prior ∧
      ∀ j, 1 ≤ j → j < k → (base ++ "_" ++ decStr j) ∈ prior
  else nm = base

theorem nameSpecP_congr {nm base : String} {prior prior' : List String}
    (hm : ∀ x, x ∈ prior ↔ x ∈ prior') (h : nameSpecP nm base prior) :
    nameSpecP nm base prior' := by
  unfold nameSpecP at h ⊢
  by_cases hb : base ∈ prior'
  · rw [if_pos hb]
    rw [if_pos ((hm base).mpr hb)] at h
    obtain ⟨k, h1, h2, h3, h4⟩ := h
    exact ⟨k, h1, h2, fun hc => h3 ((hm _).mpr hc),
      fun j hj1 hj2 => (hm _).mp (h4 j hj1 hj2)⟩
  · rw [if_neg hb]
    rw [if_neg (fun hc => hb ((hm base).mp hc))] at h
    exact h

/-- Generalized invariant of `normalizeParamNamesGo`. -/
theorem normalizeParamNamesGo_spec :
    ∀ (params : List Param) (usedNames : List String) (index : Nat),
    (normalizeParamNamesGo usedNames index params).length = params.length ∧
    (∀ i, i < params.length →
      ((normalizeParamNamesGo usedNames index params).getD i paramDefault).type =
        (params.getD i paramDefault).type ∧
      ((normalizeParamNamesGo usedNames index params).getD i paramDefault).defaultValue =
        (params.getD i paramDefault).defaultValue) ∧
    (((normalizeParamNamesGo usedNames index params).map Param.name).Nodup ∧
      ∀ s ∈ (normalizeParamNamesGo usedNames index params).map Param.name, ¬ s ∈ usedNames) ∧
    (∀ i, i < params.length →
      nameSpecP ((normalizeParamNamesGo usedNames index params).getD i paramDefault).name
        (if isValidParamName (params.getD i paramDefault).name
         then (params.getD i paramDefault).name
         else "arg" ++ decStr (index + i))
        (usedNames ++
          (((normalizeParamNamesGo usedNames index params).take i).map Param.name)))
  | [], usedNames, index => by
    refine ⟨rfl, fun i hi => absurd hi (Nat.not_lt_zero i), ⟨List.nodup_nil, ?_⟩,
      fun i hi => absurd hi (Nat.not_lt_zero i)⟩
    intro s hs
    simp only [normalizeParamNamesGo, List.map_nil] at hs
    exact absurd hs (List.not_mem_nil s)
  | param :: rest, usedNames, index => by
    have base_def : (if isValidParamName param.name then param.name
        else "arg" ++ decStr index) = (if isValidParamName param.name then param.name
        else "arg" ++ decStr index) := rfl
    set base := if isValidParamName param.name then param.name
      else "arg" ++ decStr index with hbase
    by_cases hc : usedNames.contains base = true
    · -- the base name is taken: the first free suffix is appended
      set r := freeSuffixFrom usedNames base (usedNames.length + 1) 1 with hr
      obtain ⟨i0, hi0, hfree0⟩ := exists_free_suffix usedNames base
      obtain ⟨hr1, hrfree, hrused⟩ :=
        freeSuffixFrom_spec usedNames base (usedNames.length + 1) 1 ⟨i0, hi0, hfree0⟩
      have hstep : normalizeParamNamesGo usedNames index (param :: rest) =
          { param with name := base ++ "_" ++ decStr r } ::
          normalizeParamNamesGo ((base ++ "_" ++ decStr r) :: usedNames) (index + 1) rest := by
        simp only [normalizeParamNamesGo, ← hbase, hc, if_true, ← hr]
      have hnotin : ¬ (base ++ "_" ++ decStr r) ∈ usedNames := by
        intro hmem
        rw [contains_iff_mem.mpr hmem] at hrfree
        exact absurd hrfree (by simp)
      obtain ⟨tlen, tfields, ⟨tnodup, tdisj⟩, tspec⟩ :=
        normalizeParamNamesGo_spec rest ((base ++ "_" ++ decStr r) :: usedNames) (index + 1)
      rw [hstep]
      refine ⟨by simp [tlen], ?_, ⟨?_, ?_⟩, ?_⟩
      · intro i hi
        match i with
        | 0 => exact ⟨rfl, rfl⟩
        | j + 1 =>
          simp only [List.getD_cons_succ]
          exact tfields j (by simp only [List.length_cons] at hi; omega)
      · simp only [List.map_cons, List.nodup_cons]
        refine ⟨?_, tnodup⟩
        intro hmem
        exact tdisj _ hmem (List.mem_cons_self _ _)
      · intro s hs
        simp only [List.map_cons, List.mem_cons] at hs
        rcases hs with rfl | hs
        · exact hnotin
        · intro hmem
          exact tdisj s hs (List.mem_cons_of_mem _ hmem)
      · intro i hi
        match i with
        | 0 =>
          simp only [List.getD_cons_zero, List.take_zero, List.map_nil, List.append_nil,
            Nat.add_zero]
          unfold nameSpecP
          rw [if_pos (contains_iff_mem.mp hc)]
          refine ⟨r, hr1, rfl, ?_, ?_⟩
          · exact hnotin
          · intro j hj1 hj2
            exact contains_iff_mem.mp (hrused j hj1 hj2)
        | j + 1 =>
          simp only [List.getD_cons_succ, List.take_succ_cons, List.map_cons]
          have hj : j < rest.length := by simp only [List.length_cons] at hi; omega
          have hts := tspec j hj
          have harith : index + (j + 1) = index + 1 + j := by omega
          rw [harith]
          refine nameSpecP_congr ?_ hts
          intro x
          simp only [List.mem_append, List.mem_cons]
          tauto
    · -- the base name is free and used as is
      have hstep : normalizeParamNamesGo usedNames index (param :: rest) =
          { param with name := base } ::
          normalizeParamNamesGo (base :: usedNames) (index + 1) rest := by
        simp only [normalizeParamNamesGo, ← hbase, hc, Bool.false_eq_true, if_false]
      have hnotin : ¬ base ∈ usedNames := by
        intro hmem
        exact hc (contains_iff_mem.mpr hmem)
      obtain ⟨tlen, tfields, ⟨tnodup, tdisj⟩, tspec⟩ :=
        normalizeParamNamesGo_spec rest (base :: usedNames) (index + 1)
      rw [hstep]
      refine ⟨by simp [tlen], ?_, ⟨?_, ?_⟩, ?_⟩
      · intro i hi
        match i with
        | 0 => exact ⟨rfl, rfl⟩
        | j + 1 =>
          simp only [List.getD_cons_succ]
          exact tfields j (by simp only [List.length_cons] at hi; omega)
      · simp only [List.map_cons, List.nodup_cons]
        refine ⟨?_, tnodup⟩
        intro hmem
        exact tdisj _ hmem (List.mem_cons_self _ _)
      · intro s hs
        simp only [List.map_cons, List.mem_cons] at hs
        rcases hs with rfl | hs
        · exact hnotin
        · intro hmem
          exact tdisj s hs (List.mem_cons_of_mem _ hmem)
      · intro i hi
        match i with
        | 0 =>
          simp only [List.getD_cons_zero, List.take_zero, List.map_nil, List.append_nil,
            Nat.add_zero]
          unfold nameSpecP
          rw [if_neg hnotin]
        | j + 1 =>
          simp only [List.getD_cons_succ, List.take_succ_cons, List.map_cons]
          have hj : j < rest.length := by simp only [List.length_cons] at hi; omega
          have hts := tspec j hj
          have harith : index + (j + 1) = index + 1 + j := by omega
          rw [harith]
          refine nameSpecP_congr ?_ hts
          intro x
          simp only [List.mem_append, List.mem_cons]
          tauto

/-- Claim C9: `normalizeParamNames` keeps length, order and every field but
the name; the resulting names are pairwise distinct; an entry whose raw name
is not a valid identifier gets `arg<index>` as its base; and an entry whose
base equals an already-used name receives the first free numeric suffix
(`_1`, `_2`, ...), while all others keep their base unchanged. -/
theorem normalizeParamNames_spec (params : List Param) :
    (normalizeParamNames params).length = params.length ∧
    (∀ i, i < params.length →
      ((normalizeParamNames params).getD i paramDefault).type =
        (params.getD i paramDefault).type ∧
      ((normalizeParamNames params).getD i paramDefault).defaultValue =
        (params.getD i paramDefault).defaultValue) ∧
    ((normalizeParamNames params).map Param.name).Nodup ∧
    (∀ i, i < params.length →
      nameSpecP ((normalizeParamNames params).getD i paramDefault).name
        (if isValidParamName (params.getD i paramDefault).name
         then (params.getD i paramDefault).name
         else "arg" ++ decStr i)
        (((normalizeParamNames params).take i).map Param.name)) := by
  obtain ⟨hlen, hfields, ⟨hnodup, _⟩, hspec⟩ := normalizeParamNamesGo_spec params [] 0
  refine ⟨hlen, hfields, hnodup, ?_⟩
  intro i hi
  have h := hspec i hi
  simp only [List.nil_append, Nat.zero_add] at h
  exact h

/-!
### Claims C1 and C2: default fill cases
-/

/-- `getRequiredParamCount` returns the first trailing defaulted index: it
is at most the arity, everything from it on has a default, and (unless it is
0) the parameter just before it has none. -/
theorem getRequiredParamCount_spec (ps : List ApiParam) :
    getRequiredParamCount ps ≤ ps.length ∧
    (∀ param ∈ ps.drop (getRequiredParamCount ps), param.defaultValue ≠ none) ∧
    (getRequiredParamCount ps = 0 ∨
      ∃ q rest, ps.drop (getRequiredParamCount ps - 1) = q :: rest ∧
        q.defaultValue = none) := by
  induction ps using List.reverseRecOn with
  | nil => exact ⟨Nat.le_refl _, fun param h => absurd h (List.not_mem_nil _), Or.inl rfl⟩
  | append_singleton xs x ih =>
    have htw : (xs.reverse.takeWhile (fun param => param.defaultValue.isSome)).length ≤
        xs.length := by
      calc (xs.reverse.takeWhile (fun param => param.defaultValue.isSome)).length
          ≤ xs.reverse.length := (List.takeWhile_sublist _).length_le
        _ = xs.length := List.length_reverse _
    by_cases hx : x.defaultValue.isSome = true
    · have hk : getRequiredParamCount (xs ++ [x]) = getRequiredParamCount xs := by
        unfold getRequiredParamCount
        rw [List.reverse_append]
        simp [List.takeWhile_cons, hx]
      obtain ⟨ihle, ihall, ihfirst⟩ := ih
      rw [hk]
      refine ⟨by simp only [List.length_append, List.length_singleton]; omega, ?_, ?_⟩
      · intro param hparam
        rw [List.drop_append_of_le_length ihle] at hparam
        rcases List.mem_append.mp hparam with h | h
        · exact ihall param h
        · rw [List.mem_singleton.mp h]
          intro hne
          rw [hne] at hx
          exact absurd hx (by simp)
      · rcases ihfirst with h0 | ⟨q, rest, hdrop, hq⟩
        · exact Or.inl h0
        · refine Or.inr ⟨q, rest ++ [x], ?_, hq⟩
          rw [List.drop_append_of_le_length (by omega), hdrop]
          rfl
    · have hk : getRequiredParamCount (xs ++ [x]) = xs.length + 1 := by
        unfold getRequiredParamCount
        rw [List.reverse_append]
        simp [List.takeWhile_cons, hx]
      rw [hk]
      refine ⟨by simp, ?_, ?_⟩
      · intro param hparam
        have : (xs ++ [x]).length = xs.length + 1 := by simp
        rw [← this, List.drop_length] at hparam
        exact absurd hparam (List.not_mem_nil _)
      · refine Or.inr ⟨x, [], ?_, ?_⟩
        · have : xs.length + 1 - 1 = xs.length := by omega
          rw [this, List.drop_append_of_le_length (Nat.le_refl _), List.drop_length,
            List.nil_append]
        · cases hdv : x.defaultValue with
          | none => rfl
          | some v => rw [hdv] at hx; exact absurd rfl hx

/-- The fill-case list before sorting (the nested loops of
`buildDefaultFillCasesForOverloads`). -/
def fillCasesUnsorted (overloads : List Overload) : List FillCase :=
  overloads.flatMap (fun overload =>
    let minArgs := getRequiredParamCount overload.params
    let maxArgs := overload.params.length
    (List.range' minArgs (maxArgs - minArgs)).filterMap (fun providedArgCount =>
      if !(acceptorCount (overloadRangesOf overloads) providedArgCount == 1) then none
      else
        let missingParams := overload.params.drop providedArgCount
        if missingParams.any (fun param => param.defaultValue == none) then none
        else some ⟨providedArgCount, missingParams.map (fun param => param.defaultValue)⟩))

theorem buildDefaultFillCases_eq (overloads : List Overload) :
    buildDefaultFillCasesForOverloads overloads =
      (fillCasesUnsorted overloads).insertionSort
        (fun a b => a.providedArgCount ≤ b.providedArgCount) := rfl

/-- Membership in the unsorted fill list. -/
theorem mem_fillCasesUnsorted {overloads : List Overload} {fc : FillCase} :
    fc ∈ fillCasesUnsorted overloads ↔
    ∃ overload ∈ overloads,
      getRequiredParamCount overload.params ≤ fc.providedArgCount ∧
      fc.providedArgCount < overload.params.length ∧
      acceptorCount (overloadRangesOf overloads) fc.providedArgCount = 1 ∧
      fc.defaultValues =
        (overload.params.drop fc.providedArgCount).map (fun param => param.defaultValue) := by
  obtain ⟨pc, dv⟩ := fc
  unfold fillCasesUnsorted
  rw [List.mem_flatMap]
  dsimp only
  constructor
  · rintro ⟨overload, hov, hmem⟩
    rw [List.mem_filterMap] at hmem
    obtain ⟨n, hn, hf⟩ := hmem
    rw [List.mem_range'_1] at hn
    have hminmax : getRequiredParamCount overload.params ≤ overload.params.length :=
      (getRequiredParamCount_spec overload.params).1
    by_cases h1 : (acceptorCount (overloadRangesOf overloads) n == 1) = true
    · rw [if_neg (by simp [h1])] at hf
      by_cases h2 : ((overload.params.drop n).any
          (fun param => param.defaultValue == none)) = true
      · rw [if_pos h2] at hf
        exact absurd hf (by simp)
      · rw [if_neg h2] at hf
        have hpc : n = pc := by
          have := congrArg FillCase.providedArgCount (Option.some.inj hf)
          exact this
        have hdv : dv = (overload.params.drop n).map (fun param => param.defaultValue) := by
          have := congrArg FillCase.defaultValues (Option.some.inj hf)
          exact this.symm
        subst hpc
        exact ⟨overload, hov, hn.1, by omega, by simpa using h1, hdv⟩
    · rw [if_pos (by simp [h1])] at hf
      exact absurd hf (by simp)
  · rintro ⟨overload, hov, hmin, hmax, hacc, hdv⟩
    refine ⟨overload, hov, ?_⟩
    rw [List.mem_filterMap]
    refine ⟨pc, ?_, ?_⟩
    · rw [List.mem_range'_1]
      have : getRequiredParamCount overload.params ≤ overload.params.length :=
        (getRequiredParamCount_spec overload.params).1
      exact ⟨hmin, by omega⟩
    · have hall : ∀ param ∈ overload.params.drop pc, param.defaultValue ≠ none := by
        intro param hparam
        have hsuffix : overload.params.drop pc =
            (overload.params.drop (getRequiredParamCount overload.params)).drop
              (pc - getRequiredParamCount overload.params) := by
          rw [List.drop_drop]
          congr 1
          omega
        refine (getRequiredParamCount_spec overload.params).2.1 param ?_
        rw [hsuffix] at hparam
        exact List.drop_subset _ _ hparam
      have h2 : ((overload.params.drop pc).any
          (fun param => param.defaultValue == none)) = false := by
        rw [List.any_eq_false]
        intro param hparam
        simp only [beq_iff_eq]
        exact hall param hparam
      rw [if_neg (by simp [hacc]), if_neg (by simp [h2])]
      rw [hdv]

instance fillCaseLeTotal :
    IsTotal FillCase (fun a b => a.providedArgCount ≤ b.providedArgCount) :=
  ⟨fun a b => Nat.le_total _ _⟩

instance fillCaseLeTrans :
    IsTrans FillCase (fun a b => a.providedArgCount ≤ b.providedArgCount) :=
  ⟨fun _ _ _ hab hbc => Nat.le_trans hab hbc⟩

theorem mem_buildDefaultFillCases {overloads : List Overload} {fc : FillCase} :
    fc ∈ buildDefaultFillCasesForOverloads overloads ↔ fc ∈ fillCasesUnsorted overloads := by
  rw [buildDefaultFillCases_eq]
  exact (List.perm_insertionSort _ _).mem_iff

/-- Claim C1: in `buildDefaultFillCasesForOverloads`, every overload's
minimum accepted argument count is its first trailing defaulted parameter
index (`getRequiredParamCount`) and its maximum is its total parameter
count; a fill case is recorded exactly for the argument counts in some
overload's `[minArgs, maxArgs)` span that are accepted by exactly one
overload range of the group, and it records that overload's remaining
parameters' literal default values; and the returned list is sorted by
ascending provided argument count. -/
theorem buildDefaultFillCases_spec (overloads : List Overload) :
    (∀ overload ∈ overloads,
      getRequiredParamCount overload.params ≤ overload.params.length ∧
      (∀ param ∈ overload.params.drop (getRequiredParamCount overload.params),
        param.defaultValue ≠ none) ∧
      (getRequiredParamCount overload.params = 0 ∨
        ∃ q rest,
          overload.params.drop (getRequiredParamCount overload.params - 1) = q :: rest ∧
          q.defaultValue = none) ∧
      (getRequiredParamCount overload.params, overload.params.length) ∈
        overloadRangesOf overloads) ∧
    (∀ fc, fc ∈ buildDefaultFillCasesForOverloads overloads ↔
      ∃ overload ∈ overloads,
        getRequiredParamCount overload.params ≤ fc.providedArgCount ∧
        fc.providedArgCount < overload.params.length ∧
        acceptorCount (overloadRangesOf overloads) fc.providedArgCount = 1 ∧
        fc.defaultValues =
          (overload.params.drop fc.providedArgCount).map
            (fun param => param.defaultValue)) ∧
    (buildDefaultFillCasesForOverloads overloads).Sorted
      (fun a b => a.providedArgCount ≤ b.providedArgCount) := by
  refine ⟨?_, ?_, ?_⟩
  · intro overload hov
    obtain ⟨h1, h2, h3⟩ := getRequiredParamCount_spec overload.params
    refine ⟨h1, h2, h3, ?_⟩
    unfold overloadRangesOf
    exact List.mem_map.mpr ⟨overload, hov, rfl⟩
  · intro fc
    rw [mem_buildDefaultFillCases]
    exact mem_fillCasesUnsorted
  · rw [buildDefaultFillCases_eq]
    exact List.sorted_insertionSort _ _

/-- Mapping a pc-preserving `filterMap` over a count list yields a sublist
of the counts. -/
theorem map_count_filterMap_sublist (g : Nat → Option FillCase)
    (hg : ∀ x fc, g x = some fc → fc.providedArgCount = x) (r : List Nat) :
    ((List.filterMap g r).map FillCase.providedArgCount).Sublist r := by
  induction r with
  | nil => simp
  | cons x rest ih =>
    cases hgx : g x with
    | none =>
      rw [List.filterMap_cons, hgx]
      exact ih.cons x
    | some fc =>
      rw [List.filterMap_cons, hgx, List.map_cons, hg x fc hgx]
      exact ih.cons₂ x

/-- Within the group, the recorded provided-argument counts are pairwise
distinct (generalized over a superlist of the overloads being folded, so
that `acceptorCount` stays fixed). -/
theorem nodup_counts_aux (overloads : List Overload) :
    ∀ ovs : List Overload,
    (ovs.map (fun overload =>
        (getRequiredParamCount overload.params, overload.params.length))).Sublist
      (overloadRangesOf overloads) →
    ((ovs.flatMap (fun overload =>
      (List.range' (getRequiredParamCount overload.params)
          (overload.params.length - getRequiredParamCount overload.params)).filterMap
        (fun providedArgCount =>
          if !(acceptorCount (overloadRangesOf overloads) providedArgCount == 1) then none
          else
            if (overload.params.drop providedArgCount).any
                (fun param => param.defaultValue == none) then none
            else some ⟨providedArgCount,
              (overload.params.drop providedArgCount).map
                (fun param => param.defaultValue)⟩))).map
      FillCase.providedArgCount).Nodup := by
  intro ovs
  induction ovs with
  | nil => intro _; simp
  | cons ov rest ih =>
    intro hsub
    have hsubrest : (rest.map (fun overload =>
        (getRequiredParamCount overload.params, overload.params.length))).Sublist
        (overloadRangesOf overloads) := by
      refine List.Sublist.trans ?_ hsub
      rw [List.map_cons]
      exact List.sublist_cons_self _ _
    rw [List.flatMap_cons, List.map_append, List.nodup_append]
    refine ⟨?_, ih hsubrest, ?_⟩
    · -- counts of one overload: a sublist of `range'`, hence nodup
      refine List.Nodup.sublist
        (map_count_filterMap_sublist _ ?_ _) (List.nodup_range' _ _)
      intro x fc hx
      by_cases h1 : (!(acceptorCount (overloadRangesOf overloads) x == 1)) = true
      · rw [if_pos h1] at hx; exact absurd hx (by simp)
      · rw [if_neg h1] at hx
        by_cases h2 : ((ov.params.drop x).any (fun param => param.defaultValue == none)) = true
        · rw [if_pos h2] at hx; exact absurd hx (by simp)
        · rw [if_neg h2] at hx
          exact (congrArg FillCase.providedArgCount (Option.some.inj hx)).symm
    · -- a count emitted here is the unique acceptor's, so no later overload emits it
      intro n hn hn'
      simp only [List.mem_map] at hn hn'
      obtain ⟨fc, hfc, hfcn⟩ := hn
      obtain ⟨fc', hfc', hfcn'⟩ := hn'
      rw [List.mem_filterMap] at hfc
      obtain ⟨m, hm, hfm⟩ := hfc
      by_cases h1 : (!(acceptorCount (overloadRangesOf overloads) m == 1)) = true
      · rw [if_pos h1] at hfm; exact absurd hfm (by simp)
      by_cases h2 : ((ov.params.drop m).any (fun param => param.defaultValue == none)) = true
      · rw [if_pos h2] at hfm; exact absurd hfm (by simp)
      rw [if_neg h1, if_neg h2] at hfm
      have hmn : m = n :=
        (congrArg FillCase.providedArgCount (Option.some.inj hfm)).trans hfcn
      rw [List.mem_range'_1] at hm
      have hminmax := (getRequiredParamCount_spec ov.params).1
      have hovb : getRequiredParamCount ov.params ≤ n ∧ n ≤ ov.params.length := by omega
      -- the other emitter
      rw [List.mem_flatMap] at hfc'
      obtain ⟨ov', hov', hfc'mem⟩ := hfc'
      rw [List.mem_filterMap] at hfc'mem
      obtain ⟨m', hm', hfm'⟩ := hfc'mem
      by_cases h1' : (!(acceptorCount (overloadRangesOf overloads) m' == 1)) = true
      · rw [if_pos h1'] at hfm'; exact absurd hfm' (by simp)
      by_cases h2' : ((ov'.params.drop m').any
          (fun param => param.defaultValue == none)) = true
      · rw [if_pos h2'] at hfm'; exact absurd hfm' (by simp)
      rw [if_neg h1', if_neg h2'] at hfm'
      have hmn' : m' = n :=
        (congrArg FillCase.providedArgCount (Option.some.inj hfm')).trans hfcn'
      rw [List.mem_range'_1] at hm'
      have hminmax' := (getRequiredParamCount_spec ov'.params).1
      have hovb' : getRequiredParamCount ov'.params ≤ n ∧ n ≤ ov'.params.length := by omega
      -- both `ov`'s and `ov'`'s ranges accept `n`, giving two accepting entries
      have hpair : ([(getRequiredParamCount ov.params, ov.params.length),
          (getRequiredParamCount ov'.params, ov'.params.length)]).Sublist
          (overloadRangesOf overloads) := by
        refine List.Sublist.trans ?_ hsub
        rw [List.map_cons]
        refine List.Sublist.cons₂ _ ?_
        have : (getRequiredParamCount ov'.params, ov'.params.length) ∈
            rest.map (fun overload =>
              (getRequiredParamCount overload.params, overload.params.length)) :=
          List.mem_map.mpr ⟨ov', hov', rfl⟩
        exact (List.singleton_sublist).mpr this
      have hcount2 : 2 ≤ acceptorCount (overloadRangesOf overloads) n := by
        unfold acceptorCount
        rw [← List.countP_eq_length_filter]
        have hstep : List.countP
            (fun range => decide (range.1 ≤ n) && decide (n ≤ range.2))
            [(getRequiredParamCount ov.params, ov.params.length),
             (getRequiredParamCount ov'.params, ov'.params.length)] = 2 := by
          have hb1 : (decide (getRequiredParamCount ov.params ≤ n) &&
              decide (n ≤ ov.params.length)) = true := by
            simp only [Bool.and_eq_true, decide_eq_true_eq]
            omega
          have hb2 : (decide (getRequiredParamCount ov'.params ≤ n) &&
              decide (n ≤ ov'.params.length)) = true := by
            simp only [Bool.and_eq_true, decide_eq_true_eq]
            omega
          simp [List.countP_cons, List.countP_nil, hb1, hb2]
        rw [← hstep]
        exact List.Sublist.countP_le _ hpair
      have hacc1 : acceptorCount (overloadRangesOf overloads) n = 1 := by
        rw [hmn] at h1
        simpa using h1
      omega

/-- Claim C2: an argument count accepted by more than one overload of the
group never gets a fill case (the dispatcher passes the arguments through
unmodified), and the recorded fill-case argument counts are pairwise
distinct, so no argument count ever matches two autofills at once. -/
theorem fillCases_unambiguous (overloads : List Overload) :
    (∀ n, 2 ≤ acceptorCount (overloadRangesOf overloads) n →
      ∀ fc ∈ buildDefaultFillCasesForOverloads overloads, fc.providedArgCount ≠ n) ∧
    ((buildDefaultFillCasesForOverloads overloads).map FillCase.providedArgCount).Nodup := by
  constructor
  · intro n hn fc hfc hcontra
    obtain ⟨overload, hov, hmin, hmax, hacc, hdv⟩ :=
      mem_fillCasesUnsorted.mp (mem_buildDefaultFillCases.mp hfc)
    rw [hcontra] at hacc
    omega
  · have hperm : (buildDefaultFillCasesForOverloads overloads).Perm
        (fillCasesUnsorted overloads) := by
      rw [buildDefaultFillCases_eq]
      exact List.perm_insertionSort _ _
    rw [(hperm.map FillCase.providedArgCount).nodup_iff]
    exact nodup_counts_aux overloads overloads (List.Sublist.refl _)

/-!
### Claim C3: grouping by camel name
-/

/-- Invariant of the grouping state: camel names are unique across groups,
every group's camel name is the conversion of its source method name, and
every overload in a group came from a method with that source name. -/
def GroupsWf (gs : List Group) : Prop :=
  (gs.map Group.camelName).Nodup ∧
  ∀ g ∈ gs, toCamelCaseName g.sourceMethodName = g.camelName ∧
    ∀ ov ∈ g.overloads, ov.method.name = g.sourceMethodName

/-- Step equation: an ignored method is skipped. -/
theorem buildGo_step_ignored {tm : TypeMetadata} {ig : List String} {groups : List Group}
    {m : Method} {rest : List Method} (h : ig.contains m.name = true) :
    buildApiMethodsGo tm ig groups (m :: rest) = buildApiMethodsGo tm ig groups rest := by
  simp only [buildApiMethodsGo, h, if_true]

/-- Step equation: a camel-name clash with a different source name throws. -/
theorem buildGo_step_clash {tm : TypeMetadata} {ig : List String} {groups : List Group}
    {m : Method} {rest : List Method} {g : Group}
    (hig : ig.contains m.name = false)
    (hfind : groups.find? (fun g => g.camelName == toCamelCaseName m.name) = some g)
    (hsrc : (g.sourceMethodName == m.name) = false) :
    buildApiMethodsGo tm ig groups (m :: rest) =
      .error ("Cannot generate JSBSimApi: \"" ++ g.sourceMethodName ++ "\" and \"" ++
        m.name ++ "\" both map to \"" ++ toCamelCaseName m.name ++ "\".") := by
  simp only [buildApiMethodsGo, hig, Bool.false_eq_true, if_false]
  rw [hfind]
  simp only [hsrc, Bool.not_false, if_true]

/-- Step equation: a matching group gets the overload appended. -/
theorem buildGo_step_append {tm : TypeMetadata} {ig : List String} {groups : List Group}
    {m : Method} {rest : List Method} {g : Group}
    (hig : ig.contains m.name = false)
    (hfind : groups.find? (fun g => g.camelName == toCamelCaseName m.name) = some g)
    (hsrc : (g.sourceMethodName == m.name) = true) :
    buildApiMethodsGo tm ig groups (m :: rest) =
      buildApiMethodsGo tm ig
        (groups.map (fun g' =>
          if g'.camelName == toCamelCaseName m.name then
            { g' with overloads := g'.overloads ++ [buildOverload tm m] }
          else g'))
        rest := by
  simp only [buildApiMethodsGo, hig, Bool.false_eq_true, if_false]
  rw [hfind]
  simp only [hsrc, Bool.not_true, Bool.false_eq_true, if_false]

/-- Step equation: no matching group creates a fresh one. -/
theorem buildGo_step_new {tm : TypeMetadata} {ig : List String} {groups : List Group}
    {m : Method} {rest : List Method}
    (hig : ig.contains m.name = false)
    (hfind : groups.find? (fun g => g.camelName == toCamelCaseName m.name) = none) :
    buildApiMethodsGo tm ig groups (m :: rest) =
      buildApiMethodsGo tm ig
        (groups ++ [⟨toCamelCaseName m.name, m.name, [buildOverload tm m]⟩]) rest := by
  simp only [buildApiMethodsGo, hig, Bool.false_eq_true, if_false]
  rw [hfind]

/-- The camel-preserving update keeps the (camelName, sourceMethodName)
pairs of the group list. -/
theorem update_preserves_names (groups : List Group) (camel : String) (ov : Overload) :
    ((groups.map (fun g' =>
      if g'.camelName == camel then { g' with overloads := g'.overloads ++ [ov] }
      else g')).map Group.camelName) = groups.map Group.camelName ∧
    ((groups.map (fun g' =>
      if g'.camelName == camel then { g' with overloads := g'.overloads ++ [ov] }
      else g')).map Group.sourceMethodName) = groups.map Group.sourceMethodName := by
  constructor <;>
  · rw [List.map_map]
    refine List.map_congr_left ?_
    intro g hg
    by_cases h : g.camelName = camel <;> simp [h]

/-- A run that throws was given a clash with an existing group or contains
two non-ignored methods whose distinct names share one camel name. -/
theorem buildGo_error_imp (tm : TypeMetadata) (ig : List String) :
    ∀ (ms : List Method) (groups : List Group) (e : String),
    buildApiMethodsGo tm ig groups ms = .error e →
    (∃ m ∈ ms.filter (fun m => !ig.contains m.name), ∃ g ∈ groups,
      g.camelName = toCamelCaseName m.name ∧ g.sourceMethodName ≠ m.name) ∨
    (∃ m₁ ∈ ms.filter (fun m => !ig.contains m.name),
     ∃ m₂ ∈ ms.filter (fun m => !ig.contains m.name),
      toCamelCaseName m₁.name = toCamelCaseName m₂.name ∧ m₁.name ≠ m₂.name)
  | [], groups, e, h => by exact absurd h (by simp [buildApiMethodsGo])
  | m :: rest, groups, e, h => by
    by_cases hig : ig.contains m.name = true
    · rw [buildGo_step_ignored hig] at h
      have hfil : (m :: rest).filter (fun m => !ig.contains m.name) =
          rest.filter (fun m => !ig.contains m.name) :=
        List.filter_cons_of_neg (by rw [hig]; simp)
      rw [hfil]
      exact buildGo_error_imp tm ig rest groups e h
    · have hig' : ig.contains m.name = false := by
        cases hb : ig.contains m.name with
        | false => rfl
        | true => exact absurd hb hig
      have hfil : (m :: rest).filter (fun m => !ig.contains m.name) =
          m :: rest.filter (fun m => !ig.contains m.name) :=
        List.filter_cons_of_pos (by rw [hig']; simp)
      rw [hfil]
      cases hfind : groups.find? (fun g => g.camelName == toCamelCaseName m.name) with
      | some g =>
        cases hsrc : (g.sourceMethodName == m.name) with
        | false =>
          have hpred : (g.camelName == toCamelCaseName m.name) = true :=
            @List.find?_some Group (fun g' => g'.camelName == toCamelCaseName m.name)
              g groups hfind
          refine Or.inl ⟨m, List.mem_cons_self _ _, g, List.mem_of_find?_eq_some hfind, ?_, ?_⟩
          · exact eq_of_beq hpred
          · intro hcontra
            rw [hcontra] at hsrc
            simp at hsrc
        | true =>
          rw [buildGo_step_append hig' hfind hsrc] at h
          rcases buildGo_error_imp tm ig rest _ e h with ⟨m', hm', g', hg', hcam, hne⟩ | hpair
          · rw [List.mem_map] at hg'
            obtain ⟨g₀, hg₀, hupd⟩ := hg'
            by_cases hcm : (g₀.camelName == toCamelCaseName m.name) = true
            · rw [if_pos hcm] at hupd
              refine Or.inl ⟨m', List.mem_cons_of_mem _ hm', g₀, hg₀, ?_, ?_⟩
              · rw [← hupd] at hcam
                exact hcam
              · rw [← hupd] at hne
                exact hne
            · rw [if_neg hcm] at hupd
              exact Or.inl ⟨m', List.mem_cons_of_mem _ hm', g₀, hg₀, hupd ▸ hcam, hupd ▸ hne⟩
          · obtain ⟨m₁, hm₁, m₂, hm₂, hcam, hne⟩ := hpair
            exact Or.inr ⟨m₁, List.mem_cons_of_mem _ hm₁, m₂, List.mem_cons_of_mem _ hm₂,
              hcam, hne⟩
      | none =>
        rw [buildGo_step_new hig' hfind] at h
        rcases buildGo_error_imp tm ig rest _ e h with ⟨m', hm', g', hg', hcam, hne⟩ | hpair
        · rcases List.mem_append.mp hg' with hg'' | hg''
          · exact Or.inl ⟨m', List.mem_cons_of_mem _ hm', g', hg'', hcam, hne⟩
          · have hnew : g' = ⟨toCamelCaseName m.name, m.name, [buildOverload tm m]⟩ :=
              List.mem_singleton.mp hg''
            subst hnew
            dsimp only at hcam hne
            exact Or.inr ⟨m, List.mem_cons_self _ _, m', List.mem_cons_of_mem _ hm',
              hcam, hne⟩
        · obtain ⟨m₁, hm₁, m₂, hm₂, hcam, hne⟩ := hpair
          exact Or.inr ⟨m₁, List.mem_cons_of_mem _ hm₁, m₂, List.mem_cons_of_mem _ hm₂,
            hcam, hne⟩

/-- A successful run extends the well-formed state, keeps every already
recorded overload, and places every non-ignored method in a group carrying
its source name. -/
theorem buildGo_ok_spec (tm : TypeMetadata) (ig : List String) :
    ∀ (ms : List Method) (groups : List Group) (gs : List Group),
    GroupsWf groups →
    buildApiMethodsGo tm ig groups ms = .ok gs →
    GroupsWf gs ∧
    (∀ g ∈ groups, ∃ g' ∈ gs, g'.camelName = g.camelName ∧
      g'.sourceMethodName = g.sourceMethodName ∧ ∀ ov ∈ g.overloads, ov ∈ g'.overloads) ∧
    (∀ m ∈ ms, ig.contains m.name = false →
      ∃ g ∈ gs, g.camelName = toCamelCaseName m.name ∧ g.sourceMethodName = m.name ∧
        ∃ ov ∈ g.overloads, ov.method = m)
  | [], groups, gs, hwf, h => by
    have heq : groups = gs := by
      simpa [buildApiMethodsGo] using h
    subst heq
    exact ⟨hwf,
      fun g hg => ⟨g, hg, rfl, rfl, fun ov hov => hov⟩,
      fun m hm => absurd hm (List.not_mem_nil m)⟩
  | m :: rest, groups, gs, hwf, h => by
    by_cases hig : ig.contains m.name = true
    · rw [buildGo_step_ignored hig] at h
      obtain ⟨hwf', hkeep, hcover⟩ := buildGo_ok_spec tm ig rest groups gs hwf h
      refine ⟨hwf', hkeep, ?_⟩
      intro m' hm' hm'ig
      rcases List.mem_cons.mp hm' with rfl | hm''
      · rw [hig] at hm'ig
        exact absurd hm'ig (by simp)
      · exact hcover m' hm'' hm'ig
    · have hig' : ig.contains m.name = false := by
        cases hb : ig.contains m.name with
        | false => rfl
        | true => exact absurd hb hig
      cases hfind : groups.find? (fun g => g.camelName == toCamelCaseName m.name) with
      | some g =>
        cases hsrc : (g.sourceMethodName == m.name) with
        | false =>
          rw [buildGo_step_clash hig' hfind hsrc] at h
          exact absurd h (by simp)
        | true =>
          rw [buildGo_step_append hig' hfind hsrc] at h
          have hgmem := List.mem_of_find?_eq_some hfind
          have hpred : (g.camelName == toCamelCaseName m.name) = true :=
            @List.find?_some Group (fun g' => g'.camelName == toCamelCaseName m.name)
              g groups hfind
          have hgcam : g.camelName = toCamelCaseName m.name := eq_of_beq hpred
          have hgsrc : g.sourceMethodName = m.name := eq_of_beq hsrc
          -- the updated state is well formed
          have hupdnames := update_preserves_names groups (toCamelCaseName m.name)
            (buildOverload tm m)
          have hwf' : GroupsWf (groups.map (fun g' =>
              if g'.camelName == toCamelCaseName m.name then
                { g' with overloads := g'.overloads ++ [buildOverload tm m] }
              else g')) := by
            refine ⟨by rw [hupdnames.1]; exact hwf.1, ?_⟩
            intro g' hg'
            rw [List.mem_map] at hg'
            obtain ⟨g₀, hg₀, hupd⟩ := hg'
            by_cases hcm : (g₀.camelName == toCamelCaseName m.name) = true
            · rw [if_pos hcm] at hupd
              have hg₀g : g₀ = g :=
                List.inj_on_of_nodup_map hwf.1 hg₀ hgmem
                  ((eq_of_beq hcm).trans hgcam.symm)
              subst hg₀g
              refine ⟨?_, ?_⟩
              · rw [← hupd]
                exact (hwf.2 g₀ hg₀).1
              · intro ov hov
                rw [← hupd] at hov ⊢
                rcases List.mem_append.mp hov with hov' | hov'
                · exact (hwf.2 g₀ hg₀).2 ov hov'
                · rw [List.mem_singleton.mp hov']
                  show m.name = g₀.sourceMethodName
                  exact hgsrc.symm
            · rw [if_neg hcm] at hupd
              rw [← hupd]
              exact hwf.2 g₀ hg₀
          obtain ⟨hwf'', hkeep, hcover⟩ := buildGo_ok_spec tm ig rest _ gs hwf' h
          refine ⟨hwf'', ?_, ?_⟩
          · intro g₀ hg₀
            have hmem' : (if (g₀.camelName == toCamelCaseName m.name) = true then
                { g₀ with overloads := g₀.overloads ++ [buildOverload tm m] }
                else g₀) ∈ groups.map (fun g' =>
                  if g'.camelName == toCamelCaseName m.name then
                    { g' with overloads := g'.overloads ++ [buildOverload tm m] }
                  else g') := by
              rw [List.mem_map]
              exact ⟨g₀, hg₀, by split <;> rfl⟩
            obtain ⟨g', hg', hc, hs, hovs⟩ := hkeep _ hmem'
            refine ⟨g', hg', ?_, ?_, ?_⟩
            · rw [hc]
              split <;> rfl
            · rw [hs]
              split <;> rfl
            · intro ov hov
              refine hovs ov ?_
              split
              · exact List.mem_append_left _ hov
              · exact hov
          · intro m' hm' hm'ig
            rcases List.mem_cons.mp hm' with rfl | hm''
            · -- the freshly appended overload survives into the final state
              have hgupd : { g with overloads := g.overloads ++ [buildOverload tm m'] } ∈
                  groups.map (fun g' =>
                    if g'.camelName == toCamelCaseName m'.name then
                      { g' with overloads := g'.overloads ++ [buildOverload tm m'] }
                    else g') := by
                rw [List.mem_map]
                refine ⟨g, hgmem, ?_⟩
                rw [if_pos (beq_iff_eq.mpr hgcam)]
              obtain ⟨g', hg', hc, hs, hovs⟩ := hkeep _ hgupd
              refine ⟨g', hg', ?_, ?_, buildOverload tm m', ?_, rfl⟩
              · rw [hc]
                exact hgcam
              · rw [hs]
                exact hgsrc
              · exact hovs _ (List.mem_append_right _ (List.mem_singleton.mpr rfl))
            · exact hcover m' hm'' hm'ig
      | none =>
        rw [buildGo_step_new hig' hfind] at h
        have hnotin : ∀ g' ∈ groups, ¬ g'.camelName = toCamelCaseName m.name := by
          intro g' hg' hcontra
          have := List.find?_eq_none.mp hfind g' hg'
          exact this (beq_iff_eq.mpr hcontra)
        have hwf' : GroupsWf (groups ++ [⟨toCamelCaseName m.name, m.name,
            [buildOverload tm m]⟩]) := by
          refine ⟨?_, ?_⟩
          · rw [List.map_append]
            rw [List.nodup_append]
            refine ⟨hwf.1, by simp, ?_⟩
            intro c hc hc'
            simp only [List.map_singleton, List.mem_singleton] at hc'
            rw [List.mem_map] at hc
            obtain ⟨g', hg', rfl⟩ := hc
            exact hnotin g' hg' hc'
          · intro g' hg'
            rcases List.mem_append.mp hg' with hg'' | hg''
            · exact hwf.2 g' hg''
            · rw [List.mem_singleton.mp hg'']
              exact ⟨rfl, by
                intro ov hov
                rw [List.mem_singleton.mp hov]
                rfl⟩
        obtain ⟨hwf'', hkeep, hcover⟩ := buildGo_ok_spec tm ig rest _ gs hwf' h
        refine ⟨hwf'', ?_, ?_⟩
        · intro g₀ hg₀
          exact hkeep g₀ (List.mem_append_left _ hg₀)
        · intro m' hm' hm'ig
          rcases List.mem_cons.mp hm' with rfl | hm''
          · obtain ⟨g', hg', hc, hs, hovs⟩ := hkeep
              ⟨toCamelCaseName m'.name, m'.name, [buildOverload tm m']⟩
              (List.mem_append_right _ (List.mem_singleton.mpr rfl))
            exact ⟨g', hg', hc, hs, buildOverload tm m',
              hovs _ (List.mem_singleton.mpr rfl), rfl⟩
          · exact hcover m' hm'' hm'ig

/-- Claim C3: `buildApiMethods` throws exactly when two non-ignored methods
with distinct original names map to one camel name; on success every group's
overloads all come from the group's single source name, camel names are
unique across groups, every non-ignored method lands in a group carrying its
name, and overloads sharing an original name always live in one group (so
each method is in exactly one group). -/
theorem buildApiMethods_collision_spec (methods : List Method)
    (typeMetadata : TypeMetadata) (ignoreMethodsSet : List String) :
    ((∃ e, buildApiMethods methods typeMetadata ignoreMethodsSet = .error e) ↔
      (∃ m₁ ∈ methods.filter (fun m => !ignoreMethodsSet.contains m.name),
       ∃ m₂ ∈ methods.filter (fun m => !ignoreMethodsSet.contains m.name),
        toCamelCaseName m₁.name = toCamelCaseName m₂.name ∧ m₁.name ≠ m₂.name)) ∧
    (∀ gs, buildApiMethods methods typeMetadata ignoreMethodsSet = .ok gs →
      (gs.map Group.camelName).Nodup ∧
      (∀ g ∈ gs, toCamelCaseName g.sourceMethodName = g.camelName ∧
        ∀ ov ∈ g.overloads, ov.method.name = g.sourceMethodName) ∧
      (∀ m ∈ methods, ignoreMethodsSet.contains m.name = false →
        ∃ g ∈ gs, g.camelName = toCamelCaseName m.name ∧ g.sourceMethodName = m.name ∧
          ∃ ov ∈ g.overloads, ov.method = m) ∧
      (∀ g₁ ∈ gs, ∀ g₂ ∈ gs, ∀ ov₁ ∈ g₁.overloads, ∀ ov₂ ∈ g₂.overloads,
        ov₁.method.name = ov₂.method.name → g₁ = g₂)) := by
  have hwfnil : GroupsWf [] := ⟨List.nodup_nil, fun g hg => absurd hg (List.not_mem_nil g)⟩
  constructor
  · constructor
    · rintro ⟨e, he⟩
      rcases buildGo_error_imp typeMetadata ignoreMethodsSet methods [] e he with
        ⟨_, _, g, hg, _⟩ | hpair
      · exact absurd hg (List.not_mem_nil g)
      · exact hpair
    · rintro ⟨m₁, hm₁, m₂, hm₂, hcam, hne⟩
      cases hres : buildApiMethods methods typeMetadata ignoreMethodsSet with
      | error e => exact ⟨e, rfl⟩
      | ok gs =>
        exfalso
        obtain ⟨hwf, _, hcover⟩ :=
          buildGo_ok_spec typeMetadata ignoreMethodsSet methods [] gs hwfnil hres
        obtain ⟨hmem₁, hp₁⟩ := List.mem_filter.mp hm₁
        obtain ⟨hmem₂, hp₂⟩ := List.mem_filter.mp hm₂
        have hig₁ : ignoreMethodsSet.contains m₁.name = false := by
          cases hb : ignoreMethodsSet.contains m₁.name with
          | false => rfl
          | true => rw [hb] at hp₁; exact absurd hp₁ (by simp)
        have hig₂ : ignoreMethodsSet.contains m₂.name = false := by
          cases hb : ignoreMethodsSet.contains m₂.name with
          | false => rfl
          | true => rw [hb] at hp₂; exact absurd hp₂ (by simp)
        obtain ⟨g₁, hg₁, hc₁, hs₁, _⟩ := hcover m₁ hmem₁ hig₁
        obtain ⟨g₂, hg₂, hc₂, hs₂, _⟩ := hcover m₂ hmem₂ hig₂
        have : g₁ = g₂ :=
          List.inj_on_of_nodup_map hwf.1 hg₁ hg₂ (by rw [hc₁, hc₂, hcam])
        rw [this] at hs₁
        exact hne (hs₁.symm.trans hs₂)
  · intro gs hres
    obtain ⟨hwf, _, hcover⟩ :=
      buildGo_ok_spec typeMetadata ignoreMethodsSet methods [] gs hwfnil hres
    refine ⟨hwf.1, fun g hg => hwf.2 g hg, hcover, ?_⟩
    intro g₁ hg₁ g₂ hg₂ ov₁ hov₁ ov₂ hov₂ hname
    have hc₁ : toCamelCaseName ov₁.method.name = g₁.camelName := by
      rw [(hwf.2 g₁ hg₁).2 ov₁ hov₁]
      exact (hwf.2 g₁ hg₁).1
    have hc₂ : toCamelCaseName ov₂.method.name = g₂.camelName := by
      rw [(hwf.2 g₂ hg₂).2 ov₂ hov₂]
      exact (hwf.2 g₂ hg₂).1
    exact List.inj_on_of_nodup_map hwf.1 hg₁ hg₂ (by rw [← hc₁, ← hc₂, hname])

end JsbsimWasm
